import Mathlib

/-!
# MultithreadDownloader: the segmented download coordinator

A shallow embedding of `DownloadManager` (src/multithread_downloader.cpp and
src/multithread_downloader.h) together with the part of `HttpDownloader` the
coordinator relies on.

Conventions of the embedding.

* A C++ `int` is an `Int` and `file_size_t`/`size_t` are `Nat`; byte positions,
  which the code computes from both, are `Int`.  Arithmetic on them is exact
  (so is `ceil((double)m_filesize / BLOCK_4K)`), except for the one `size_t`
  subtraction of `WriteFileBulkCallback`, which wraps modulo `2^64` when it
  underflows.  The definitions of `Machine` repeat `Download`, `MapToFile` and the
  sink with the arithmetic of the target, `int` modulo `2^32`; the two models
  agree for files of up to 2 GiB, and what is stated of larger files is stated
  of `Machine`.
* A `std::vector` member is a `List`; `v[i]` is `v.getD i d` and `v[i] = x` is
  `v.set i x`.
* The operating system is a record `Sys` of outcomes of the system calls.  A
  mapping created by `mmap(0, len, PROT_WRITE, MAP_SHARED, m_w_fd, off)` is
  represented by the file offset `off` of its first byte, so the pointer
  `m_mems[i] + k` denotes byte `off + k` of the destination file and a `memcpy`
  through it updates the file contents `World.file`.
* `World.log` records the system calls, the entries into `MapToFile` and the
  `memcpy` calls in program order; it is observation only and no definition
  reads it.
* The workers run between their launch and the harvest of their futures: the
  chunks that the transport hands to the sinks form one sequence
  (`Transfer.calls`), in which the chunks of different workers interleave in any
  way.  In `Download` the first chunk arrives when the coordinator has executed
  line 185; `run` interleaves the sink calls with the statements of lines
  161-185 as well.  What `Download` and `ShowProgress` print is not modelled.
-/

namespace MultithreadDownloader

/-! ## Data model -/

/-- The constant `BLOCK_4K` of multithread_downloader.h. -/
def BLOCK_4K : Int := 4096

/-- The constant `PROGRESS_INTERVAL` of multithread_downloader.h (milliseconds). -/
def PROGRESS_INTERVAL : Int := 3000

/-- One `char` of payload. -/
abbrev Byte := Fin 256

/-- One `std::async` launch of `Downloader::Download(start_pos, end_pos, callback)`;
the callback is `WriteFileBulkCallback(data, size, thread_id)`. -/
structure Launch where
  start_pos : Int
  end_pos : Int
  thread_id : Nat
deriving DecidableEq

/-- The members of `class DownloadManager` that the coordinator computes with.
`m_threads` holds one entry per future, in `emplace_back` order; `m_mems[i]` is
`none` for `nullptr` and `some off` for a mapping whose first byte is file byte `off`. -/
structure DownloadManager where
  m_filesize : Nat
  m_thread_num : Int
  m_w_fd : Int
  m_map_page_num : Int
  m_threads : List Launch
  m_downloaded_sizes : List Nat
  m_mems : List (Option Int)
  m_block_idxs : List Int
  m_remain_block_num : List Int
  m_current_block_size : List Int
  m_current_mem_pos : List Nat

/-- The constructor `DownloadManager(int thread_num = 5, int map_page_num = 256)`. -/
def DownloadManager.ctor (thread_num map_page_num : Int) : DownloadManager :=
  { m_filesize := 0
    m_thread_num := thread_num
    m_w_fd := -1
    m_map_page_num := map_page_num
    m_threads := []
    m_downloaded_sizes := List.replicate thread_num.toNat 0
    m_mems := List.replicate thread_num.toNat none
    m_block_idxs := List.replicate thread_num.toNat 0
    m_remain_block_num := List.replicate thread_num.toNat 0
    m_current_block_size := List.replicate thread_num.toNat 0
    m_current_mem_pos := List.replicate thread_num.toNat 0 }

/-- Outcomes of the system calls: the descriptor `open` returns (`-1` on failure),
whether `lseek` and `write` on a valid descriptor succeed, whether
`munmap addr len` and `mmap len offset` succeed. -/
structure Sys where
  open_result : Int
  lseek_ok : Bool
  write_ok : Bool
  munmap_ok : Int → Int → Bool
  mmap_ok : Int → Int → Bool

/-- What the program does that is visible from outside its own variables. -/
inductive Event where
  | munmap (addr len : Int)
  | mmap (len off : Int)
  | MapToFile (thread_id : Nat) (remain_block_num : Int)
  | memcpy (thread_id : Nat) (mem_pos n : Nat) (block_size : Int)
deriving DecidableEq

/-- The coordinator together with the destination file: `file_len` is `none` while
the file does not exist, `file` holds its bytes, `log` the events so far. -/
structure World where
  dm : DownloadManager
  file : Int → Byte
  file_len : Option Nat
  log : List Event

/-- The transport capability (`HttpDownloader`) as the coordinator sees it after
`Init(url)`: the result of `Init`, `IsRangeAvailable()` and `GetFileSize()`. -/
structure Downloader where
  init_ok : Bool
  range_available : Bool
  file_size : Nat

/-- A `std::future<bool>` of a worker: `wait_for` reports it ready from the
`ready_at`-th poll of `ShowProgress` on, and `get()` yields `result`. -/
structure Future where
  ready_at : Nat
  result : Bool
deriving DecidableEq

/-! ## Download: assigning the segments and launching the workers -/

/-- The local variables of `Download` that the `for` loop updates, with the object. -/
structure DownloadLocals where
  remain_blk_num : Int
  last_pos : Int
  last_blk : Int
  dm : DownloadManager

/-- The body of the loop `for (int i = 1; i < m_thread_num; i++)` of `Download`
(lines 162-177) for the loop variable `i`, in exact arithmetic;
`Machine.Download_body` has the `int` product `block_num * BLOCK_4K` of the machine. -/
def Download_body (base_blk_num : Int) (i : Nat) (s : DownloadLocals) : DownloadLocals :=
  let block_num := if s.remain_blk_num ≠ 0 then base_blk_num + 1 else base_blk_num
  let remain_blk_num := if s.remain_blk_num ≠ 0 then s.remain_blk_num - 1 else s.remain_blk_num
  let dm1 := { s.dm with m_block_idxs := s.dm.m_block_idxs.set i s.last_blk }
  let dm2 := { dm1 with
    m_threads := dm1.m_threads ++
      [Launch.mk s.last_pos (s.last_pos + block_num * BLOCK_4K - 1) i] }
  let dm3 := { dm2 with m_remain_block_num := dm2.m_remain_block_num.set i block_num }
  { remain_blk_num := remain_blk_num
    last_pos := s.last_pos + block_num * BLOCK_4K
    last_blk := s.last_blk + block_num
    dm := dm3 }

/-- The loop `for (int i = 1; i < m_thread_num; i++)` of `Download`
(lines 161-178): `n` iterations are left and the loop variable is `i`. -/
def Download_for (base_blk_num : Int) : Nat → Nat → DownloadLocals → DownloadLocals
  | 0, _, s => s
  | n + 1, i, s => Download_for base_blk_num n (i + 1) (Download_body base_blk_num i s)

/-- The page count `ceil(m_filesize / BLOCK_4K)` as an exact integer, which is the value
of `(int)ceil((double)m_filesize / BLOCK_4K)` while it fits an `int`;
`Machine.num_of_4k_block` is the `int` of the machine. -/
def num_of_4k_block (filesize : Nat) : Int := ((filesize + 4095) / 4096 : Nat)

/-- Lines 148-151 of `Download`: a file of fewer pages than threads gets one thread
a page. -/
def Download_adjust (dm : DownloadManager) : DownloadManager :=
  if num_of_4k_block dm.m_filesize < dm.m_thread_num then
    { dm with m_thread_num := num_of_4k_block dm.m_filesize }
  else dm

/-- Lines 180-185 of `Download`: the worker with thread id 0 gets what is left, up to
the last byte of the file. -/
def Download_last (num : Int) (s : DownloadLocals) : DownloadManager :=
  let dm1 := { s.dm with m_block_idxs := s.dm.m_block_idxs.set 0 s.last_blk }
  let dm2 := { dm1 with
    m_threads := dm1.m_threads ++ [Launch.mk s.last_pos ((dm1.m_filesize : Int) - 1) 0] }
  { dm2 with m_remain_block_num := dm2.m_remain_block_num.set 0 (num - s.last_blk) }

/-- Lines 146-185 of `Download`: clamp the thread count, assign a segment to each
worker and launch it.  The futures are appended to `m_threads` in launch order. -/
def Download_launch (dm : DownloadManager) : DownloadManager :=
  let num := num_of_4k_block dm.m_filesize
  let dm0 := Download_adjust dm
  let base_blk_num := Int.tdiv num dm0.m_thread_num
  let remain_blk_num := num - base_blk_num * dm0.m_thread_num
  Download_last num
    (Download_for base_blk_num (dm0.m_thread_num - 1).toNat 1
      { remain_blk_num := remain_blk_num, last_pos := 0, last_blk := 0, dm := dm0 })

/-! ## MapToFile and the sink WriteFileBulkCallback -/

/-- Lines 308-326 of `MapToFile` in exact arithmetic: map the next
`min(m_map_page_num, m_remain_block_num[thread_id])` pages of the destination file
and advance the cursor.  `Machine.MapToFile_map` has the length, the offset and the
window length as the `int` products of the machine. -/
def MapToFile_map (sys : Sys) (w1 : World) (thread_id : Nat) : Bool × World :=
  let to_map_block_num :=
    if w1.dm.m_remain_block_num.getD thread_id 0 > w1.dm.m_map_page_num then
      w1.dm.m_map_page_num
    else w1.dm.m_remain_block_num.getD thread_id 0
  if to_map_block_num ≤ 0 then (false, w1)
  else
    let len := BLOCK_4K * to_map_block_num
    let off := w1.dm.m_block_idxs.getD thread_id 0 * BLOCK_4K
    let w2 : World := { w1 with log := w1.log ++ [Event.mmap len off] }
    if sys.mmap_ok len off = false then
      (false, { w2 with dm := { w2.dm with m_mems := w2.dm.m_mems.set thread_id none } })
    else
      let dm1 := { w2.dm with m_mems := w2.dm.m_mems.set thread_id (some off) }
      let dm2 := { dm1 with m_current_mem_pos := dm1.m_current_mem_pos.set thread_id 0 }
      let dm3 := { dm2 with
        m_block_idxs :=
          dm2.m_block_idxs.set thread_id (dm2.m_block_idxs.getD thread_id 0 + to_map_block_num) }
      let dm4 := { dm3 with
        m_remain_block_num :=
          dm3.m_remain_block_num.set thread_id
            (dm3.m_remain_block_num.getD thread_id 0 - to_map_block_num) }
      let dm5 := { dm4 with
        m_current_block_size :=
          dm4.m_current_block_size.set thread_id (to_map_block_num * BLOCK_4K) }
      (true, { w2 with dm := dm5 })

/-- The function `MapToFile(thread_id)` (lines 299-327): unmap the current window over its
`m_current_block_size[thread_id]` bytes if there is one, then map the next pages. -/
def MapToFile (sys : Sys) (w : World) (thread_id : Nat) : Bool × World :=
  let w0 : World := { w with
    log := w.log ++ [Event.MapToFile thread_id (w.dm.m_remain_block_num.getD thread_id 0)] }
  let unmapped : Bool × World :=
    match w0.dm.m_mems.getD thread_id none with
    | some addr =>
      let len := w0.dm.m_current_block_size.getD thread_id 0
      (sys.munmap_ok addr len, { w0 with log := w0.log ++ [Event.munmap addr len] })
    | none => (true, w0)
  if unmapped.1 = false then (false, unmapped.2)
  else MapToFile_map sys unmapped.2 thread_id

/-- The file after `src` has been stored at offsets `off, off + 1, ...`. -/
def writeBytes (file : Int → Byte) (off : Int) (src : List Byte) : Int → Byte :=
  fun o => if off ≤ o ∧ o < off + src.length then src.getD (o - off).toNat 0 else file o

/-- The call `memcpy(m_mems[thread_id] + m_current_mem_pos[thread_id], data + data_offset, n)`. -/
def memcpy (w : World) (thread_id : Nat) (data : List Byte) (data_offset n : Nat) : World :=
  let pos := w.dm.m_current_mem_pos.getD thread_id 0
  let w0 : World := { w with
    log := w.log ++ [Event.memcpy thread_id pos n (w.dm.m_current_block_size.getD thread_id 0)] }
  match w.dm.m_mems.getD thread_id none with
  | none => w0
  | some addr =>
    { w0 with file := writeBytes w0.file (addr + pos) ((data.drop data_offset).take n) }

/-- The `size_t` value of `m_current_block_size[thread_id] - m_current_mem_pos[thread_id]`:
the difference when the subtraction does not underflow, and the difference modulo
`2^64` when it does. -/
def remain_mem_size (block_size : Int) (mem_pos : Nat) : Nat :=
  if (mem_pos : Int) ≤ block_size then (block_size - mem_pos).toNat
  else ((block_size - mem_pos) % 2 ^ 64).toNat

/-- The loop `while (remain_data_size > remain_mem_size)` of `WriteFileBulkCallback`
(lines 276-287).  The result is `none` when `fuel` iterations did not reach the end
of the loop, otherwise whether no `MapToFile` failed, the world, `remain_data_size`
and `data_offset`. -/
def WriteFileBulkCallback_while (sys : Sys) (thread_id : Nat) (data : List Byte) :
    Nat → World → Nat → Nat → Nat → Option (Bool × World × Nat × Nat)
  | 0, w, remain_data_size, remain_mem, data_offset =>
    if remain_data_size > remain_mem then none
    else some (true, w, remain_data_size, data_offset)
  | fuel + 1, w, remain_data_size, remain_mem, data_offset =>
    if remain_data_size > remain_mem then
      let w1 := memcpy w thread_id data data_offset remain_mem
      let r := MapToFile sys w1 thread_id
      if r.1 = false then some (false, r.2, remain_data_size - remain_mem, data_offset + remain_mem)
      else
        WriteFileBulkCallback_while sys thread_id data fuel r.2
          (remain_data_size - remain_mem)
          (remain_mem_size (r.2.dm.m_current_block_size.getD thread_id 0)
            (r.2.dm.m_current_mem_pos.getD thread_id 0))
          (data_offset + remain_mem)
    else some (true, w, remain_data_size, data_offset)

/-- Lines 271-291 of `WriteFileBulkCallback`, with `size = data.length`: copy the
data into the window, mapping the next window whenever the current one is full.
Every iteration of the loop but a failing one maps at least one page, so
`m_remain_block_num[thread_id] + 1` iterations always reach its end. -/
def WriteFileBulkCallback_write (sys : Sys) (w1 : World) (data : List Byte) (thread_id : Nat) :
    Option (Bool × World) :=
  let size := data.length
  match WriteFileBulkCallback_while sys thread_id data
      ((w1.dm.m_remain_block_num.getD thread_id 0).toNat + 1) w1 size
      (remain_mem_size (w1.dm.m_current_block_size.getD thread_id 0)
        (w1.dm.m_current_mem_pos.getD thread_id 0)) 0 with
  | none => none
  | some (false, w2, _, _) => some (false, w2)
  | some (true, w2, remain_data_size, data_offset) =>
    let w3 := memcpy w2 thread_id data data_offset remain_data_size
    let dm1 := { w3.dm with
      m_current_mem_pos :=
        w3.dm.m_current_mem_pos.set thread_id
          (w3.dm.m_current_mem_pos.getD thread_id 0 + remain_data_size) }
    let dm2 := { dm1 with
      m_downloaded_sizes :=
        dm1.m_downloaded_sizes.set thread_id (dm1.m_downloaded_sizes.getD thread_id 0 + size) }
    some (true, { w3 with dm := dm2 })

/-- The sink `WriteFileBulkCallback(data, size, thread_id)` (lines 265-292) with
`size = data.length`: map the first window if none is mapped, then write. -/
def WriteFileBulkCallback (sys : Sys) (w : World) (data : List Byte) (thread_id : Nat) :
    Option (Bool × World) :=
  let r : Bool × World :=
    match w.dm.m_mems.getD thread_id none with
    | none => MapToFile sys w thread_id
    | some _ => (true, w)
  if r.1 = false then some (false, r.2)
  else WriteFileBulkCallback_write sys r.2 data thread_id

/-- The transport at work: the chunks `(thread_id, data)` arrive in this order and
each is handed to the sink of its worker through `HttpDownloader::ReadDataCallback`,
which returns 0 instead of the chunk size when the sink returns false; a transfer
whose callback did not return the chunk size is aborted and delivers nothing more.
The result lists what the sink calls returned. -/
def deliver (sys : Sys) : List (Nat × List Byte) → List Nat → World → Option (List Bool × World)
  | [], _, w => some ([], w)
  | (thread_id, data) :: rest, aborted, w =>
    if thread_id ∈ aborted then deliver sys rest aborted w
    else
      match WriteFileBulkCallback sys w data thread_id with
      | none => none
      | some (ok, w1) =>
        let total_size := data.length
        let ret := if ok = false then 0 else total_size
        match deliver sys rest (if ret ≠ total_size then thread_id :: aborted else aborted) w1 with
        | none => none
        | some (rs, w2) => some (ok :: rs, w2)

/-! ## ReleaseMem -/

/-- The body of the loop of `ReleaseMem` for one entry `mem` of `m_mems`: `acc` holds
`flag` and the world. -/
def ReleaseMem_body (sys : Sys) (acc : Bool × World) (mem : Option Int) : Bool × World :=
  match mem with
  | none => acc
  | some addr =>
    (if sys.munmap_ok addr BLOCK_4K = false then false else acc.1,
      { acc.2 with log := acc.2.log ++ [Event.munmap addr BLOCK_4K] })

/-- The function `ReleaseMem()` (lines 59-68): one `munmap(mem, BLOCK_4K)` per non-null entry of
`m_mems`; the result is false when one of them failed. -/
def ReleaseMem (sys : Sys) (w : World) : Bool × World :=
  w.dm.m_mems.foldl (ReleaseMem_body sys) (true, w)

/-! ## CreateEmptyFile and Init -/

/-- The function `CreateEmptyFile()` (lines 85-101).  `open` with `O_CREAT | O_RDWR | O_TRUNC`
leaves an empty file when it succeeds; `lseek` fails on an invalid descriptor;
`write(m_w_fd, "", 1)` stores one zero byte at the descriptor's offset and its
result is not looked at. -/
def CreateEmptyFile (sys : Sys) (w : World) : Bool × World :=
  let fd := sys.open_result
  let w1 : World :=
    if 0 ≤ fd then
      { w with dm := { w.dm with m_w_fd := fd }, file := fun _ => 0, file_len := some 0 }
    else { w with dm := { w.dm with m_w_fd := fd } }
  if fd = 0 then (false, w1)
  else
    let lseek_result : Int :=
      if fd < 0 ∨ sys.lseek_ok = false then -1 else (w1.dm.m_filesize : Int) - 1
    if w1.dm.m_filesize > 0 ∧ lseek_result = -1 then (false, w1)
    else
      let offset : Nat := if w1.dm.m_filesize > 0 then w1.dm.m_filesize - 1 else 0
      let w2 : World :=
        if 0 ≤ fd ∧ sys.write_ok = true then
          { w1 with
            file := Function.update w1.file (offset : Int) 0
            file_len := w1.file_len.map (fun len => max len (offset + 1)) }
        else w1
      (true, w2)

/-- The kinds of transport (`enum DownloaderType`). -/
inductive DownloaderType where
  | HTTP
deriving DecidableEq

/-- The function `GetDownloader(type)`: `http` stands for `new HttpDownloader()`. -/
def GetDownloader (type : DownloaderType) (http : Downloader) : Option Downloader :=
  match type with
  | DownloaderType.HTTP => some http

/-- The function `Init(info, save_path)` (lines 109-135); `http` is the transport that
`GetDownloader` creates, as it behaves for `info.url`. -/
def Init (sys : Sys) (type : DownloaderType) (http : Downloader) (w : World) : Bool × World :=
  match GetDownloader type http with
  | none => (false, w)
  | some m_downloader =>
    if m_downloader.init_ok = false then (false, w)
    else
      let dm1 :=
        if m_downloader.range_available = false then { w.dm with m_thread_num := 1 } else w.dm
      let dm2 := { dm1 with m_filesize := m_downloader.file_size }
      CreateEmptyFile sys { w with dm := dm2 }

/-! ## ShowProgress and Download -/

/-- How one pass over `m_threads` ends: with `return false`, or at `m_threads.end()`
with the futures left, the number of polls made so far, `undone_thread_num` and
`wait_time`. -/
inductive Harvest where
  | failed
  | more (threads : List Future) (tick : Nat) (undone_thread_num wait_time : Int)

/-- The loop `for (; it != m_threads.end(); )` of `ShowProgress` (lines 236-253)
from the iterator position on: `tick` counts the `wait_for` calls made so far. -/
def ShowProgress_for : List Future → Nat → Int → Int → Harvest
  | [], tick, undone_thread_num, wait_time => Harvest.more [] tick undone_thread_num wait_time
  | f :: rest, tick, undone_thread_num, wait_time =>
    if tick < f.ready_at then
      match ShowProgress_for rest (tick + 1) undone_thread_num wait_time with
      | Harvest.failed => Harvest.failed
      | Harvest.more threads t u wt => Harvest.more (f :: threads) t u wt
    else if f.result = false then Harvest.failed
    else
      let undone := undone_thread_num - 1
      let wait := if undone ≠ 0 then Int.tdiv PROGRESS_INTERVAL undone else wait_time
      ShowProgress_for rest (tick + 1) undone wait

/-- The loop `while (undone_thread_num != 0)` of `ShowProgress` (lines 216-254);
`none` when `fuel` passes did not end it.  The progress bar it prints is not modelled. -/
def ShowProgress_while : Nat → List Future → Nat → Int → Int → Option Bool
  | 0, _, _, undone_thread_num, _ => if undone_thread_num ≠ 0 then none else some true
  | fuel + 1, threads, tick, undone_thread_num, wait_time =>
    if undone_thread_num ≠ 0 then
      match ShowProgress_for threads tick undone_thread_num wait_time with
      | Harvest.failed => some false
      | Harvest.more threads1 t u wt => ShowProgress_while fuel threads1 t u wt
    else some true

/-- The function `ShowProgress()` (lines 206-256) over the futures held in `m_threads`. -/
def ShowProgress (fuel : Nat) (threads : List Future) (dm : DownloadManager) : Option Bool :=
  let undone_thread_num := dm.m_thread_num
  let wait_time := Int.tdiv PROGRESS_INTERVAL undone_thread_num
  ShowProgress_while fuel threads 0 undone_thread_num wait_time

/-- What happens outside the coordinator during one download: the chunks the
transport delivers, in the order in which the sinks receive them, and the future of
the worker whose sink has a given thread id. -/
structure Transfer where
  calls : List (Nat × List Byte)
  future : Nat → Future

/-- The function `Download()` (lines 141-200).  The workers run between their launch and the
harvest of their futures; `none` when `ShowProgress` did not return within `fuel`
passes. -/
def Download (sys : Sys) (env : Transfer) (fuel : Nat) (w : World) : Option (Bool × World) :=
  if w.dm.m_filesize = 0 then some (true, w)
  else
    let w1 : World := { w with dm := Download_launch w.dm }
    match deliver sys env.calls [] w1 with
    | none => none
    | some (_, w2) =>
      match ShowProgress fuel (w2.dm.m_threads.map (fun l => env.future l.thread_id)) w2.dm with
      | none => none
      | some false => some (false, w2)
      | some true =>
        let r := ReleaseMem sys w2
        if r.1 = false then some (false, r.2) else some (true, r.2)

/-! ## Vocabulary of the statements -/

/-- The value of `m_thread_num` after the adjustment of lines 148-151, for a file
of `F` bytes and `T` requested threads. -/
def thread_num_clamped (F : Nat) (T : Int) : Int :=
  if num_of_4k_block F < T then num_of_4k_block F else T

/-- The local `base_blk_num` of `Download` (line 154). -/
def base_blk_num (F : Nat) (T : Int) : Int :=
  Int.tdiv (num_of_4k_block F) (thread_num_clamped F T)

/-- The initial value of the local `remain_blk_num` of `Download` (line 155). -/
def extra_blk_num (F : Nat) (T : Int) : Int :=
  num_of_4k_block F - base_blk_num F T * thread_num_clamped F T

/-- The first page of the `k`-th segment in launch order when every segment has
`base` pages and the first `extra` segments one page more. -/
def startPage (base extra : Int) (k : Nat) : Int := k * base + min (k : Int) extra

/-- The segments in launch order, in closed form: thread ids `1, 2, ..., T' - 1` get
the pages from page 0 upward and thread id 0 gets the rest, up to byte `F - 1`. -/
def planSegments (F : Nat) (T : Int) : List Launch :=
  (List.range (thread_num_clamped F T - 1).toNat).map (fun k =>
    Launch.mk (startPage (base_blk_num F T) (extra_blk_num F T) k * BLOCK_4K)
      (startPage (base_blk_num F T) (extra_blk_num F T) (k + 1) * BLOCK_4K - 1) (1 + k)) ++
  [Launch.mk ((num_of_4k_block F - base_blk_num F T) * BLOCK_4K) ((F : Int) - 1) 0]

/-- The ranges of `segs`, in this order, start at `a`, are non-empty, and each
starts right after the one before it ends; the last one ends at `b - 1`. -/
def Contiguous : Int → List Launch → Int → Prop
  | a, [], b => a = b
  | a, l :: ls, b => l.start_pos = a ∧ l.start_pos ≤ l.end_pos ∧ Contiguous (l.end_pos + 1) ls b

/-- The state of one worker in the words of the specification. -/
structure WorkerState where
  downloaded_bytes : Nat
  cursor_page : Int
  remaining_pages : Int
  window : Option Int
  window_len : Int
  window_pos : Nat
deriving DecidableEq

/-- The state of the worker with thread id `i`: entry `i` of each vector. -/
def DownloadManager.worker (dm : DownloadManager) (i : Nat) : WorkerState :=
  { downloaded_bytes := dm.m_downloaded_sizes.getD i 0
    cursor_page := dm.m_block_idxs.getD i 0
    remaining_pages := dm.m_remain_block_num.getD i 0
    window := dm.m_mems.getD i none
    window_len := dm.m_current_block_size.getD i 0
    window_pos := dm.m_current_mem_pos.getD i 0 }

/-- Each of the six vectors has `n` entries. -/
def DownloadManager.Sized (dm : DownloadManager) (n : Nat) : Prop :=
  dm.m_downloaded_sizes.length = n ∧ dm.m_mems.length = n ∧ dm.m_block_idxs.length = n ∧
    dm.m_remain_block_num.length = n ∧ dm.m_current_block_size.length = n ∧
    dm.m_current_mem_pos.length = n

/-- The file offset at which the worker with thread id `i` stores its next byte. -/
def World.cursor (w : World) (i : Nat) : Int :=
  match w.dm.m_mems.getD i none with
  | none => w.dm.m_block_idxs.getD i 0 * BLOCK_4K
  | some addr => addr + w.dm.m_current_mem_pos.getD i 0

/-- An event that is in order: `MapToFile` is entered with pages left to map, and a
`memcpy` ends inside the window it writes to. -/
def Event.safe : Event → Prop
  | Event.MapToFile _ remain_block_num => 0 < remain_block_num
  | Event.memcpy _ mem_pos n block_size => (mem_pos : Int) + n ≤ block_size
  | _ => True

/-- The state of worker `i` is consistent and its segment ends with page `E - 1`:
the pages mapped so far and the pages left add up to `E`, and the window, when
there is one, ends where the next window starts and holds the write position. -/
def WInv (w : World) (i : Nat) (E : Int) : Prop :=
  0 ≤ w.dm.m_remain_block_num.getD i 0 ∧
  w.dm.m_block_idxs.getD i 0 + w.dm.m_remain_block_num.getD i 0 = E ∧
  match w.dm.m_mems.getD i none with
  | none => 1 ≤ w.dm.m_remain_block_num.getD i 0
  | some addr =>
    addr + w.dm.m_current_block_size.getD i 0 = w.dm.m_block_idxs.getD i 0 * BLOCK_4K ∧
    (w.dm.m_current_mem_pos.getD i 0 : Int) ≤ w.dm.m_current_block_size.getD i 0

/-- Between `w` and `w1` nothing changed but the state of worker `i`, the file
contents and the log. -/
def Frame (i : Nat) (w w1 : World) : Prop :=
  (∀ j, j ≠ i → w1.dm.worker j = w.dm.worker j) ∧
  w1.dm.m_filesize = w.dm.m_filesize ∧ w1.dm.m_thread_num = w.dm.m_thread_num ∧
  w1.dm.m_w_fd = w.dm.m_w_fd ∧ w1.dm.m_map_page_num = w.dm.m_map_page_num ∧
  w1.dm.m_threads = w.dm.m_threads ∧ w1.file_len = w.file_len

/-- The number of bytes in the chunks of `calls` that go to the sink with thread id `i`. -/
def delivered (i : Nat) : List (Nat × List Byte) → Nat
  | [] => 0
  | c :: rest => (if c.1 = i then c.2.length else 0) + delivered i rest

/-- The bytes that the sink with thread id `i` receives from `calls`, in order. -/
def received (i : Nat) : List (Nat × List Byte) → List Byte
  | [] => []
  | c :: rest => if c.1 = i then c.2 ++ received i rest else received i rest

/-- The bytes `a, a + 1, ..., b` of the resource. -/
def resourceBytes (resource : Int → Byte) (a b : Int) : List Byte :=
  (List.range (b + 1 - a).toNat).map (fun (k : Nat) => resource (a + (k : Int)))

/-- The first byte of the segment of the worker with thread id `i`. -/
def segStart (segs : List Launch) (i : Nat) : Int :=
  match segs.find? (fun l => l.thread_id = i) with
  | some l => l.start_pos
  | none => 0

/-- Following the specification: byte delivery to a sink is FIFO along its segment,
so a chunk that reaches the sink with thread id `i` after `accepted i` bytes is stored
at file offset `start i + accepted i` and onwards. -/
def storeChunks (start : Nat → Int) :
    List (Nat × List Byte) → (Nat → Nat) → (Int → Byte) → (Int → Byte)
  | [], _, file => file
  | c :: rest, accepted, file =>
    storeChunks start rest (Function.update accepted c.1 (accepted c.1 + c.2.length))
      (writeBytes file (start c.1 + accepted c.1) c.2)

/-- The vectors are as the constructor leaves them, with `n` entries each, and no
worker has been launched. -/
def DownloadManager.Fresh (dm : DownloadManager) (n : Nat) : Prop :=
  dm.Sized n ∧ dm.m_threads = [] ∧ (∀ i, dm.m_mems.getD i none = none) ∧
    (∀ i, dm.m_downloaded_sizes.getD i 0 = 0)

/-- Every launched worker is in a consistent state, its pages cover its segment, and
its cursor is `downloaded_bytes` behind the start of its segment. -/
def GInv (segs : List Launch) (n : Nat) (w : World) : Prop :=
  w.dm.Sized n ∧ 1 ≤ w.dm.m_map_page_num ∧
  ∀ l ∈ segs, l.thread_id < n ∧ ∃ E, WInv w l.thread_id E ∧ l.end_pos + 1 ≤ E * BLOCK_4K ∧
    w.cursor l.thread_id = l.start_pos + w.dm.m_downloaded_sizes.getD l.thread_id 0

/-! ## Concrete inputs -/

/-- A system in which every call succeeds; `open` returns the descriptor 3. -/
def Sys.allOk : Sys :=
  { open_result := 3
    lseek_ok := true
    write_ok := true
    munmap_ok := fun _ _ => true
    mmap_ok := fun _ _ => true }

/-- The coordinator as `main` constructs it, before `Init`: the destination file
does not exist yet. -/
def World.initial (thread_num map_page_num : Int) : World :=
  { dm := DownloadManager.ctor thread_num map_page_num
    file := fun _ => 0
    file_len := none
    log := [] }

/-- The coordinator as `main` constructs it, once `Init` has stored the file size
`F`, next to a destination file of `F` zero bytes. -/
def World.start (F : Nat) (thread_num map_page_num : Int) : World :=
  { dm := { DownloadManager.ctor thread_num map_page_num with m_filesize := F, m_w_fd := 3 }
    file := fun _ => 0
    file_len := some F
    log := [] }

/-- A transfer that delivers nothing and whose workers all report success at once. -/
def Transfer.idle : Transfer :=
  { calls := []
    future := fun _ => { ready_at := 0, result := true } }

/-- A resource of five bytes and more. -/
def exampleResource : Int → Byte :=
  fun o => if o < 2 then 65 else if o < 4 then 66 else 67

/-- Its first five bytes, cut into two chunks for the sink with thread id 0. -/
def exampleCalls : List (Nat × List Byte) :=
  [(0, [65, 65]), (0, [66, 66, 67])]

/-! ## The 32-bit arithmetic of the machine

The definitions above compute with exact integers.  Those of `Machine` below
follow the same source lines with the arithmetic of the target: an expression of
type `int` is computed modulo `2^32` and one of type `file_size_t` or `size_t`
modulo `2^64`.  Signed overflow, which the language leaves undefined, is taken as
the wrap-around that the target performs. -/

/-- The value of type `int` that the machine computes for an expression whose exact
value is `x`: the representative of `x` modulo `2^32` in `-2^31 .. 2^31 - 1`. -/
def wrap32 (x : Int) : Int := (x + 2 ^ 31) % 2 ^ 32 - 2 ^ 31

/-- The value of type `file_size_t` (`unsigned long long`) or `size_t` for an
expression whose exact value is `x`: `x` modulo `2^64`. -/
def wrap64 (x : Int) : Int := x % 2 ^ 64

namespace Machine

/-- The `int` value of `(int)ceil((double)m_filesize / BLOCK_4K)` (line 147).  While
the page count is below `2^31` the conversion to `double`, the division by a power
of two and the rounding are exact and the result is the page count.  From `2^31`
pages on the result does not fit an `int` and the conversion yields `INT_MIN`, as
the x86-64 instruction for it does. -/
def num_of_4k_block (filesize : Nat) : Int :=
  if MultithreadDownloader.num_of_4k_block filesize < 2 ^ 31 then
    MultithreadDownloader.num_of_4k_block filesize
  else -2 ^ 31

/-- Lines 148-151 of `Download` with the `int` page count. -/
def Download_adjust (dm : DownloadManager) : DownloadManager :=
  if num_of_4k_block dm.m_filesize < dm.m_thread_num then
    { dm with m_thread_num := num_of_4k_block dm.m_filesize }
  else dm

/-- The body of the loop of `Download` (lines 162-177) in machine arithmetic:
`block_num * BLOCK_4K` is a product of two `int`, converted to `file_size_t` when it
is added to `last_pos`. -/
def Download_body (base_blk_num : Int) (i : Nat) (s : DownloadLocals) : DownloadLocals :=
  let block_num := if s.remain_blk_num ≠ 0 then wrap32 (base_blk_num + 1) else base_blk_num
  let remain_blk_num :=
    if s.remain_blk_num ≠ 0 then wrap32 (s.remain_blk_num - 1) else s.remain_blk_num
  let dm1 := { s.dm with m_block_idxs := s.dm.m_block_idxs.set i s.last_blk }
  let dm2 := { dm1 with
    m_threads := dm1.m_threads ++
      [Launch.mk s.last_pos (wrap64 (s.last_pos + wrap32 (block_num * BLOCK_4K) - 1)) i] }
  let dm3 := { dm2 with m_remain_block_num := dm2.m_remain_block_num.set i block_num }
  { remain_blk_num := remain_blk_num
    last_pos := wrap64 (s.last_pos + wrap32 (block_num * BLOCK_4K))
    last_blk := wrap32 (s.last_blk + block_num)
    dm := dm3 }

/-- The loop `for (int i = 1; i < m_thread_num; i++)` of `Download` in machine
arithmetic: `n` iterations are left and the loop variable is `i`. -/
def Download_for (base_blk_num : Int) : Nat → Nat → DownloadLocals → DownloadLocals
  | 0, _, s => s
  | n + 1, i, s => Download_for base_blk_num n (i + 1) (Download_body base_blk_num i s)

/-- Lines 180-185 of `Download` in machine arithmetic. -/
def Download_last (num : Int) (s : DownloadLocals) : DownloadManager :=
  let dm1 := { s.dm with m_block_idxs := s.dm.m_block_idxs.set 0 s.last_blk }
  let dm2 := { dm1 with
    m_threads := dm1.m_threads ++
      [Launch.mk s.last_pos (wrap64 ((dm1.m_filesize : Int) - 1)) 0] }
  { dm2 with m_remain_block_num := dm2.m_remain_block_num.set 0 (wrap32 (num - s.last_blk)) }

/-- Lines 146-185 of `Download` in machine arithmetic. -/
def Download_launch (dm : DownloadManager) : DownloadManager :=
  let num := num_of_4k_block dm.m_filesize
  let dm0 := Download_adjust dm
  let base_blk_num := Int.tdiv num dm0.m_thread_num
  let remain_blk_num := wrap32 (num - wrap32 (base_blk_num * dm0.m_thread_num))
  Download_last num
    (Download_for base_blk_num (dm0.m_thread_num - 1).toNat 1
      { remain_blk_num := remain_blk_num, last_pos := 0, last_blk := 0, dm := dm0 })

/-- Lines 308-326 of `MapToFile` in machine arithmetic: the length
`BLOCK_4K * to_map_block_num` and the offset `m_block_idxs[thread_id] * BLOCK_4K` are
products of two `int`; the length is converted to `size_t` and the offset to `off_t`,
which holds every `int`. -/
def MapToFile_map (sys : Sys) (w1 : World) (thread_id : Nat) : Bool × World :=
  let to_map_block_num :=
    if w1.dm.m_remain_block_num.getD thread_id 0 > w1.dm.m_map_page_num then
      w1.dm.m_map_page_num
    else w1.dm.m_remain_block_num.getD thread_id 0
  if to_map_block_num ≤ 0 then (false, w1)
  else
    let len := wrap64 (wrap32 (BLOCK_4K * to_map_block_num))
    let off := wrap32 (w1.dm.m_block_idxs.getD thread_id 0 * BLOCK_4K)
    let w2 : World := { w1 with log := w1.log ++ [Event.mmap len off] }
    if sys.mmap_ok len off = false then
      (false, { w2 with dm := { w2.dm with m_mems := w2.dm.m_mems.set thread_id none } })
    else
      let dm1 := { w2.dm with m_mems := w2.dm.m_mems.set thread_id (some off) }
      let dm2 := { dm1 with m_current_mem_pos := dm1.m_current_mem_pos.set thread_id 0 }
      let dm3 := { dm2 with
        m_block_idxs :=
          dm2.m_block_idxs.set thread_id
            (wrap32 (dm2.m_block_idxs.getD thread_id 0 + to_map_block_num)) }
      let dm4 := { dm3 with
        m_remain_block_num :=
          dm3.m_remain_block_num.set thread_id
            (wrap32 (dm3.m_remain_block_num.getD thread_id 0 - to_map_block_num)) }
      let dm5 := { dm4 with
        m_current_block_size :=
          dm4.m_current_block_size.set thread_id (wrap32 (to_map_block_num * BLOCK_4K)) }
      (true, { w2 with dm := dm5 })

/-- The function `MapToFile(thread_id)` (lines 299-327) in machine arithmetic. -/
def MapToFile (sys : Sys) (w : World) (thread_id : Nat) : Bool × World :=
  let w0 : World := { w with
    log := w.log ++ [Event.MapToFile thread_id (w.dm.m_remain_block_num.getD thread_id 0)] }
  let unmapped : Bool × World :=
    match w0.dm.m_mems.getD thread_id none with
    | some addr =>
      let len := w0.dm.m_current_block_size.getD thread_id 0
      (sys.munmap_ok addr len, { w0 with log := w0.log ++ [Event.munmap addr len] })
    | none => (true, w0)
  if unmapped.1 = false then (false, unmapped.2)
  else MapToFile_map sys unmapped.2 thread_id

/-- The loop `while (remain_data_size > remain_mem_size)` of `WriteFileBulkCallback`
(lines 276-287) over the `MapToFile` of the machine. -/
def WriteFileBulkCallback_while (sys : Sys) (thread_id : Nat) (data : List Byte) :
    Nat → World → Nat → Nat → Nat → Option (Bool × World × Nat × Nat)
  | 0, w, remain_data_size, remain_mem, data_offset =>
    if remain_data_size > remain_mem then none
    else some (true, w, remain_data_size, data_offset)
  | fuel + 1, w, remain_data_size, remain_mem, data_offset =>
    if remain_data_size > remain_mem then
      let w1 := memcpy w thread_id data data_offset remain_mem
      let r := MapToFile sys w1 thread_id
      if r.1 = false then some (false, r.2, remain_data_size - remain_mem, data_offset + remain_mem)
      else
        WriteFileBulkCallback_while sys thread_id data fuel r.2
          (remain_data_size - remain_mem)
          (remain_mem_size (r.2.dm.m_current_block_size.getD thread_id 0)
            (r.2.dm.m_current_mem_pos.getD thread_id 0))
          (data_offset + remain_mem)
    else some (true, w, remain_data_size, data_offset)

/-- Lines 271-291 of `WriteFileBulkCallback` over the `MapToFile` of the machine, with
`size = data.length`.  Every iteration of the loop but a failing one lowers
`m_remain_block_num[thread_id]`, so `m_remain_block_num[thread_id] + 1` iterations
always reach its end. -/
def WriteFileBulkCallback_write (sys : Sys) (w1 : World) (data : List Byte) (thread_id : Nat) :
    Option (Bool × World) :=
  let size := data.length
  match WriteFileBulkCallback_while sys thread_id data
      ((w1.dm.m_remain_block_num.getD thread_id 0).toNat + 1) w1 size
      (remain_mem_size (w1.dm.m_current_block_size.getD thread_id 0)
        (w1.dm.m_current_mem_pos.getD thread_id 0)) 0 with
  | none => none
  | some (false, w2, _, _) => some (false, w2)
  | some (true, w2, remain_data_size, data_offset) =>
    let w3 := memcpy w2 thread_id data data_offset remain_data_size
    let dm1 := { w3.dm with
      m_current_mem_pos :=
        w3.dm.m_current_mem_pos.set thread_id
          (w3.dm.m_current_mem_pos.getD thread_id 0 + remain_data_size) }
    let dm2 := { dm1 with
      m_downloaded_sizes :=
        dm1.m_downloaded_sizes.set thread_id (dm1.m_downloaded_sizes.getD thread_id 0 + size) }
    some (true, { w3 with dm := dm2 })

/-- The sink `WriteFileBulkCallback(data, size, thread_id)` (lines 265-292) over the
`MapToFile` of the machine. -/
def WriteFileBulkCallback (sys : Sys) (w : World) (data : List Byte) (thread_id : Nat) :
    Option (Bool × World) :=
  let r : Bool × World :=
    match w.dm.m_mems.getD thread_id none with
    | none => MapToFile sys w thread_id
    | some _ => (true, w)
  if r.1 = false then some (false, r.2)
  else WriteFileBulkCallback_write sys r.2 data thread_id

/-- The transport at work (see `MultithreadDownloader.deliver`) with the sink of the
machine. -/
def deliver (sys : Sys) : List (Nat × List Byte) → List Nat → World → Option (List Bool × World)
  | [], _, w => some ([], w)
  | (thread_id, data) :: rest, aborted, w =>
    if thread_id ∈ aborted then deliver sys rest aborted w
    else
      match WriteFileBulkCallback sys w data thread_id with
      | none => none
      | some (ok, w1) =>
        let total_size := data.length
        let ret := if ok = false then 0 else total_size
        match deliver sys rest (if ret ≠ total_size then thread_id :: aborted else aborted) w1 with
        | none => none
        | some (rs, w2) => some (ok :: rs, w2)

/-- The function `Download()` (lines 141-200) in machine arithmetic; `none` when
`ShowProgress` did not return within `fuel` passes. -/
def Download (sys : Sys) (env : Transfer) (fuel : Nat) (w : World) : Option (Bool × World) :=
  if w.dm.m_filesize = 0 then some (true, w)
  else
    let w1 : World := { w with dm := Download_launch w.dm }
    match deliver sys env.calls [] w1 with
    | none => none
    | some (_, w2) =>
      match ShowProgress fuel (w2.dm.m_threads.map (fun l => env.future l.thread_id)) w2.dm with
      | none => none
      | some false => some (false, w2)
      | some true =>
        let r := ReleaseMem sys w2
        if r.1 = false then some (false, r.2) else some (true, r.2)

end Machine

/-- The pages of the worker with thread id `i`, those mapped so far and those left,
end at or before page `2^19`, that is byte `2^31`. -/
def DownloadManager.Small (dm : DownloadManager) (i : Nat) : Prop :=
  0 ≤ dm.m_block_idxs.getD i 0 ∧
    dm.m_block_idxs.getD i 0 + dm.m_remain_block_num.getD i 0 ≤ 2 ^ 19

/-- A system in which `mmap` behaves as on Linux for the arguments the coordinator
passes: it fails for a length of 0 and for a negative offset, and succeeds
otherwise; every other call succeeds. -/
def Sys.linux : Sys :=
  { open_result := 3
    lseek_ok := true
    write_ok := true
    munmap_ok := fun _ _ => true
    mmap_ok := fun len off => decide (0 < len ∧ 0 ≤ off) }

/-! ## The statements of Download in program order, and the schedules of the workers -/

/-- The statements of `Download` that write the state of a worker or launch one. -/
inductive Stmt where
  | set_block_idxs (i : Nat) (last_blk : Int)
  | launch (l : Launch)
  | set_remain_block_num (i : Nat) (block_num : Int)
deriving DecidableEq

/-- What a statement does to the coordinator: `m_block_idxs[i] = last_blk`,
`m_threads.emplace_back(std::async(...))`, `m_remain_block_num[i] = block_num`. -/
def Stmt.exec : Stmt → DownloadManager → DownloadManager
  | Stmt.set_block_idxs i last_blk, dm => { dm with m_block_idxs := dm.m_block_idxs.set i last_blk }
  | Stmt.launch l, dm => { dm with m_threads := dm.m_threads ++ [l] }
  | Stmt.set_remain_block_num i block_num, dm =>
    { dm with m_remain_block_num := dm.m_remain_block_num.set i block_num }

/-- The statements of one iteration of the loop of `Download` for the loop variable
`i`, in the order of the source: lines 167, 173-174 and 177. -/
def Download_body_stmts (base_blk_num : Int) (i : Nat) (s : DownloadLocals) : List Stmt :=
  let block_num := if s.remain_blk_num ≠ 0 then base_blk_num + 1 else base_blk_num
  [Stmt.set_block_idxs i s.last_blk,
   Stmt.launch (Launch.mk s.last_pos (s.last_pos + block_num * BLOCK_4K - 1) i),
   Stmt.set_remain_block_num i block_num]

/-- The statements of the loop of `Download` (lines 161-178) in program order: `n`
iterations are left and the loop variable is `i`. -/
def Download_for_stmts (base_blk_num : Int) : Nat → Nat → DownloadLocals → List Stmt
  | 0, _, _ => []
  | n + 1, i, s =>
    Download_body_stmts base_blk_num i s ++
      Download_for_stmts base_blk_num n (i + 1) (Download_body base_blk_num i s)

/-- The statements of lines 180-185 of `Download` in program order: lines 180, 181-184
and 185. -/
def Download_last_stmts (num : Int) (s : DownloadLocals) : List Stmt :=
  [Stmt.set_block_idxs 0 s.last_blk,
   Stmt.launch (Launch.mk s.last_pos ((s.dm.m_filesize : Int) - 1) 0),
   Stmt.set_remain_block_num 0 (num - s.last_blk)]

/-- The statements that `Download` executes from line 161 to line 185, in program
order, for the coordinator `dm` that enters `Download`. -/
def Download_stmts (dm : DownloadManager) : List Stmt :=
  let num := num_of_4k_block dm.m_filesize
  let dm0 := Download_adjust dm
  let base_blk_num := Int.tdiv num dm0.m_thread_num
  let remain_blk_num := num - base_blk_num * dm0.m_thread_num
  let s0 : DownloadLocals :=
    { remain_blk_num := remain_blk_num, last_pos := 0, last_blk := 0, dm := dm0 }
  Download_for_stmts base_blk_num (dm0.m_thread_num - 1).toNat 1 s0 ++
    Download_last_stmts num (Download_for base_blk_num (dm0.m_thread_num - 1).toNat 1 s0)

/-- The worker state that a statement writes, if it writes one. -/
def Stmt.writes : Stmt → Option Nat
  | Stmt.set_block_idxs i _ => some i
  | Stmt.launch _ => none
  | Stmt.set_remain_block_num i _ => some i

/-- No statement of `stmts` that follows the launch of a worker writes the state of
that worker. -/
def WritesPrecedeLaunch : List Stmt → Prop
  | [] => True
  | Stmt.launch l :: rest =>
    (∀ s ∈ rest, s.writes ≠ some l.thread_id) ∧ WritesPrecedeLaunch rest
  | _ :: rest => WritesPrecedeLaunch rest

/-- One step of an execution of `Download` together with its workers: the coordinator
executes its next statement, or the transport hands a chunk to the sink of a worker
that has been launched. -/
inductive Step where
  | coordinator
  | sink (thread_id : Nat) (data : List Byte)

/-- An execution of the statements `stmts` of the coordinator interleaved with sink
calls of the launched workers, as `std::launch::async` allows: the task of a worker
runs on a thread of its own from its launch on.  The result lists the thread id and
the return value of each sink call; it is `none` when the schedule asks for a
statement after the last one, or for the sink of a worker that has not been launched
or whose transfer is aborted (see `deliver`). -/
def run (sys : Sys) :
    List Step → List Stmt → List Nat → World → Option (List (Nat × Bool) × World)
  | [], _, _, w => some ([], w)
  | Step.coordinator :: _, [], _, _ => none
  | Step.coordinator :: steps, s :: stmts, aborted, w =>
    run sys steps stmts aborted { w with dm := s.exec w.dm }
  | Step.sink thread_id data :: steps, stmts, aborted, w =>
    if (∀ l ∈ w.dm.m_threads, l.thread_id ≠ thread_id) ∨ thread_id ∈ aborted then none
    else
      match WriteFileBulkCallback sys w data thread_id with
      | none => none
      | some (ok, w1) =>
        let total_size := data.length
        let ret := if ok = false then 0 else total_size
        match run sys steps stmts
            (if ret ≠ total_size then thread_id :: aborted else aborted) w1 with
        | none => none
        | some (rs, w2) => some ((thread_id, ok) :: rs, w2)

/-- Lines 146-185 of `Download` executed together with the workers they launch, in
the order given by `steps`. -/
def Download_run (sys : Sys) (steps : List Step) (w : World) :
    Option (List (Nat × Bool) × World) :=
  run sys steps (Download_stmts w.dm) [] { w with dm := Download_adjust w.dm }

/-! # Theorems -/

/-! ## Vectors -/

theorem getD_set_self {α : Type} (l : List α) (i : Nat) (a d : α) (h : i < l.length) :
    (l.set i a).getD i d = a := by
  simp [List.getD_eq_getElem?_getD, List.getElem?_set, h]

theorem getD_set_of_ne {α : Type} (l : List α) (i j : Nat) (a d : α) (h : i ≠ j) :
    (l.set i a).getD j d = l.getD j d := by
  simp [List.getD_eq_getElem?_getD, List.getElem?_set_ne h]

theorem getD_set_ge {α : Type} (l : List α) (i j : Nat) (a d : α) (h : l.length ≤ i) :
    (l.set i a).getD j d = l.getD j d := by
  rw [List.set_eq_of_length_le h]

theorem getD_set_if {α : Type} (l : List α) (i j : Nat) (a d : α) :
    (l.set i a).getD j d = if i = j ∧ i < l.length then a else l.getD j d := by
  by_cases hij : i = j
  · subst hij
    by_cases hl : i < l.length
    · rw [getD_set_self l i a d hl, if_pos ⟨rfl, hl⟩]
    · rw [getD_set_ge l i i a d (by omega), if_neg (fun h => hl h.2)]
  · rw [getD_set_of_ne l i j a d hij, if_neg (fun h => hij h.1)]

/-! ## The page layout of Download -/

theorem startPage_zero (base extra : Int) (h : 0 ≤ extra) : startPage base extra 0 = 0 := by
  simp [startPage, h]

theorem startPage_succ (base extra : Int) (k : Nat) :
    startPage base extra (k + 1) =
      startPage base extra k + base + (if (k : Int) < extra then 1 else 0) := by
  unfold startPage
  push_cast
  split_ifs with h
  · rw [min_eq_left (by omega), min_eq_left (by omega)]; ring
  · rw [min_eq_right (by omega), min_eq_right (by omega)]; ring

theorem startPage_shift (base extra : Int) (k : Nat) (h : 0 ≤ extra) :
    startPage base extra (k + 1) =
      (if extra ≠ 0 then base + 1 else base) +
        startPage base (if extra ≠ 0 then extra - 1 else extra) k := by
  unfold startPage
  push_cast
  split_ifs with h1
  · rcases le_total ((k : Int) + 1) extra with h2 | h2
    · rw [min_eq_left h2, min_eq_left (by omega)]; ring
    · rw [min_eq_right h2, min_eq_right (by omega)]; ring
  · have : extra = 0 := by omega
    subst this
    rw [min_eq_right (by omega), min_eq_right (by omega)]; ring

theorem startPage_all (base extra : Int) (k : Nat) (h : extra ≤ k) :
    startPage base extra k = k * base + extra := by
  unfold startPage
  rw [min_eq_right h]

theorem Download_body_remain_nonneg (base : Int) (i : Nat) (s : DownloadLocals)
    (h : 0 ≤ s.remain_blk_num) : 0 ≤ (Download_body base i s).remain_blk_num := by
  simp only [Download_body]; split_ifs <;> omega

theorem Download_for_succ (base : Int) (n i : Nat) (s : DownloadLocals) :
    Download_for base (n + 1) i s = Download_for base n (i + 1) (Download_body base i s) := rfl

theorem Download_for_locals (base : Int) (n : Nat) : ∀ (i : Nat) (s : DownloadLocals),
    0 ≤ s.remain_blk_num →
    (Download_for base n i s).last_blk = s.last_blk + startPage base s.remain_blk_num n ∧
    (Download_for base n i s).last_pos =
      s.last_pos + startPage base s.remain_blk_num n * BLOCK_4K ∧
    (Download_for base n i s).dm.m_threads =
      s.dm.m_threads ++ (List.range n).map (fun k =>
        Launch.mk (s.last_pos + startPage base s.remain_blk_num k * BLOCK_4K)
          (s.last_pos + startPage base s.remain_blk_num (k + 1) * BLOCK_4K - 1) (i + k)) := by
  induction n with
  | zero =>
    intro i s h
    simp [Download_for, startPage_zero _ _ h]
  | succ n ih =>
    intro i s h
    obtain ⟨h1, h2, h3⟩ := ih (i + 1) (Download_body base i s)
      (Download_body_remain_nonneg base i s h)
    have b1 : (Download_body base i s).last_blk =
      s.last_blk + (if s.remain_blk_num ≠ 0 then base + 1 else base) := rfl
    have b2 : (Download_body base i s).last_pos =
      s.last_pos + (if s.remain_blk_num ≠ 0 then base + 1 else base) * BLOCK_4K := rfl
    have b3 : (Download_body base i s).remain_blk_num =
      (if s.remain_blk_num ≠ 0 then s.remain_blk_num - 1 else s.remain_blk_num) := rfl
    have b4 : (Download_body base i s).dm.m_threads = s.dm.m_threads ++
      [Launch.mk s.last_pos
        (s.last_pos + (if s.remain_blk_num ≠ 0 then base + 1 else base) * BLOCK_4K - 1) i] := rfl
    have hs : ∀ k, startPage base s.remain_blk_num (k + 1) =
        (if s.remain_blk_num ≠ 0 then base + 1 else base) +
          startPage base (if s.remain_blk_num ≠ 0 then s.remain_blk_num - 1
            else s.remain_blk_num) k := fun k => startPage_shift _ _ k h
    have h' : 0 ≤ (if s.remain_blk_num ≠ 0 then s.remain_blk_num - 1
            else s.remain_blk_num) := by split_ifs <;> omega
    rw [Download_for_succ]
    refine ⟨?_, ?_, ?_⟩
    · rw [h1, b1, b3, hs]; ring
    · rw [h2, b2, b3, hs]; ring
    · rw [h3, b2, b3, b4, List.range_succ_eq_map]
      simp only [List.append_assoc, List.singleton_append, List.map_cons, List.map_map]
      congr 1
      congr 1
      · simp only [Launch.mk.injEq]
        refine ⟨by rw [startPage_zero _ _ h]; ring, ?_, by omega⟩
        rw [hs 0, startPage_zero _ _ h']
        ring
      · apply List.map_congr_left
        intro k _
        simp only [Function.comp, Launch.mk.injEq]
        refine ⟨?_, ?_, by omega⟩
        · rw [hs k]; ring
        · rw [hs (k + 1)]; ring

theorem Download_for_fields (base : Int) (n : Nat) : ∀ (i : Nat) (s : DownloadLocals),
    (Download_for base n i s).dm.m_filesize = s.dm.m_filesize ∧
    (Download_for base n i s).dm.m_thread_num = s.dm.m_thread_num ∧
    (Download_for base n i s).dm.m_w_fd = s.dm.m_w_fd ∧
    (Download_for base n i s).dm.m_map_page_num = s.dm.m_map_page_num ∧
    (Download_for base n i s).dm.m_downloaded_sizes = s.dm.m_downloaded_sizes ∧
    (Download_for base n i s).dm.m_mems = s.dm.m_mems ∧
    (Download_for base n i s).dm.m_current_block_size = s.dm.m_current_block_size ∧
    (Download_for base n i s).dm.m_current_mem_pos = s.dm.m_current_mem_pos ∧
    (Download_for base n i s).dm.m_block_idxs.length = s.dm.m_block_idxs.length ∧
    (Download_for base n i s).dm.m_remain_block_num.length = s.dm.m_remain_block_num.length := by
  induction n with
  | zero => intro i s; simp [Download_for]
  | succ n ih =>
    intro i s
    rw [Download_for_succ]
    obtain ⟨h1, h2, h3, h4, h5, h6, h7, h8, h9, h10⟩ := ih (i + 1) (Download_body base i s)
    rw [h1, h2, h3, h4, h5, h6, h7, h8, h9, h10]
    simp [Download_body]

theorem Download_for_vectors (base : Int) (n : Nat) : ∀ (i : Nat) (s : DownloadLocals),
    0 ≤ s.remain_blk_num →
    (∀ j, (Download_for base n i s).dm.m_block_idxs.getD j 0 =
      if i ≤ j ∧ j < i + n ∧ j < s.dm.m_block_idxs.length then
        s.last_blk + startPage base s.remain_blk_num (j - i)
      else s.dm.m_block_idxs.getD j 0) ∧
    (∀ j, (Download_for base n i s).dm.m_remain_block_num.getD j 0 =
      if i ≤ j ∧ j < i + n ∧ j < s.dm.m_remain_block_num.length then
        startPage base s.remain_blk_num (j - i + 1) - startPage base s.remain_blk_num (j - i)
      else s.dm.m_remain_block_num.getD j 0) := by
  induction n with
  | zero =>
    intro i s _
    refine ⟨fun j => ?_, fun j => ?_⟩
    · have hc : ¬ (i ≤ j ∧ j < i + 0 ∧ j < s.dm.m_block_idxs.length) := by omega
      rw [if_neg hc]; rfl
    · have hc : ¬ (i ≤ j ∧ j < i + 0 ∧ j < s.dm.m_remain_block_num.length) := by omega
      rw [if_neg hc]; rfl
  | succ n ih =>
    intro i s h
    obtain ⟨h1, h2⟩ := ih (i + 1) (Download_body base i s)
      (Download_body_remain_nonneg base i s h)
    have b1 : (Download_body base i s).last_blk =
      s.last_blk + (if s.remain_blk_num ≠ 0 then base + 1 else base) := rfl
    have b3 : (Download_body base i s).remain_blk_num =
      (if s.remain_blk_num ≠ 0 then s.remain_blk_num - 1 else s.remain_blk_num) := rfl
    have b5 : (Download_body base i s).dm.m_block_idxs = s.dm.m_block_idxs.set i s.last_blk := rfl
    have b6 : (Download_body base i s).dm.m_remain_block_num =
      s.dm.m_remain_block_num.set i (if s.remain_blk_num ≠ 0 then base + 1 else base) := rfl
    have hs : ∀ k, startPage base s.remain_blk_num (k + 1) =
        (if s.remain_blk_num ≠ 0 then base + 1 else base) +
          startPage base (Download_body base i s).remain_blk_num k :=
      fun k => startPage_shift _ _ k h
    have h' : 0 ≤ (Download_body base i s).remain_blk_num :=
      Download_body_remain_nonneg base i s h
    rw [Download_for_succ]
    constructor
    · intro j
      rw [h1 j, b1, b5, List.length_set, getD_set_if]
      by_cases hc : i ≤ j ∧ j < i + (n + 1) ∧ j < s.dm.m_block_idxs.length
      · rw [if_pos hc]
        by_cases hj : j = i
        · subst hj
          have hc1 : ¬ (j + 1 ≤ j ∧ j < j + 1 + n ∧ j < s.dm.m_block_idxs.length) := by omega
          rw [if_neg hc1, if_pos ⟨rfl, hc.2.2⟩, Nat.sub_self, startPage_zero _ _ h]; ring
        · have hc1 : i + 1 ≤ j ∧ j < i + 1 + n ∧ j < s.dm.m_block_idxs.length := by omega
          have e : j - i = (j - (i + 1)) + 1 := by omega
          rw [if_pos hc1, e, hs]; ring
      · rw [if_neg hc]
        have hc1 : ¬ (i + 1 ≤ j ∧ j < i + 1 + n ∧ j < s.dm.m_block_idxs.length) := by omega
        have hc2 : ¬ (i = j ∧ i < s.dm.m_block_idxs.length) := by omega
        rw [if_neg hc1, if_neg hc2]
    · intro j
      rw [h2 j, b6, List.length_set, getD_set_if]
      by_cases hc : i ≤ j ∧ j < i + (n + 1) ∧ j < s.dm.m_remain_block_num.length
      · rw [if_pos hc]
        by_cases hj : j = i
        · subst hj
          have hc1 : ¬ (j + 1 ≤ j ∧ j < j + 1 + n ∧ j < s.dm.m_remain_block_num.length) := by
            omega
          rw [if_neg hc1, if_pos ⟨rfl, hc.2.2⟩, Nat.sub_self, hs 0, startPage_zero _ _ h,
            startPage_zero _ _ h']; ring
        · have hc1 : i + 1 ≤ j ∧ j < i + 1 + n ∧ j < s.dm.m_remain_block_num.length := by omega
          have e : j - i = (j - (i + 1)) + 1 := by omega
          rw [if_pos hc1, e, hs, hs]; ring
      · rw [if_neg hc]
        have hc1 : ¬ (i + 1 ≤ j ∧ j < i + 1 + n ∧ j < s.dm.m_remain_block_num.length) := by
          omega
        have hc2 : ¬ (i = j ∧ i < s.dm.m_remain_block_num.length) := by omega
        rw [if_neg hc1, if_neg hc2]

theorem num_of_4k_block_bounds (F : Nat) (hF : 1 ≤ F) :
    1 ≤ num_of_4k_block F ∧ (num_of_4k_block F - 1) * BLOCK_4K < F ∧
      (F : Int) ≤ num_of_4k_block F * BLOCK_4K := by
  unfold num_of_4k_block BLOCK_4K
  have h1 := Nat.div_add_mod (F + 4095) 4096
  have h2 := Nat.mod_lt (F + 4095) (show 4096 > 0 by decide)
  refine ⟨?_, ?_, ?_⟩ <;> omega

theorem plan_arith (F : Nat) (T : Int) (hF : 1 ≤ F) (hT : 1 ≤ T) :
    1 ≤ thread_num_clamped F T ∧ thread_num_clamped F T ≤ T ∧
    thread_num_clamped F T ≤ num_of_4k_block F ∧
    thread_num_clamped F T = min T (num_of_4k_block F) ∧
    base_blk_num F T = num_of_4k_block F / thread_num_clamped F T ∧
    extra_blk_num F T = num_of_4k_block F % thread_num_clamped F T ∧
    1 ≤ base_blk_num F T ∧ 0 ≤ extra_blk_num F T ∧
    extra_blk_num F T < thread_num_clamped F T ∧
    base_blk_num F T * thread_num_clamped F T + extra_blk_num F T = num_of_4k_block F := by
  have hn := (num_of_4k_block_bounds F hF).1
  have c1 : 1 ≤ thread_num_clamped F T := by unfold thread_num_clamped; split_ifs <;> omega
  have c2 : thread_num_clamped F T ≤ T := by unfold thread_num_clamped; split_ifs <;> omega
  have c3 : thread_num_clamped F T ≤ num_of_4k_block F := by
    unfold thread_num_clamped; split_ifs <;> omega
  have c4 : thread_num_clamped F T = min T (num_of_4k_block F) := by
    unfold thread_num_clamped; split_ifs with h
    · rw [min_eq_right (by omega)]
    · rw [min_eq_left (by omega)]
  have b1 : base_blk_num F T = num_of_4k_block F / thread_num_clamped F T := by
    unfold base_blk_num
    exact Int.tdiv_eq_ediv (by omega) (by omega)
  have d := Int.ediv_add_emod (num_of_4k_block F) (thread_num_clamped F T)
  have m1 := Int.emod_nonneg (num_of_4k_block F) (show thread_num_clamped F T ≠ 0 by omega)
  have m2 := Int.emod_lt_of_pos (num_of_4k_block F) (show 0 < thread_num_clamped F T by omega)
  have e1 : extra_blk_num F T = num_of_4k_block F % thread_num_clamped F T := by
    unfold extra_blk_num
    rw [b1]
    have : num_of_4k_block F / thread_num_clamped F T * thread_num_clamped F T =
      thread_num_clamped F T * (num_of_4k_block F / thread_num_clamped F T) := by ring
    omega
  have b2 : 1 ≤ base_blk_num F T := by
    rw [b1]
    exact Int.le_ediv_of_mul_le (by omega) (by omega)
  refine ⟨c1, c2, c3, c4, b1, e1, b2, by omega, by omega, ?_⟩
  rw [e1, b1]
  have : num_of_4k_block F / thread_num_clamped F T * thread_num_clamped F T =
      thread_num_clamped F T * (num_of_4k_block F / thread_num_clamped F T) := by ring
  omega

theorem Download_adjust_fields (dm : DownloadManager) :
    (Download_adjust dm).m_thread_num = thread_num_clamped dm.m_filesize dm.m_thread_num ∧
    (Download_adjust dm).m_filesize = dm.m_filesize ∧
    (Download_adjust dm).m_w_fd = dm.m_w_fd ∧
    (Download_adjust dm).m_map_page_num = dm.m_map_page_num ∧
    (Download_adjust dm).m_threads = dm.m_threads ∧
    (Download_adjust dm).m_downloaded_sizes = dm.m_downloaded_sizes ∧
    (Download_adjust dm).m_mems = dm.m_mems ∧
    (Download_adjust dm).m_block_idxs = dm.m_block_idxs ∧
    (Download_adjust dm).m_remain_block_num = dm.m_remain_block_num ∧
    (Download_adjust dm).m_current_block_size = dm.m_current_block_size ∧
    (Download_adjust dm).m_current_mem_pos = dm.m_current_mem_pos := by
  unfold Download_adjust thread_num_clamped
  split_ifs <;> simp

/-- The locals of `Download` when the loop of line 161 has ended. -/
theorem Download_launch_def (dm : DownloadManager) :
    Download_launch dm = Download_last (num_of_4k_block dm.m_filesize)
      (Download_for (base_blk_num dm.m_filesize dm.m_thread_num)
        (thread_num_clamped dm.m_filesize dm.m_thread_num - 1).toNat 1
        { remain_blk_num := extra_blk_num dm.m_filesize dm.m_thread_num
          last_pos := 0
          last_blk := 0
          dm := Download_adjust dm }) := by
  unfold Download_launch extra_blk_num base_blk_num
  simp only [(Download_adjust_fields dm).1]

theorem Download_launch_fields (dm : DownloadManager) :
    (Download_launch dm).m_thread_num = thread_num_clamped dm.m_filesize dm.m_thread_num ∧
    (Download_launch dm).m_filesize = dm.m_filesize ∧
    (Download_launch dm).m_w_fd = dm.m_w_fd ∧
    (Download_launch dm).m_map_page_num = dm.m_map_page_num ∧
    (Download_launch dm).m_downloaded_sizes = dm.m_downloaded_sizes ∧
    (Download_launch dm).m_mems = dm.m_mems ∧
    (Download_launch dm).m_current_block_size = dm.m_current_block_size ∧
    (Download_launch dm).m_current_mem_pos = dm.m_current_mem_pos ∧
    (Download_launch dm).m_block_idxs.length = dm.m_block_idxs.length ∧
    (Download_launch dm).m_remain_block_num.length = dm.m_remain_block_num.length := by
  rw [Download_launch_def]
  obtain ⟨h1, h2, h3, h4, h5, h6, h7, h8, h9, h10⟩ :=
    Download_for_fields (base_blk_num dm.m_filesize dm.m_thread_num)
      (thread_num_clamped dm.m_filesize dm.m_thread_num - 1).toNat 1
      { remain_blk_num := extra_blk_num dm.m_filesize dm.m_thread_num
        last_pos := 0
        last_blk := 0
        dm := Download_adjust dm }
  obtain ⟨a1, a2, a3, a4, a5, a6, a7, a8, a9, a10, a11⟩ := Download_adjust_fields dm
  simp only [Download_last, List.length_set]
  simp only at h1 h2 h3 h4 h5 h6 h7 h8 h9 h10
  rw [h1, h2, h3, h4, h5, h6, h7, h8, h9, h10, a1, a2, a3, a4, a6, a7, a8, a9, a10, a11]
  simp

theorem Download_launch_threads (dm : DownloadManager) (hF : 1 ≤ dm.m_filesize)
    (hT : 1 ≤ dm.m_thread_num) :
    (Download_launch dm).m_threads =
      dm.m_threads ++ planSegments dm.m_filesize dm.m_thread_num := by
  obtain ⟨c1, c2, c3, c4, b1, e1, b2, e2, e3, hsum⟩ :=
    plan_arith dm.m_filesize dm.m_thread_num hF hT
  obtain ⟨h1, h2, h3⟩ :=
    Download_for_locals (base_blk_num dm.m_filesize dm.m_thread_num)
      (thread_num_clamped dm.m_filesize dm.m_thread_num - 1).toNat 1
      { remain_blk_num := extra_blk_num dm.m_filesize dm.m_thread_num
        last_pos := 0
        last_blk := 0
        dm := Download_adjust dm } e2
  obtain ⟨f1, f2, f3, f4, f5, f6, f7, f8, f9, f10⟩ :=
    Download_for_fields (base_blk_num dm.m_filesize dm.m_thread_num)
      (thread_num_clamped dm.m_filesize dm.m_thread_num - 1).toNat 1
      { remain_blk_num := extra_blk_num dm.m_filesize dm.m_thread_num
        last_pos := 0
        last_blk := 0
        dm := Download_adjust dm }
  obtain ⟨a1, a2, a3, a4, a5, a6, a7, a8, a9, a10, a11⟩ := Download_adjust_fields dm
  rw [Download_launch_def]
  simp only [Download_last]
  simp only at h1 h2 h3 f1
  rw [h3, h2, f1, a2, a5]
  unfold planSegments
  rw [List.append_assoc]
  congr 2
  · apply List.map_congr_left
    intro k _
    simp only [Launch.mk.injEq]
    refine ⟨by ring, by ring, trivial⟩
  · rw [startPage_all _ _ _ (by omega)]
    have : ((thread_num_clamped dm.m_filesize dm.m_thread_num - 1).toNat : Int) =
      thread_num_clamped dm.m_filesize dm.m_thread_num - 1 := by omega
    rw [this]
    have : (thread_num_clamped dm.m_filesize dm.m_thread_num - 1) *
        base_blk_num dm.m_filesize dm.m_thread_num + extra_blk_num dm.m_filesize dm.m_thread_num
        = num_of_4k_block dm.m_filesize - base_blk_num dm.m_filesize dm.m_thread_num := by
      linarith
    rw [this, zero_add]

theorem Download_launch_idxs (dm : DownloadManager) (hF : 1 ≤ dm.m_filesize)
    (hT : 1 ≤ dm.m_thread_num) (j : Nat) (hj : j < dm.m_block_idxs.length) :
    (Download_launch dm).m_block_idxs.getD j 0 =
      if j = 0 then
        num_of_4k_block dm.m_filesize - base_blk_num dm.m_filesize dm.m_thread_num
      else if (j : Int) < thread_num_clamped dm.m_filesize dm.m_thread_num then
        startPage (base_blk_num dm.m_filesize dm.m_thread_num)
          (extra_blk_num dm.m_filesize dm.m_thread_num) (j - 1)
      else dm.m_block_idxs.getD j 0 := by
  obtain ⟨c1, c2, c3, c4, b1, e1, b2, e2, e3, hsum⟩ :=
    plan_arith dm.m_filesize dm.m_thread_num hF hT
  obtain ⟨h1, h2, h3⟩ :=
    Download_for_locals (base_blk_num dm.m_filesize dm.m_thread_num)
      (thread_num_clamped dm.m_filesize dm.m_thread_num - 1).toNat 1
      { remain_blk_num := extra_blk_num dm.m_filesize dm.m_thread_num
        last_pos := 0
        last_blk := 0
        dm := Download_adjust dm } e2
  obtain ⟨f1, f2, f3, f4, f5, f6, f7, f8, f9, f10⟩ :=
    Download_for_fields (base_blk_num dm.m_filesize dm.m_thread_num)
      (thread_num_clamped dm.m_filesize dm.m_thread_num - 1).toNat 1
      { remain_blk_num := extra_blk_num dm.m_filesize dm.m_thread_num
        last_pos := 0
        last_blk := 0
        dm := Download_adjust dm }
  obtain ⟨v1, v2⟩ :=
    Download_for_vectors (base_blk_num dm.m_filesize dm.m_thread_num)
      (thread_num_clamped dm.m_filesize dm.m_thread_num - 1).toNat 1
      { remain_blk_num := extra_blk_num dm.m_filesize dm.m_thread_num
        last_pos := 0
        last_blk := 0
        dm := Download_adjust dm } e2
  obtain ⟨a1, a2, a3, a4, a5, a6, a7, a8, a9, a10, a11⟩ := Download_adjust_fields dm
  have hlast : startPage (base_blk_num dm.m_filesize dm.m_thread_num)
      (extra_blk_num dm.m_filesize dm.m_thread_num)
      (thread_num_clamped dm.m_filesize dm.m_thread_num - 1).toNat =
      num_of_4k_block dm.m_filesize - base_blk_num dm.m_filesize dm.m_thread_num := by
    rw [startPage_all _ _ _ (by omega)]
    have : ((thread_num_clamped dm.m_filesize dm.m_thread_num - 1).toNat : Int) =
      thread_num_clamped dm.m_filesize dm.m_thread_num - 1 := by omega
    rw [this]; linarith
  rw [Download_launch_def]
  simp only [Download_last]
  simp only at h1 f9 v1
  rw [getD_set_if, f9, a8, h1, hlast, v1 j, a8, zero_add]
  by_cases hj0 : j = 0
  · subst hj0
    rw [if_pos ⟨rfl, hj⟩, if_pos rfl]
  · have hc : ¬ (0 = j ∧ 0 < dm.m_block_idxs.length) := by omega
    rw [if_neg hc, if_neg hj0]
    by_cases hc2 : (j : Int) < thread_num_clamped dm.m_filesize dm.m_thread_num
    · have hc3 : 1 ≤ j ∧ j < 1 + (thread_num_clamped dm.m_filesize dm.m_thread_num - 1).toNat ∧
          j < dm.m_block_idxs.length := by omega
      rw [if_pos hc2, if_pos hc3, zero_add]
    · have hc3 : ¬ (1 ≤ j ∧
          j < 1 + (thread_num_clamped dm.m_filesize dm.m_thread_num - 1).toNat ∧
          j < dm.m_block_idxs.length) := by omega
      rw [if_neg hc2, if_neg hc3]

theorem Download_launch_remain (dm : DownloadManager) (hF : 1 ≤ dm.m_filesize)
    (hT : 1 ≤ dm.m_thread_num) (j : Nat) (hj : j < dm.m_remain_block_num.length) :
    (Download_launch dm).m_remain_block_num.getD j 0 =
      if j = 0 then base_blk_num dm.m_filesize dm.m_thread_num
      else if (j : Int) < thread_num_clamped dm.m_filesize dm.m_thread_num then
        startPage (base_blk_num dm.m_filesize dm.m_thread_num)
          (extra_blk_num dm.m_filesize dm.m_thread_num) (j - 1 + 1) -
        startPage (base_blk_num dm.m_filesize dm.m_thread_num)
          (extra_blk_num dm.m_filesize dm.m_thread_num) (j - 1)
      else dm.m_remain_block_num.getD j 0 := by
  obtain ⟨c1, c2, c3, c4, b1, e1, b2, e2, e3, hsum⟩ :=
    plan_arith dm.m_filesize dm.m_thread_num hF hT
  obtain ⟨h1, h2, h3⟩ :=
    Download_for_locals (base_blk_num dm.m_filesize dm.m_thread_num)
      (thread_num_clamped dm.m_filesize dm.m_thread_num - 1).toNat 1
      { remain_blk_num := extra_blk_num dm.m_filesize dm.m_thread_num
        last_pos := 0
        last_blk := 0
        dm := Download_adjust dm } e2
  obtain ⟨f1, f2, f3, f4, f5, f6, f7, f8, f9, f10⟩ :=
    Download_for_fields (base_blk_num dm.m_filesize dm.m_thread_num)
      (thread_num_clamped dm.m_filesize dm.m_thread_num - 1).toNat 1
      { remain_blk_num := extra_blk_num dm.m_filesize dm.m_thread_num
        last_pos := 0
        last_blk := 0
        dm := Download_adjust dm }
  obtain ⟨v1, v2⟩ :=
    Download_for_vectors (base_blk_num dm.m_filesize dm.m_thread_num)
      (thread_num_clamped dm.m_filesize dm.m_thread_num - 1).toNat 1
      { remain_blk_num := extra_blk_num dm.m_filesize dm.m_thread_num
        last_pos := 0
        last_blk := 0
        dm := Download_adjust dm } e2
  obtain ⟨a1, a2, a3, a4, a5, a6, a7, a8, a9, a10, a11⟩ := Download_adjust_fields dm
  have hlast : startPage (base_blk_num dm.m_filesize dm.m_thread_num)
      (extra_blk_num dm.m_filesize dm.m_thread_num)
      (thread_num_clamped dm.m_filesize dm.m_thread_num - 1).toNat =
      num_of_4k_block dm.m_filesize - base_blk_num dm.m_filesize dm.m_thread_num := by
    rw [startPage_all _ _ _ (by omega)]
    have : ((thread_num_clamped dm.m_filesize dm.m_thread_num - 1).toNat : Int) =
      thread_num_clamped dm.m_filesize dm.m_thread_num - 1 := by omega
    rw [this]; linarith
  rw [Download_launch_def]
  simp only [Download_last]
  simp only at h1 f10 v2
  rw [getD_set_if, f10, a9, h1, hlast, v2 j, a9, zero_add]
  by_cases hj0 : j = 0
  · subst hj0
    rw [if_pos ⟨rfl, hj⟩, if_pos rfl]; ring
  · have hc : ¬ (0 = j ∧ 0 < dm.m_remain_block_num.length) := by omega
    rw [if_neg hc, if_neg hj0]
    by_cases hc2 : (j : Int) < thread_num_clamped dm.m_filesize dm.m_thread_num
    · have hc3 : 1 ≤ j ∧ j < 1 + (thread_num_clamped dm.m_filesize dm.m_thread_num - 1).toNat ∧
          j < dm.m_remain_block_num.length := by omega
      rw [if_pos hc2, if_pos hc3]
    · have hc3 : ¬ (1 ≤ j ∧
          j < 1 + (thread_num_clamped dm.m_filesize dm.m_thread_num - 1).toNat ∧
          j < dm.m_remain_block_num.length) := by omega
      rw [if_neg hc2, if_neg hc3]

/-! ## Contiguous ranges -/

theorem Contiguous_append : ∀ (xs ys : List Launch) (a b c : Int),
    Contiguous a xs b → Contiguous b ys c → Contiguous a (xs ++ ys) c := by
  intro xs
  induction xs with
  | nil => intro ys a b c h1 h2; simp only [Contiguous] at h1; subst h1; simpa using h2
  | cons x xs ih =>
    intro ys a b c h1 h2
    obtain ⟨h3, h4, h5⟩ := h1
    exact ⟨h3, h4, ih ys _ b c h5 h2⟩

theorem Contiguous_map_range (g : Nat → Int) (t : Nat → Nat) (n : Nat)
    (hg : ∀ k, k < n → g k < g (k + 1)) :
    Contiguous (g 0) ((List.range n).map (fun k => Launch.mk (g k) (g (k + 1) - 1) (t k)))
      (g n) := by
  induction n with
  | zero => simp [Contiguous]
  | succ n ih =>
    rw [List.range_succ, List.map_append]
    refine Contiguous_append _ _ _ (g n) _ (ih (fun k hk => hg k (by omega))) ?_
    have := hg n (by omega)
    simp only [List.map_cons, List.map_nil, Contiguous]
    refine ⟨trivial, by omega, by omega⟩

theorem Contiguous_get : ∀ (seg : List Launch) (a b : Int), Contiguous a seg b →
    ∀ (i : Nat) (l : Launch), seg[i]? = some l →
      l.start_pos ≤ l.end_pos ∧ (i = 0 → l.start_pos = a) ∧
      (∀ l', seg[i + 1]? = some l' → l.end_pos + 1 = l'.start_pos) ∧
      (i + 1 = seg.length → l.end_pos + 1 = b) ∧ a ≤ l.start_pos ∧ l.end_pos < b := by
  intro seg
  induction seg with
  | nil => intro a b _ i l h; simp at h
  | cons x xs ih =>
    intro a b h i l hl
    obtain ⟨h3, h4, h5⟩ := h
    cases i with
    | zero =>
      simp only [List.getElem?_cons_zero, Option.some.injEq] at hl
      subst hl
      refine ⟨h4, fun _ => h3, ?_, ?_, by omega, ?_⟩
      · intro l' hl'
        simp only [zero_add, List.getElem?_cons_succ] at hl'
        exact ((ih _ b h5 0 l' hl').2.1 rfl).symm
      · intro hlen
        cases xs with
        | nil => simpa [Contiguous] using h5
        | cons y ys => simp at hlen
      · cases xs with
        | nil => simp only [Contiguous] at h5; omega
        | cons y ys =>
          have := ih _ b h5 0 y (by simp)
          omega
    | succ i =>
      simp only [List.getElem?_cons_succ] at hl
      obtain ⟨g1, _, g3, g4, g5, g6⟩ := ih _ b h5 i l hl
      refine ⟨g1, fun h => by omega, ?_, ?_, by omega, g6⟩
      · intro l' hl'
        simp only [List.getElem?_cons_succ] at hl'
        exact g3 l' hl'
      · intro hlen
        simp only [List.length_cons] at hlen
        exact g4 (by omega)

theorem startPage_lt (base extra : Int) (k : Nat) (hb : 1 ≤ base) :
    startPage base extra k < startPage base extra (k + 1) := by
  rw [startPage_succ]; split_ifs <;> omega

theorem startPage_nonneg (base extra : Int) (k : Nat) (hb : 1 ≤ base) (he : 0 ≤ extra) :
    0 ≤ startPage base extra k := by
  induction k with
  | zero => rw [startPage_zero _ _ he]
  | succ k ih => have := startPage_lt base extra k hb; omega

theorem planSegments_contiguous (F : Nat) (T : Int) (hF : 1 ≤ F) (hT : 1 ≤ T) :
    Contiguous 0 (planSegments F T) F := by
  obtain ⟨c1, c2, c3, c4, b1, e1, b2, e2, e3, hsum⟩ := plan_arith F T hF hT
  obtain ⟨n1, n2, n3⟩ := num_of_4k_block_bounds F hF
  have hlast : startPage (base_blk_num F T) (extra_blk_num F T)
      (thread_num_clamped F T - 1).toNat = num_of_4k_block F - base_blk_num F T := by
    rw [startPage_all _ _ _ (by omega)]
    have : ((thread_num_clamped F T - 1).toNat : Int) = thread_num_clamped F T - 1 := by omega
    rw [this]; linarith
  unfold planSegments
  have h := Contiguous_map_range
    (fun k => startPage (base_blk_num F T) (extra_blk_num F T) k * BLOCK_4K) (fun k => 1 + k)
    (thread_num_clamped F T - 1).toNat (by
      intro k _
      have := startPage_lt (base_blk_num F T) (extra_blk_num F T) k b2
      simp only [BLOCK_4K]; omega)
  simp only [startPage_zero _ _ e2, zero_mul] at h
  refine Contiguous_append _ _ _ _ _ h ?_
  rw [hlast]
  simp only [Contiguous, BLOCK_4K] at *
  refine ⟨trivial, ?_, by omega⟩
  have : (num_of_4k_block F - base_blk_num F T) * 4096 ≤ (num_of_4k_block F - 1) * 4096 := by
    omega
  omega

theorem planSegments_length (F : Nat) (T : Int) (hF : 1 ≤ F) (hT : 1 ≤ T) :
    ((planSegments F T).length : Int) = thread_num_clamped F T := by
  obtain ⟨c1, _⟩ := plan_arith F T hF hT
  unfold planSegments
  simp only [List.length_append, List.length_map, List.length_range, List.length_singleton]
  omega

theorem num_of_4k_block_eq_ceil (F : Nat) : num_of_4k_block F = ⌈(F : ℚ) / 4096⌉ := by
  symm
  rw [Int.ceil_eq_iff]
  unfold num_of_4k_block
  have h1 := Nat.div_add_mod (F + 4095) 4096
  have h2 := Nat.mod_lt (F + 4095) (show 4096 > 0 by decide)
  constructor
  · rw [lt_div_iff₀ (by norm_num)]
    have : (((F + 4095) / 4096 : Nat) : Int) * 4096 - 4096 < F := by omega
    have h3 : ((((F + 4095) / 4096 : Nat) : Int) * 4096 - 4096 : ℚ) < (F : Int) := by
      exact_mod_cast this
    push_cast at h3 ⊢
    linarith
  · rw [div_le_iff₀ (by norm_num)]
    have : (F : Int) ≤ (((F + 4095) / 4096 : Nat) : Int) * 4096 := by omega
    have h3 : ((F : Int) : ℚ) ≤ ((((F + 4095) / 4096 : Nat) : Int) * 4096 : ℚ) := by
      exact_mod_cast this
    push_cast at h3 ⊢
    linarith

/-- C1. For a file of `F ≥ 1` bytes and `T ≥ 1` requested threads (integers exact),
the ranges that `Download` passes to `Downloader::Download`, in launch order, are
non-empty, the first starts at byte 0, each next one starts right after the one
before it ends, and the last ends at byte `F - 1`; for `F = 0` `Download` returns
at once without launching anything. -/
theorem C1_segments_partition (sys : Sys) (env : Transfer) (fuel : Nat) (w : World)
    (hT : 1 ≤ w.dm.m_thread_num) (h0 : w.dm.m_threads = []) :
    (w.dm.m_filesize = 0 → Download sys env fuel w = some (true, w)) ∧
    (1 ≤ w.dm.m_filesize →
      1 ≤ (Download_launch w.dm).m_threads.length ∧
      (∀ l : Launch, (Download_launch w.dm).m_threads[0]? = some l → l.start_pos = 0) ∧
      (∀ (i : Nat) (l l' : Launch), (Download_launch w.dm).m_threads[i]? = some l →
        (Download_launch w.dm).m_threads[i + 1]? = some l' → l.end_pos + 1 = l'.start_pos) ∧
      (∀ l : Launch, (Download_launch w.dm).m_threads[(Download_launch w.dm).m_threads.length - 1]? =
        some l → l.end_pos = (w.dm.m_filesize : Int) - 1) ∧
      (∀ (i : Nat) (l : Launch), (Download_launch w.dm).m_threads[i]? = some l →
        l.start_pos ≤ l.end_pos)) := by
  constructor
  · intro h
    simp [Download, h]
  · intro hF
    have hc := planSegments_contiguous w.dm.m_filesize w.dm.m_thread_num hF hT
    have hlen := planSegments_length w.dm.m_filesize w.dm.m_thread_num hF hT
    have c1 := (plan_arith w.dm.m_filesize w.dm.m_thread_num hF hT).1
    rw [Download_launch_threads w.dm hF hT, h0, List.nil_append]
    have hg := Contiguous_get _ _ _ hc
    refine ⟨by omega, ?_, ?_, ?_, ?_⟩
    · intro l hl
      exact (hg 0 l hl).2.1 rfl
    · intro i l l' hl hl'
      exact (hg i l hl).2.2.1 l' hl'
    · intro l hl
      have := (hg _ l hl).2.2.2.1 (by omega)
      omega
    · intro i l hl
      exact (hg i l hl).1

/-- The theorem of C1 at `F = 10000`, `T = 4`: at least one range is emitted. -/
theorem C1_witness :
    1 ≤ (Download_launch (World.start 10000 4 256).dm).m_threads.length :=
  ((C1_segments_partition Sys.allOk Transfer.idle 0 (World.start 10000 4 256)
    (by decide) rfl).2 (by decide)).1

/-- The assignment in exact arithmetic.  With `num = ceil(F/4096)`, `T' = min(T, num)`, `base = num / T'` and
`extra = num mod T'`: the workers are launched in the order of thread ids
`1, 2, ..., T' - 1, 0` and the segments are laid out from page 0 upward in that order.
The worker with thread id `i`, `1 ≤ i < T'`, is assigned `base + 1` pages when
`i ≤ extra` and `base` pages otherwise, starting at page
`(i - 1) * base + min (i - 1) extra`; the worker with thread id 0 is assigned `base`
pages, from page `num - base` to byte `F - 1`. -/
theorem assignment_by_thread_id_exact (dm : DownloadManager) (n : Nat)
    (hF : 1 ≤ dm.m_filesize) (hT : 1 ≤ dm.m_thread_num) (h0 : dm.m_threads = [])
    (hn : dm.m_thread_num ≤ n) (hl1 : dm.m_block_idxs.length = n)
    (hl2 : dm.m_remain_block_num.length = n) :
    thread_num_clamped dm.m_filesize dm.m_thread_num =
      min dm.m_thread_num ⌈(dm.m_filesize : ℚ) / 4096⌉ ∧
    base_blk_num dm.m_filesize dm.m_thread_num =
      ⌈(dm.m_filesize : ℚ) / 4096⌉ / thread_num_clamped dm.m_filesize dm.m_thread_num ∧
    extra_blk_num dm.m_filesize dm.m_thread_num =
      ⌈(dm.m_filesize : ℚ) / 4096⌉ % thread_num_clamped dm.m_filesize dm.m_thread_num ∧
    (Download_launch dm).m_threads =
      (List.range (thread_num_clamped dm.m_filesize dm.m_thread_num - 1).toNat).map (fun k =>
        Launch.mk
          (startPage (base_blk_num dm.m_filesize dm.m_thread_num)
            (extra_blk_num dm.m_filesize dm.m_thread_num) k * 4096)
          (startPage (base_blk_num dm.m_filesize dm.m_thread_num)
            (extra_blk_num dm.m_filesize dm.m_thread_num) (k + 1) * 4096 - 1) (k + 1)) ++
      [Launch.mk
        ((⌈(dm.m_filesize : ℚ) / 4096⌉ - base_blk_num dm.m_filesize dm.m_thread_num) * 4096)
        ((dm.m_filesize : Int) - 1) 0] ∧
    (∀ i : Nat, 1 ≤ i → (i : Int) < thread_num_clamped dm.m_filesize dm.m_thread_num →
      (Download_launch dm).m_remain_block_num.getD i 0 =
        (if (i : Int) ≤ extra_blk_num dm.m_filesize dm.m_thread_num then
          base_blk_num dm.m_filesize dm.m_thread_num + 1
        else base_blk_num dm.m_filesize dm.m_thread_num) ∧
      (Download_launch dm).m_block_idxs.getD i 0 =
        ((i : Int) - 1) * base_blk_num dm.m_filesize dm.m_thread_num +
          min ((i : Int) - 1) (extra_blk_num dm.m_filesize dm.m_thread_num)) ∧
    (Download_launch dm).m_remain_block_num.getD 0 0 =
      base_blk_num dm.m_filesize dm.m_thread_num ∧
    (Download_launch dm).m_block_idxs.getD 0 0 =
      ⌈(dm.m_filesize : ℚ) / 4096⌉ - base_blk_num dm.m_filesize dm.m_thread_num := by
  obtain ⟨c1, c2, c3, c4, b1, e1, b2, e2, e3, hsum⟩ :=
    plan_arith dm.m_filesize dm.m_thread_num hF hT
  rw [← num_of_4k_block_eq_ceil]
  refine ⟨c4, b1, e1, ?_, ?_, ?_, ?_⟩
  · rw [Download_launch_threads dm hF hT, h0, List.nil_append]
    unfold planSegments BLOCK_4K
    congr 1
    apply List.map_congr_left
    intro k _
    simp only [Launch.mk.injEq, true_and]
    omega
  · intro i hi1 hi2
    have hi3 : i ≠ 0 := by omega
    rw [Download_launch_remain dm hF hT i (by omega), Download_launch_idxs dm hF hT i (by omega),
      if_neg hi3, if_pos hi2, if_neg hi3, if_pos hi2, startPage_succ]
    constructor
    · have : ((i - 1 : Nat) : Int) = (i : Int) - 1 := by omega
      rw [this]
      split_ifs <;> omega
    · unfold startPage
      have : ((i - 1 : Nat) : Int) = (i : Int) - 1 := by omega
      rw [this]
  · rw [Download_launch_remain dm hF hT 0 (by omega), if_pos rfl]
  · rw [Download_launch_idxs dm hF hT 0 (by omega), if_pos rfl]

/-- The assignment in exact arithmetic at a file of 11 pages and `T = 3`: the worker
with thread id 0 is assigned `base` pages. -/
theorem assignment_by_thread_id_exact_example :
    (Download_launch (World.start 45056 3 256).dm).m_remain_block_num.getD 0 0 =
      base_blk_num 45056 3 :=
  (assignment_by_thread_id_exact (World.start 45056 3 256).dm 3 (by decide) (by decide) rfl
    (by decide) rfl rfl).2.2.2.2.2.1

/-- The events of a `MapToFile` call that succeeds. -/
theorem MapToFile_success (sys : Sys) (w : World) (i : Nat)
    (hmun : ∀ a l, sys.munmap_ok a l = true) (hmap : ∀ l o, sys.mmap_ok l o = true)
    (h : 0 < min w.dm.m_map_page_num (w.dm.m_remain_block_num.getD i 0)) :
    MapToFile sys w i = (true,
      { w with
        dm := { w.dm with
          m_mems := w.dm.m_mems.set i (some (w.dm.m_block_idxs.getD i 0 * BLOCK_4K))
          m_current_mem_pos := w.dm.m_current_mem_pos.set i 0
          m_block_idxs := w.dm.m_block_idxs.set i (w.dm.m_block_idxs.getD i 0 +
            min w.dm.m_map_page_num (w.dm.m_remain_block_num.getD i 0))
          m_remain_block_num := w.dm.m_remain_block_num.set i
            (w.dm.m_remain_block_num.getD i 0 -
              min w.dm.m_map_page_num (w.dm.m_remain_block_num.getD i 0))
          m_current_block_size := w.dm.m_current_block_size.set i
            (min w.dm.m_map_page_num (w.dm.m_remain_block_num.getD i 0) * BLOCK_4K) }
        log := w.log ++ [Event.MapToFile i (w.dm.m_remain_block_num.getD i 0)] ++
          (match w.dm.m_mems.getD i none with
            | some addr => [Event.munmap addr (w.dm.m_current_block_size.getD i 0)]
            | none => []) ++
          [Event.mmap (BLOCK_4K * min w.dm.m_map_page_num (w.dm.m_remain_block_num.getD i 0))
            (w.dm.m_block_idxs.getD i 0 * BLOCK_4K)] }) := by
  have hmin : (if w.dm.m_remain_block_num.getD i 0 > w.dm.m_map_page_num then
      w.dm.m_map_page_num else w.dm.m_remain_block_num.getD i 0) =
      min w.dm.m_map_page_num (w.dm.m_remain_block_num.getD i 0) := by
    split_ifs with hc
    · rw [min_eq_left (by omega)]
    · rw [min_eq_right (by omega)]
  unfold MapToFile MapToFile_map
  cases hm : w.dm.m_mems.getD i none with
  | none =>
    simp only [hm, hmin, hmap, hmun]
    rw [if_neg (by decide), if_neg (not_le.mpr h), if_neg (by decide)]
    simp only [List.append_nil, List.append_assoc]
  | some addr =>
    simp only [hm, hmin, hmap, hmun]
    rw [if_neg (by decide), if_neg (not_le.mpr h), if_neg (by decide)]




/-- A `MapToFile` call fails without changing the object when no page is left to map
(or when `m_map_page_num` is not positive). -/
theorem MapToFile_exhausted (sys : Sys) (w : World) (i : Nat)
    (hmun : ∀ a l, sys.munmap_ok a l = true)
    (h : min w.dm.m_map_page_num (w.dm.m_remain_block_num.getD i 0) ≤ 0) :
    (MapToFile sys w i).1 = false ∧ (MapToFile sys w i).2.dm = w.dm := by
  have hmin : (if w.dm.m_remain_block_num.getD i 0 > w.dm.m_map_page_num then
      w.dm.m_map_page_num else w.dm.m_remain_block_num.getD i 0) =
      min w.dm.m_map_page_num (w.dm.m_remain_block_num.getD i 0) := by
    split_ifs with hc
    · rw [min_eq_left (by omega)]
    · rw [min_eq_right (by omega)]
  unfold MapToFile MapToFile_map
  cases hm : w.dm.m_mems.getD i none with
  | none =>
    simp only [hm, hmin, hmun]
    rw [if_neg (by decide), if_pos h]
    exact ⟨rfl, rfl⟩
  | some addr =>
    simp only [hm, hmin, hmun]
    rw [if_neg (by decide), if_pos h]
    exact ⟨rfl, rfl⟩

theorem worker_eq (dm dm' : DownloadManager) (j : Nat)
    (h1 : dm'.m_downloaded_sizes.getD j 0 = dm.m_downloaded_sizes.getD j 0)
    (h2 : dm'.m_block_idxs.getD j 0 = dm.m_block_idxs.getD j 0)
    (h3 : dm'.m_remain_block_num.getD j 0 = dm.m_remain_block_num.getD j 0)
    (h4 : dm'.m_mems.getD j none = dm.m_mems.getD j none)
    (h5 : dm'.m_current_block_size.getD j 0 = dm.m_current_block_size.getD j 0)
    (h6 : dm'.m_current_mem_pos.getD j 0 = dm.m_current_mem_pos.getD j 0) :
    dm'.worker j = dm.worker j := by
  unfold DownloadManager.worker
  rw [h1, h2, h3, h4, h5, h6]

/-- The contract of remap (`MapToFile`) in exact arithmetic, with `munmap` and `mmap`
succeeding and a page budget `P ≥ 1`, for a worker whose `remaining_pages` is a
natural number:
the call returns false exactly when `remaining_pages = 0`; otherwise it maps
`to_map = min P remaining_pages` pages at file offset `cursor_page * 4096` (after
unmapping the old window over its `window_len` bytes, when there is one), sets
`window_len = to_map * 4096` and `window_pos = 0`, adds `to_map` to `cursor_page`,
subtracts it from `remaining_pages`, and leaves `downloaded_bytes` and the state of
every other worker as they were. -/
theorem MapToFile_contract_exact (sys : Sys) (w : World) (i n : Nat)
    (hmun : ∀ a l, sys.munmap_ok a l = true) (hmap : ∀ l o, sys.mmap_ok l o = true)
    (hP : 1 ≤ w.dm.m_map_page_num) (hs : w.dm.Sized n) (hi : i < n)
    (hr : 0 ≤ (w.dm.worker i).remaining_pages) :
    ((MapToFile sys w i).1 = false ↔ (w.dm.worker i).remaining_pages = 0) ∧
    ((w.dm.worker i).remaining_pages ≠ 0 →
      (MapToFile sys w i).2.dm.worker i =
        { downloaded_bytes := (w.dm.worker i).downloaded_bytes
          cursor_page := (w.dm.worker i).cursor_page +
            min w.dm.m_map_page_num (w.dm.worker i).remaining_pages
          remaining_pages := (w.dm.worker i).remaining_pages -
            min w.dm.m_map_page_num (w.dm.worker i).remaining_pages
          window := some ((w.dm.worker i).cursor_page * 4096)
          window_len := min w.dm.m_map_page_num (w.dm.worker i).remaining_pages * 4096
          window_pos := 0 } ∧
      (MapToFile sys w i).2.log =
        w.log ++ [Event.MapToFile i (w.dm.worker i).remaining_pages] ++
          (match (w.dm.worker i).window with
            | some addr => [Event.munmap addr (w.dm.worker i).window_len]
            | none => []) ++
          [Event.mmap (4096 * min w.dm.m_map_page_num (w.dm.worker i).remaining_pages)
            ((w.dm.worker i).cursor_page * 4096)] ∧
      (MapToFile sys w i).2.file = w.file ∧
      (∀ j, j ≠ i → (MapToFile sys w i).2.dm.worker j = w.dm.worker j)) := by
  obtain ⟨s1, s2, s3, s4, s5, s6⟩ := hs
  have hr' : 0 ≤ w.dm.m_remain_block_num.getD i 0 := hr
  constructor
  · constructor
    · intro hf
      by_contra hne
      have hpos : 0 < min w.dm.m_map_page_num (w.dm.m_remain_block_num.getD i 0) := by
        rw [lt_min_iff]
        exact ⟨by omega, lt_of_le_of_ne hr' (Ne.symm hne)⟩
      rw [MapToFile_success sys w i hmun hmap hpos] at hf
      simp at hf
    · intro h0
      have h0' : w.dm.m_remain_block_num.getD i 0 = 0 := h0
      exact (MapToFile_exhausted sys w i hmun (by rw [h0']; exact min_le_right _ _)).1
  · intro hne
    have hpos : 0 < min w.dm.m_map_page_num (w.dm.m_remain_block_num.getD i 0) := by
      rw [lt_min_iff]
      exact ⟨by omega, lt_of_le_of_ne hr' (Ne.symm hne)⟩
    rw [MapToFile_success sys w i hmun hmap hpos]
    refine ⟨?_, rfl, rfl, ?_⟩
    · simp only [DownloadManager.worker, BLOCK_4K]
      rw [getD_set_self _ _ _ _ (by omega), getD_set_self _ _ _ _ (by omega),
        getD_set_self _ _ _ _ (by omega), getD_set_self _ _ _ _ (by omega),
        getD_set_self _ _ _ _ (by omega)]
    · intro j hj
      apply worker_eq
      · rfl
      · exact getD_set_of_ne _ _ _ _ _ (Ne.symm hj)
      · exact getD_set_of_ne _ _ _ _ _ (Ne.symm hj)
      · exact getD_set_of_ne _ _ _ _ _ (Ne.symm hj)
      · exact getD_set_of_ne _ _ _ _ _ (Ne.symm hj)
      · exact getD_set_of_ne _ _ _ _ _ (Ne.symm hj)

/-- The contract in exact arithmetic at worker 1 of the plan for `F = 10000`, `T = 4`,
`P = 256`. -/
theorem MapToFile_contract_exact_example :
    ((MapToFile Sys.allOk { World.start 10000 4 256 with
        dm := Download_launch (World.start 10000 4 256).dm } 1).1 = false ↔
      ((Download_launch (World.start 10000 4 256).dm).worker 1).remaining_pages = 0) :=
  (MapToFile_contract_exact Sys.allOk { World.start 10000 4 256 with
        dm := Download_launch (World.start 10000 4 256).dm } 1 4
    (fun _ _ => rfl) (fun _ _ => rfl) (by decide)
    (by unfold DownloadManager.Sized; decide) (by decide) (by decide)).1

/-! ## Writing bytes -/

theorem writeBytes_nil (f : Int → Byte) (a : Int) : writeBytes f a [] = f := by
  funext o
  unfold writeBytes
  rw [if_neg]
  simp only [List.length_nil]
  omega

theorem writeBytes_append (f : Int → Byte) (a : Int) (xs ys : List Byte) :
    writeBytes (writeBytes f a xs) (a + xs.length) ys = writeBytes f a (xs ++ ys) := by
  funext o
  unfold writeBytes
  simp only [List.length_append, Nat.cast_add]
  by_cases h1 : a + xs.length ≤ o ∧ o < a + xs.length + ys.length
  · rw [if_pos h1, if_pos (by omega)]
    have e : (o - a).toNat = xs.length + (o - (a + xs.length)).toNat := by omega
    rw [e, List.getD_eq_getElem?_getD, List.getD_eq_getElem?_getD,
      List.getElem?_append_right (by omega)]
    congr 2
    omega
  · rw [if_neg h1]
    by_cases h2 : a ≤ o ∧ o < a + xs.length
    · rw [if_pos h2, if_pos (by omega), List.getD_eq_getElem?_getD, List.getD_eq_getElem?_getD,
        List.getElem?_append_left (by omega)]
    · rw [if_neg h2, if_neg (by omega)]

theorem take_drop_add (data : List Byte) (o a b : Nat) :
    (data.drop o).take a ++ (data.drop (o + a)).take b = (data.drop o).take (a + b) := by
  rw [List.take_add, List.drop_drop]

theorem length_take_drop (data : List Byte) (o a : Nat) (h : o + a ≤ data.length) :
    ((data.drop o).take a).length = a := by
  rw [List.length_take, List.length_drop]
  omega

/-! ## Frames -/

theorem Frame_refl (i : Nat) (w : World) : Frame i w w :=
  ⟨fun _ _ => rfl, rfl, rfl, rfl, rfl, rfl, rfl⟩

theorem Frame_trans (i : Nat) (w1 w2 w3 : World) (h1 : Frame i w1 w2) (h2 : Frame i w2 w3) :
    Frame i w1 w3 := by
  obtain ⟨a1, a2, a3, a4, a5, a6, a7⟩ := h1
  obtain ⟨b1, b2, b3, b4, b5, b6, b7⟩ := h2
  exact ⟨fun j hj => (b1 j hj).trans (a1 j hj), b2.trans a2, b3.trans a3, b4.trans a4,
    b5.trans a5, b6.trans a6, b7.trans a7⟩

theorem memcpy_facts (w : World) (i : Nat) (data : List Byte) (off k : Nat) (addr : Int)
    (hm : w.dm.m_mems.getD i none = some addr) :
    (memcpy w i data off k).dm = w.dm ∧
    (memcpy w i data off k).file_len = w.file_len ∧
    (memcpy w i data off k).file =
      writeBytes w.file (addr + w.dm.m_current_mem_pos.getD i 0) ((data.drop off).take k) ∧
    (memcpy w i data off k).log = w.log ++
      [Event.memcpy i (w.dm.m_current_mem_pos.getD i 0) k
        (w.dm.m_current_block_size.getD i 0)] := by
  unfold memcpy
  simp only [hm]
  exact ⟨trivial, trivial, trivial, trivial⟩

theorem MapToFile_ok (sys : Sys) (w : World) (i n : Nat)
    (hmun : ∀ a l, sys.munmap_ok a l = true) (hmap : ∀ l o, sys.mmap_ok l o = true)
    (hs : w.dm.Sized n) (hi : i < n) (hP : 1 ≤ w.dm.m_map_page_num)
    (hr : 1 ≤ w.dm.m_remain_block_num.getD i 0) :
    ∃ w1, MapToFile sys w i = (true, w1) ∧ w1.dm.Sized n ∧
      w1.dm.m_mems.getD i none = some (w.dm.m_block_idxs.getD i 0 * BLOCK_4K) ∧
      w1.dm.m_current_mem_pos.getD i 0 = 0 ∧
      w1.dm.m_block_idxs.getD i 0 = w.dm.m_block_idxs.getD i 0 +
        min w.dm.m_map_page_num (w.dm.m_remain_block_num.getD i 0) ∧
      w1.dm.m_remain_block_num.getD i 0 = w.dm.m_remain_block_num.getD i 0 -
        min w.dm.m_map_page_num (w.dm.m_remain_block_num.getD i 0) ∧
      w1.dm.m_current_block_size.getD i 0 =
        min w.dm.m_map_page_num (w.dm.m_remain_block_num.getD i 0) * BLOCK_4K ∧
      w1.dm.m_downloaded_sizes = w.dm.m_downloaded_sizes ∧
      w1.file = w.file ∧ Frame i w w1 ∧
      ∃ evs, w1.log = w.log ++ evs ∧ ∀ e ∈ evs, e.safe := by
  obtain ⟨s1, s2, s3, s4, s5, s6⟩ := hs
  have hpos : 0 < min w.dm.m_map_page_num (w.dm.m_remain_block_num.getD i 0) := by
    rw [lt_min_iff]; exact ⟨by omega, by omega⟩
  refine ⟨_, MapToFile_success sys w i hmun hmap hpos, ?_, ?_, ?_, ?_, ?_, ?_, rfl, rfl, ?_, ?_⟩
  · exact ⟨s1, by simp only [List.length_set]; exact s2, by simp only [List.length_set]; exact s3,
      by simp only [List.length_set]; exact s4, by simp only [List.length_set]; exact s5,
      by simp only [List.length_set]; exact s6⟩
  · exact getD_set_self _ _ _ _ (by omega)
  · exact getD_set_self _ _ _ _ (by omega)
  · exact getD_set_self _ _ _ _ (by omega)
  · exact getD_set_self _ _ _ _ (by omega)
  · exact getD_set_self _ _ _ _ (by omega)
  · refine ⟨?_, rfl, rfl, rfl, rfl, rfl, rfl⟩
    intro j hj
    apply worker_eq
    · rfl
    · exact getD_set_of_ne _ _ _ _ _ (Ne.symm hj)
    · exact getD_set_of_ne _ _ _ _ _ (Ne.symm hj)
    · exact getD_set_of_ne _ _ _ _ _ (Ne.symm hj)
    · exact getD_set_of_ne _ _ _ _ _ (Ne.symm hj)
    · exact getD_set_of_ne _ _ _ _ _ (Ne.symm hj)
  · cases hm : w.dm.m_mems.getD i none with
    | none =>
      refine ⟨[Event.MapToFile i (w.dm.m_remain_block_num.getD i 0),
        Event.mmap (BLOCK_4K * min w.dm.m_map_page_num (w.dm.m_remain_block_num.getD i 0))
          (w.dm.m_block_idxs.getD i 0 * BLOCK_4K)], by simp, ?_⟩
      intro e he
      simp only [List.mem_cons, List.mem_singleton, List.not_mem_nil, or_false] at he
      rcases he with he | he
      · subst he; exact hr
      · subst he; trivial
    | some addr =>
      refine ⟨[Event.MapToFile i (w.dm.m_remain_block_num.getD i 0),
        Event.munmap addr (w.dm.m_current_block_size.getD i 0),
        Event.mmap (BLOCK_4K * min w.dm.m_map_page_num (w.dm.m_remain_block_num.getD i 0))
          (w.dm.m_block_idxs.getD i 0 * BLOCK_4K)], by simp, ?_⟩
      intro e he
      simp only [List.mem_cons, List.mem_singleton, List.not_mem_nil, or_false] at he
      rcases he with he | he | he
      · subst he; exact hr
      · subst he; trivial
      · subst he; trivial

theorem remain_mem_size_eq (block_size : Int) (mem_pos : Nat) (h : (mem_pos : Int) ≤ block_size) :
    (remain_mem_size block_size mem_pos : Int) = block_size - mem_pos := by
  unfold remain_mem_size
  rw [if_pos h]
  omega

/-- The loop of the sink, started inside a window with pages enough left for the
data, ends without a failed `MapToFile` and leaves room for the last copy. -/
theorem while_ok (sys : Sys) (i n : Nat) (data : List Byte)
    (hmun : ∀ a l, sys.munmap_ok a l = true) (hmap : ∀ l o, sys.mmap_ok l o = true) :
    ∀ (fuel : Nat) (w : World) (rd rm off : Nat) (addr : Int),
      w.dm.Sized n → i < n → 1 ≤ w.dm.m_map_page_num →
      w.dm.m_mems.getD i none = some addr →
      addr + w.dm.m_current_block_size.getD i 0 = w.dm.m_block_idxs.getD i 0 * BLOCK_4K →
      (w.dm.m_current_mem_pos.getD i 0 : Int) ≤ w.dm.m_current_block_size.getD i 0 →
      (rm : Int) = w.dm.m_current_block_size.getD i 0 - w.dm.m_current_mem_pos.getD i 0 →
      0 ≤ w.dm.m_remain_block_num.getD i 0 →
      (w.dm.m_remain_block_num.getD i 0).toNat ≤ fuel →
      off + rd = data.length →
      addr + w.dm.m_current_mem_pos.getD i 0 + rd ≤
        (w.dm.m_block_idxs.getD i 0 + w.dm.m_remain_block_num.getD i 0) * BLOCK_4K →
      ∃ (w1 : World) (rd1 off1 : Nat) (addr1 : Int),
        WriteFileBulkCallback_while sys i data fuel w rd rm off = some (true, w1, rd1, off1) ∧
        w1.dm.Sized n ∧ w1.dm.m_mems.getD i none = some addr1 ∧
        addr1 + w1.dm.m_current_block_size.getD i 0 =
          w1.dm.m_block_idxs.getD i 0 * BLOCK_4K ∧
        (w1.dm.m_current_mem_pos.getD i 0 : Int) + rd1 ≤ w1.dm.m_current_block_size.getD i 0 ∧
        rd1 ≤ rd ∧ off1 + rd1 = data.length ∧
        addr1 + w1.dm.m_current_mem_pos.getD i 0 + rd1 =
          addr + w.dm.m_current_mem_pos.getD i 0 + rd ∧
        w1.dm.m_block_idxs.getD i 0 + w1.dm.m_remain_block_num.getD i 0 =
          w.dm.m_block_idxs.getD i 0 + w.dm.m_remain_block_num.getD i 0 ∧
        0 ≤ w1.dm.m_remain_block_num.getD i 0 ∧
        w1.file = writeBytes w.file (addr + w.dm.m_current_mem_pos.getD i 0)
          ((data.drop off).take (rd - rd1)) ∧
        w1.dm.m_downloaded_sizes = w.dm.m_downloaded_sizes ∧
        Frame i w w1 ∧ ∃ evs, w1.log = w.log ++ evs ∧ ∀ e ∈ evs, e.safe := by
  intro fuel
  induction fuel with
  | zero =>
    intro w rd rm off addr hs hi hP hm hb hp hrm hr hf hoff hsp
    have hle : rd ≤ rm := by
      have h0 : w.dm.m_remain_block_num.getD i 0 = 0 := by omega
      rw [h0] at hsp
      simp only [BLOCK_4K] at hb hsp
      omega
    refine ⟨w, rd, off, addr, ?_, hs, hm, hb, by omega, le_refl _, hoff, rfl, rfl, hr, ?_, rfl,
      Frame_refl i w, [], by simp, by simp⟩
    · unfold WriteFileBulkCallback_while
      rw [if_neg (by omega)]
    · rw [Nat.sub_self, List.take_zero, writeBytes_nil]
  | succ fuel ih =>
    intro w rd rm off addr hs hi hP hm hb hp hrm hr hf hoff hsp
    by_cases hgt : rd > rm
    · obtain ⟨m1, m2, m3, m4⟩ := memcpy_facts w i data off rm addr hm
      have hrem1 : 1 ≤ w.dm.m_remain_block_num.getD i 0 := by
        simp only [BLOCK_4K] at hb hsp
        omega
      obtain ⟨w2, hw2, hs2, hm2, hpos2, hblk2, hrem2, hbs2, hdl2, hfile2, hfr2, evs2, hlog2,
          hsafe2⟩ :=
        MapToFile_ok sys (memcpy w i data off rm) i n hmun hmap (by rw [m1]; exact hs) hi
          (by rw [m1]; exact hP) (by rw [m1]; exact hrem1)
      rw [m1] at hm2 hblk2 hrem2 hbs2 hdl2
      have htm1 : 1 ≤ min w.dm.m_map_page_num (w.dm.m_remain_block_num.getD i 0) := by
        rw [le_min_iff]; exact ⟨hP, hrem1⟩
      have htm2 : min w.dm.m_map_page_num (w.dm.m_remain_block_num.getD i 0) ≤
          w.dm.m_remain_block_num.getD i 0 := min_le_right _ _
      have hP2 : 1 ≤ w2.dm.m_map_page_num := by
        rw [hfr2.2.2.2.2.1, m1]; exact hP
      have hp2 : (w2.dm.m_current_mem_pos.getD i 0 : Int) ≤
          w2.dm.m_current_block_size.getD i 0 := by
        rw [hpos2, hbs2]; simp only [BLOCK_4K]; omega
      obtain ⟨w3, rd3, off3, addr3, h3, hs3, hm3, hb3, hfit3, hle3, hoff3, hcur3, hsum3, hr3,
          hfile3, hdl3, hfr3, evs3, hlog3, hsafe3⟩ :=
        ih w2 (rd - rm)
          (remain_mem_size (w2.dm.m_current_block_size.getD i 0)
            (w2.dm.m_current_mem_pos.getD i 0))
          (off + rm) (w.dm.m_block_idxs.getD i 0 * BLOCK_4K) hs2 hi hP2 hm2
          (by rw [hbs2, hblk2]; ring)
          hp2 (remain_mem_size_eq _ _ hp2)
          (by rw [hrem2]; omega) (by rw [hrem2]; omega) (by omega)
          (by
            rw [hpos2, hblk2, hrem2]
            simp only [BLOCK_4K] at hb hsp ⊢
            push_cast
            omega)
      refine ⟨w3, rd3, off3, addr3, ?_, hs3, hm3, hb3, hfit3, by omega, hoff3, ?_, ?_, hr3, ?_,
        ?_, ?_, ?_⟩
      · rw [WriteFileBulkCallback_while]
        simp only [if_pos hgt, hw2]
        exact h3
      · rw [hcur3, hpos2]
        simp only [BLOCK_4K] at hb ⊢
        push_cast
        omega
      · rw [hsum3, hblk2, hrem2]; ring
      · rw [hfile3, hfile2, m3, hpos2]
        have e1 : w.dm.m_block_idxs.getD i 0 * BLOCK_4K + ((0 : Nat) : Int) =
            (addr + w.dm.m_current_mem_pos.getD i 0) +
              (((data.drop off).take rm).length : Nat) := by
          rw [length_take_drop data off rm (by omega)]
          push_cast
          omega
        have e2 : rm + (rd - rm - rd3) = rd - rd3 := by omega
        rw [e1, writeBytes_append, take_drop_add, e2]
      · rw [hdl3, hdl2]
      · refine Frame_trans i w w2 w3 (Frame_trans i w _ w2 ?_ hfr2) hfr3
        refine ⟨fun j _ => by rw [m1], by rw [m1], by rw [m1], by rw [m1], by rw [m1],
          by rw [m1], m2⟩
      · refine ⟨[Event.memcpy i (w.dm.m_current_mem_pos.getD i 0) rm
            (w.dm.m_current_block_size.getD i 0)] ++ evs2 ++ evs3, ?_, ?_⟩
        · rw [hlog3, hlog2, m4]; simp only [List.append_assoc]
        · intro e he
          simp only [List.mem_append, List.mem_singleton] at he
          rcases he with (he | he) | he
          · subst he
            show (w.dm.m_current_mem_pos.getD i 0 : Int) + rm ≤ _
            omega
          · exact hsafe2 e he
          · exact hsafe3 e he
    · refine ⟨w, rd, off, addr, ?_, hs, hm, hb, by omega, le_refl _, hoff, rfl, rfl, hr, ?_, rfl,
        Frame_refl i w, [], by simp, by simp⟩
      · rw [WriteFileBulkCallback_while]
        rw [if_neg hgt]
      · rw [Nat.sub_self, List.take_zero, writeBytes_nil]

theorem cursor_mapped (w : World) (i : Nat) (addr : Int)
    (hm : w.dm.m_mems.getD i none = some addr) :
    w.cursor i = addr + w.dm.m_current_mem_pos.getD i 0 := by
  unfold World.cursor
  rw [hm]

/-- The writing part of the sink in a mapped window. -/
theorem write_ok (sys : Sys) (i n : Nat) (data : List Byte)
    (hmun : ∀ a l, sys.munmap_ok a l = true) (hmap : ∀ l o, sys.mmap_ok l o = true)
    (w : World) (addr : Int) (hs : w.dm.Sized n) (hi : i < n) (hP : 1 ≤ w.dm.m_map_page_num)
    (hm : w.dm.m_mems.getD i none = some addr)
    (hb : addr + w.dm.m_current_block_size.getD i 0 = w.dm.m_block_idxs.getD i 0 * BLOCK_4K)
    (hp : (w.dm.m_current_mem_pos.getD i 0 : Int) ≤ w.dm.m_current_block_size.getD i 0)
    (hr : 0 ≤ w.dm.m_remain_block_num.getD i 0)
    (hsp : addr + w.dm.m_current_mem_pos.getD i 0 + data.length ≤
      (w.dm.m_block_idxs.getD i 0 + w.dm.m_remain_block_num.getD i 0) * BLOCK_4K) :
    ∃ w1, WriteFileBulkCallback_write sys w data i = some (true, w1) ∧ w1.dm.Sized n ∧
      WInv w1 i (w.dm.m_block_idxs.getD i 0 + w.dm.m_remain_block_num.getD i 0) ∧
      w1.cursor i = addr + w.dm.m_current_mem_pos.getD i 0 + data.length ∧
      w1.file = writeBytes w.file (addr + w.dm.m_current_mem_pos.getD i 0) data ∧
      Frame i w w1 ∧
      w1.dm.m_downloaded_sizes.getD i 0 = w.dm.m_downloaded_sizes.getD i 0 + data.length ∧
      ∃ evs, w1.log = w.log ++ evs ∧ ∀ e ∈ evs, e.safe := by
  obtain ⟨w3, rd3, off3, addr3, h3, hs3, hm3, hb3, hfit3, hle3, hoff3, hcur3, hsum3, hr3,
      hfile3, hdl3, hfr3, evs3, hlog3, hsafe3⟩ :=
    while_ok sys i n data hmun hmap
      ((w.dm.m_remain_block_num.getD i 0).toNat + 1) w data.length
      (remain_mem_size (w.dm.m_current_block_size.getD i 0) (w.dm.m_current_mem_pos.getD i 0))
      0 addr hs hi hP hm hb hp (remain_mem_size_eq _ _ hp) hr (by omega) (by omega) hsp
  obtain ⟨m1, m2, m3, m4⟩ := memcpy_facts w3 i data off3 rd3 addr3 hm3
  obtain ⟨s1, s2, s3, s4, s5, s6⟩ := hs3
  unfold WriteFileBulkCallback_write
  simp only [h3]
  refine ⟨_, rfl, ?_, ?_, ?_, ?_, ?_, ?_, ?_⟩
  · simp only [m1]
    exact ⟨by simp only [List.length_set]; exact s1, s2, s3, s4, s5,
      by simp only [List.length_set]; exact s6⟩
  · unfold WInv
    simp only [m1, hm3]
    refine ⟨hr3, hsum3, hb3, ?_⟩
    rw [getD_set_self _ _ _ _ (by omega)]
    omega
  · unfold World.cursor
    simp only [m1, hm3]
    rw [getD_set_self _ _ _ _ (by omega)]
    push_cast
    omega
  · simp only [m3, hfile3]
    have e1 : addr3 + (w3.dm.m_current_mem_pos.getD i 0 : Int) =
        (addr + w.dm.m_current_mem_pos.getD i 0) +
          (((data.drop 0).take (data.length - rd3)).length : Nat) := by
      rw [length_take_drop data 0 _ (by omega)]
      omega
    have e2 : off3 = 0 + (data.length - rd3) := by omega
    have e3 : data.length - rd3 + rd3 = data.length := by omega
    rw [e1, writeBytes_append, e2, take_drop_add, e3, List.drop_zero, List.take_length]
  · obtain ⟨a1, a2, a3, a4, a5, a6, a7⟩ := hfr3
    refine ⟨?_, ?_, ?_, ?_, ?_, ?_, ?_⟩
    · intro j hj
      rw [← a1 j hj]
      apply worker_eq
      · simp only [m1]; exact getD_set_of_ne _ _ _ _ _ (Ne.symm hj)
      · simp only [m1]
      · simp only [m1]
      · simp only [m1]
      · simp only [m1]
      · simp only [m1]; exact getD_set_of_ne _ _ _ _ _ (Ne.symm hj)
    · simp only [m1]; exact a2
    · simp only [m1]; exact a3
    · simp only [m1]; exact a4
    · simp only [m1]; exact a5
    · simp only [m1]; exact a6
    · simp only [m2]; exact a7
  · simp only [m1]
    rw [getD_set_self _ _ _ _ (by omega), hdl3]
  · refine ⟨evs3 ++ [Event.memcpy i (w3.dm.m_current_mem_pos.getD i 0) rd3
        (w3.dm.m_current_block_size.getD i 0)], ?_, ?_⟩
    · simp only [m4, hlog3, List.append_assoc]
    · intro e he
      simp only [List.mem_append, List.mem_singleton] at he
      rcases he with he | he
      · exact hsafe3 e he
      · subst he
        exact hfit3

/-- The sink of a worker in a consistent state accepts data that fits into the pages
of its segment: it returns true, stores the data at the worker's cursor, moves the
cursor behind it and touches no other worker. -/
theorem sink_ok (sys : Sys) (i n : Nat) (data : List Byte)
    (hmun : ∀ a l, sys.munmap_ok a l = true) (hmap : ∀ l o, sys.mmap_ok l o = true)
    (w : World) (E : Int) (hs : w.dm.Sized n) (hi : i < n) (hP : 1 ≤ w.dm.m_map_page_num)
    (hinv : WInv w i E) (hsp : w.cursor i + data.length ≤ E * BLOCK_4K) :
    ∃ w1, WriteFileBulkCallback sys w data i = some (true, w1) ∧ w1.dm.Sized n ∧
      WInv w1 i E ∧ w1.cursor i = w.cursor i + data.length ∧
      w1.file = writeBytes w.file (w.cursor i) data ∧ Frame i w w1 ∧
      w1.dm.m_downloaded_sizes.getD i 0 = w.dm.m_downloaded_sizes.getD i 0 + data.length ∧
      ∃ evs, w1.log = w.log ++ evs ∧ ∀ e ∈ evs, e.safe := by
  cases hm : w.dm.m_mems.getD i none with
  | none =>
    unfold WInv at hinv
    have hc : w.cursor i = w.dm.m_block_idxs.getD i 0 * BLOCK_4K := by
      unfold World.cursor; rw [hm]
    rw [hc] at hsp ⊢
    simp only [hm] at hinv
    obtain ⟨hr, hE, hr1⟩ := hinv
    obtain ⟨w2, hw2, hs2, hm2, hpos2, hblk2, hrem2, hbs2, hdl2, hfile2, hfr2, evs2, hlog2,
        hsafe2⟩ := MapToFile_ok sys w i n hmun hmap hs hi hP hr1
    have htm1 : 1 ≤ min w.dm.m_map_page_num (w.dm.m_remain_block_num.getD i 0) := by
      rw [le_min_iff]; exact ⟨hP, hr1⟩
    have htm2 : min w.dm.m_map_page_num (w.dm.m_remain_block_num.getD i 0) ≤
        w.dm.m_remain_block_num.getD i 0 := min_le_right _ _
    have hP2 : 1 ≤ w2.dm.m_map_page_num := by rw [hfr2.2.2.2.2.1]; exact hP
    obtain ⟨w3, h3, hs3, hinv3, hcur3, hfile3, hfr3, hdl3, evs3, hlog3, hsafe3⟩ :=
      write_ok sys i n data hmun hmap w2 _ hs2 hi hP2 hm2 (by rw [hbs2, hblk2]; ring)
        (by rw [hpos2, hbs2]; simp only [BLOCK_4K]; omega) (by rw [hrem2]; omega)
        (by
          rw [hpos2, hblk2, hrem2]
          simp only [BLOCK_4K] at hsp ⊢
          push_cast
          omega)
    refine ⟨w3, ?_, hs3, ?_, ?_, ?_, Frame_trans i w w2 w3 hfr2 hfr3, ?_, ?_⟩
    · unfold WriteFileBulkCallback
      simp only [hm, hw2]
      exact h3
    · rw [hblk2, hrem2] at hinv3
      have e : w.dm.m_block_idxs.getD i 0 +
          min w.dm.m_map_page_num (w.dm.m_remain_block_num.getD i 0) +
          (w.dm.m_remain_block_num.getD i 0 -
            min w.dm.m_map_page_num (w.dm.m_remain_block_num.getD i 0)) = E := by omega
      rw [e] at hinv3
      exact hinv3
    · rw [hcur3, hpos2, Nat.cast_zero, add_zero]
    · rw [hfile3, hfile2, hpos2, Nat.cast_zero, add_zero]
    · rw [hdl3, hdl2]
    · refine ⟨evs2 ++ evs3, by rw [hlog3, hlog2, List.append_assoc], ?_⟩
      intro e he
      rcases List.mem_append.mp he with he | he
      · exact hsafe2 e he
      · exact hsafe3 e he
  | some addr =>
    unfold WInv at hinv
    rw [cursor_mapped w i addr hm] at hsp ⊢
    simp only [hm] at hinv
    obtain ⟨hr, hE, hb, hp⟩ := hinv
    obtain ⟨w3, h3, hs3, hinv3, hcur3, hfile3, hfr3, hdl3, hlog3⟩ :=
      write_ok sys i n data hmun hmap w addr hs hi hP hm hb hp hr (by rw [hE]; exact hsp)
    refine ⟨w3, ?_, hs3, ?_, hcur3, hfile3, hfr3, hdl3, hlog3⟩
    · unfold WriteFileBulkCallback
      simp only [hm]
      exact h3
    · rw [hE] at hinv3
      exact hinv3

theorem WInv_congr (w w1 : World) (j : Nat) (E : Int) (h : w1.dm.worker j = w.dm.worker j)
    (hinv : WInv w j E) : WInv w1 j E := by
  have h2 : w1.dm.m_block_idxs.getD j 0 = w.dm.m_block_idxs.getD j 0 :=
    congrArg WorkerState.cursor_page h
  have h3 : w1.dm.m_remain_block_num.getD j 0 = w.dm.m_remain_block_num.getD j 0 :=
    congrArg WorkerState.remaining_pages h
  have h4 : w1.dm.m_mems.getD j none = w.dm.m_mems.getD j none :=
    congrArg WorkerState.window h
  have h5 : w1.dm.m_current_block_size.getD j 0 = w.dm.m_current_block_size.getD j 0 :=
    congrArg WorkerState.window_len h
  have h6 : w1.dm.m_current_mem_pos.getD j 0 = w.dm.m_current_mem_pos.getD j 0 :=
    congrArg WorkerState.window_pos h
  unfold WInv at hinv ⊢
  rw [h2, h3, h4, h5, h6]
  exact hinv

theorem cursor_congr (w w1 : World) (j : Nat) (h : w1.dm.worker j = w.dm.worker j) :
    w1.cursor j = w.cursor j := by
  have h2 : w1.dm.m_block_idxs.getD j 0 = w.dm.m_block_idxs.getD j 0 :=
    congrArg WorkerState.cursor_page h
  have h4 : w1.dm.m_mems.getD j none = w.dm.m_mems.getD j none :=
    congrArg WorkerState.window h
  have h6 : w1.dm.m_current_mem_pos.getD j 0 = w.dm.m_current_mem_pos.getD j 0 :=
    congrArg WorkerState.window_pos h
  unfold World.cursor
  rw [h2, h4, h6]

theorem WInv_unique (w : World) (j : Nat) (E E1 : Int) (h : WInv w j E) (h1 : WInv w j E1) :
    E = E1 := by
  rw [← h.2.1, ← h1.2.1]

theorem segStart_mem (segs : List Launch) (i : Nat) (h : ∃ l ∈ segs, l.thread_id = i) :
    ∃ l ∈ segs, l.thread_id = i ∧ segStart segs i = l.start_pos := by
  unfold segStart
  cases hf : segs.find? (fun l => l.thread_id = i) with
  | none =>
    obtain ⟨l, hl, hi⟩ := h
    have := List.find?_eq_none.mp hf l hl
    simp [hi] at this
  | some l0 =>
    have h1 := List.mem_of_find?_eq_some hf
    have h2 := List.find?_some hf
    exact ⟨l0, h1, by simpa using h2, rfl⟩

/-- Chunks that respect the length of every segment are all accepted, leave every
worker in a consistent state, and end up in the file where `storeChunks` puts them. -/
theorem deliver_ok (sys : Sys) (segs : List Launch) (n : Nat)
    (hmun : ∀ a l, sys.munmap_ok a l = true) (hmap : ∀ l o, sys.mmap_ok l o = true) :
    ∀ (calls : List (Nat × List Byte)) (w : World), GInv segs n w →
      (∀ c ∈ calls, ∃ l ∈ segs, l.thread_id = c.1) →
      (∀ l ∈ segs, (w.dm.m_downloaded_sizes.getD l.thread_id 0 : Int) +
        delivered l.thread_id calls ≤ l.end_pos + 1 - l.start_pos) →
      ∃ w1, deliver sys calls [] w = some (List.replicate calls.length true, w1) ∧
        GInv segs n w1 ∧
        (∀ i, w1.dm.m_downloaded_sizes.getD i 0 =
          w.dm.m_downloaded_sizes.getD i 0 + delivered i calls) ∧
        w1.file = storeChunks (segStart segs) calls
          (fun i => w.dm.m_downloaded_sizes.getD i 0) w.file ∧
        ∃ evs, w1.log = w.log ++ evs ∧ ∀ e ∈ evs, e.safe := by
  intro calls
  induction calls with
  | nil =>
    intro w hg _ _
    exact ⟨w, rfl, hg, fun i => by simp [delivered], rfl, [], by simp, by simp⟩
  | cons c rest ih =>
    intro w hg hids hbud
    obtain ⟨i, data⟩ := c
    obtain ⟨hs, hP, hall⟩ := hg
    obtain ⟨l, hl, hli⟩ := hids (i, data) (List.mem_cons_self _ _)
    simp only at hli
    obtain ⟨hin, E, hinv, hE, hcur⟩ := hall l hl
    rw [hli] at hin hinv hcur
    have hb := hbud l hl
    rw [hli] at hb
    simp only [delivered, if_true] at hb
    obtain ⟨w1, h1, hs1, hinv1, hcur1, hfile1, hfr1, hdl1, evs1, hlog1, hsafe1⟩ :=
      sink_ok sys i n data hmun hmap w E hs hin hP hinv (by rw [hcur]; push_cast at hb; omega)
    have hdl_other : ∀ j, j ≠ i →
        w1.dm.m_downloaded_sizes.getD j 0 = w.dm.m_downloaded_sizes.getD j 0 :=
      fun j hj => congrArg WorkerState.downloaded_bytes (hfr1.1 j hj)
    have hg1 : GInv segs n w1 := by
      refine ⟨hs1, by rw [hfr1.2.2.2.2.1]; exact hP, ?_⟩
      intro l' hl'
      obtain ⟨hin', E', hinv', hE', hcur'⟩ := hall l' hl'
      refine ⟨hin', E', ?_, hE', ?_⟩
      · by_cases hj : l'.thread_id = i
        · rw [hj] at hinv' ⊢
          rw [← WInv_unique w i E E' hinv hinv']
          exact hinv1
        · exact WInv_congr w w1 _ E' (hfr1.1 _ hj) hinv'
      · by_cases hj : l'.thread_id = i
        · rw [hj] at hcur' ⊢
          rw [hcur1, hcur', hdl1]
          push_cast; ring
        · rw [cursor_congr w w1 _ (hfr1.1 _ hj), hcur', hdl_other _ hj]
    obtain ⟨w2, h2, hg2, hdl2, hfile2, evs2, hlog2, hsafe2⟩ := ih w1 hg1
      (fun c hc => hids c (List.mem_cons_of_mem _ hc))
      (by
        intro l' hl'
        have hb' := hbud l' hl'
        by_cases hj : l'.thread_id = i
        · rw [hj] at hb' ⊢
          rw [hdl1]
          simp only [delivered, if_true] at hb'
          push_cast at hb' ⊢
          omega
        · rw [hdl_other _ hj]
          have hj' : ¬ i = l'.thread_id := fun h => hj h.symm
          simp only [delivered, if_neg hj', zero_add] at hb'
          exact hb')
    refine ⟨w2, ?_, hg2, ?_, ?_, ?_⟩
    · rw [deliver]
      simp only [List.not_mem_nil, if_false, h1]
      simp only [Bool.true_eq_false, if_false, ne_eq, not_true_eq_false, h2]
      rfl
    · intro j
      rw [hdl2 j]
      by_cases hj : j = i
      · subst hj
        rw [hdl1]
        simp only [delivered, if_true]
        omega
      · rw [hdl_other j hj]
        have hj' : ¬ i = j := fun h => hj h.symm
        simp only [delivered, if_neg hj', zero_add]
    · rw [hfile2, hfile1]
      simp only [storeChunks]
      obtain ⟨l0, hl0, hl0i, hst⟩ := segStart_mem segs i ⟨l, hl, hli⟩
      obtain ⟨_, E0, _, _, hcur0⟩ := hall l0 hl0
      rw [hl0i] at hcur0
      have hacc : (fun j => w1.dm.m_downloaded_sizes.getD j 0) =
          Function.update (fun j => w.dm.m_downloaded_sizes.getD j 0) i
            (w.dm.m_downloaded_sizes.getD i 0 + data.length) := by
        funext j
        by_cases hj : j = i
        · subst hj
          rw [Function.update_same, hdl1]
        · rw [Function.update_noteq hj, hdl_other j hj]
      rw [hst, ← hcur0, hacc]
    · refine ⟨evs1 ++ evs2, by rw [hlog2, hlog1, List.append_assoc], ?_⟩
      intro e he
      rcases List.mem_append.mp he with he | he
      · exact hsafe1 e he
      · exact hsafe2 e he

theorem planSegments_mem (F : Nat) (T : Int) (l : Launch) :
    l ∈ planSegments F T ↔
      (∃ k, k < (thread_num_clamped F T - 1).toNat ∧
        l = Launch.mk (startPage (base_blk_num F T) (extra_blk_num F T) k * BLOCK_4K)
          (startPage (base_blk_num F T) (extra_blk_num F T) (k + 1) * BLOCK_4K - 1) (1 + k)) ∨
      l = Launch.mk ((num_of_4k_block F - base_blk_num F T) * BLOCK_4K) ((F : Int) - 1) 0 := by
  unfold planSegments
  simp only [List.mem_append, List.mem_map, List.mem_range, List.mem_singleton]
  constructor
  · rintro (⟨k, hk, rfl⟩ | h)
    · exact Or.inl ⟨k, hk, rfl⟩
    · exact Or.inr h
  · rintro (⟨k, hk, rfl⟩ | h)
    · exact Or.inl ⟨k, hk, rfl⟩
    · exact Or.inr h

/-- After the launch phase every launched worker is in a consistent state. -/
theorem launch_GInv (w : World) (n : Nat) (hfresh : w.dm.Fresh n) (hF : 1 ≤ w.dm.m_filesize)
    (hT : 1 ≤ w.dm.m_thread_num) (hn : w.dm.m_thread_num ≤ n) (hP : 1 ≤ w.dm.m_map_page_num) :
    (Download_launch w.dm).m_threads = planSegments w.dm.m_filesize w.dm.m_thread_num ∧
    GInv (planSegments w.dm.m_filesize w.dm.m_thread_num) n
      { w with dm := Download_launch w.dm } ∧
    ∀ i, (Download_launch w.dm).m_downloaded_sizes.getD i 0 = 0 := by
  obtain ⟨⟨s1, s2, s3, s4, s5, s6⟩, h0, hmems, hdl⟩ := hfresh
  obtain ⟨c1, c2, c3, c4, b1, e1, b2, e2, e3, hsum⟩ :=
    plan_arith w.dm.m_filesize w.dm.m_thread_num hF hT
  obtain ⟨n1, n2, n3⟩ := num_of_4k_block_bounds w.dm.m_filesize hF
  obtain ⟨f1, f2, f3, f4, f5, f6, f7, f8, f9, f10⟩ := Download_launch_fields w.dm
  have hthreads : (Download_launch w.dm).m_threads =
      planSegments w.dm.m_filesize w.dm.m_thread_num := by
    rw [Download_launch_threads w.dm hF hT, h0, List.nil_append]
  refine ⟨hthreads, ⟨?_, ?_, ?_⟩, ?_⟩
  · exact ⟨by rw [f5]; exact s1, by rw [f6]; exact s2, by rw [f9]; exact s3,
      by rw [f10]; exact s4, by rw [f7]; exact s5, by rw [f8]; exact s6⟩
  · show 1 ≤ (Download_launch w.dm).m_map_page_num
    rw [f4]; exact hP
  · intro l hl
    have hm : ∀ i, (Download_launch w.dm).m_mems.getD i none = none := by
      intro i; rw [f6]; exact hmems i
    have hd : ∀ i, (Download_launch w.dm).m_downloaded_sizes.getD i 0 = 0 := by
      intro i; rw [f5]; exact hdl i
    rcases (planSegments_mem _ _ l).mp hl with ⟨k, hk, rfl⟩ | rfl
    · have hi0 : 1 + k ≠ 0 := by omega
      have hi1 : ((1 + k : Nat) : Int) < thread_num_clamped w.dm.m_filesize w.dm.m_thread_num := by
        omega
      have hidx := Download_launch_idxs w.dm hF hT (1 + k) (by omega)
      have hrem := Download_launch_remain w.dm hF hT (1 + k) (by omega)
      rw [if_neg hi0, if_pos hi1] at hidx hrem
      have hk1 : 1 + k - 1 = k := by omega
      rw [hk1] at hidx hrem
      have hlt := startPage_lt (base_blk_num w.dm.m_filesize w.dm.m_thread_num)
        (extra_blk_num w.dm.m_filesize w.dm.m_thread_num) k b2
      refine ⟨by show 1 + k < n; omega,
        startPage (base_blk_num w.dm.m_filesize w.dm.m_thread_num)
          (extra_blk_num w.dm.m_filesize w.dm.m_thread_num) (k + 1), ?_, ?_, ?_⟩
      · unfold WInv
        simp only [hm, hidx, hrem]
        refine ⟨by omega, by ring, by omega⟩
      · simp only [BLOCK_4K]; omega
      · unfold World.cursor
        simp only [hm, hd, hidx]
        simp
    · have hidx := Download_launch_idxs w.dm hF hT 0 (by omega)
      have hrem := Download_launch_remain w.dm hF hT 0 (by omega)
      rw [if_pos rfl] at hidx hrem
      refine ⟨by show 0 < n; omega, num_of_4k_block w.dm.m_filesize, ?_, ?_, ?_⟩
      · unfold WInv
        simp only [hm, hidx, hrem]
        refine ⟨by omega, by ring, by omega⟩
      · simp only [BLOCK_4K] at n3 ⊢; omega
      · unfold World.cursor
        simp only [hm, hd, hidx]
        simp
  · intro i; rw [f5]; exact hdl i

theorem delivered_eq_length_received (i : Nat) (calls : List (Nat × List Byte)) :
    delivered i calls = (received i calls).length := by
  induction calls with
  | nil => rfl
  | cons c rest ih =>
    simp only [delivered, received]
    split_ifs <;> simp [ih]

/-- In exact arithmetic: for a plan computed from `F ≥ 1`, `T ≥ 1`, a page budget
`P ≥ 1` and chunks
that reach the sinks of launched workers in any interleaving, no worker receiving
more bytes than its segment `end - start + 1` has, with every `mmap` and `munmap`
succeeding: every `WriteFileBulkCallback` call returns true, `MapToFile` is never
entered with `remaining_pages = 0`, and every `memcpy` stays inside the current
window (`window_pos + n ≤ window_len`, so `window_len - window_pos` never underflows). -/
theorem sink_safe_exact (sys : Sys) (w : World) (n : Nat) (calls : List (Nat × List Byte))
    (hmun : ∀ a l, sys.munmap_ok a l = true) (hmap : ∀ l o, sys.mmap_ok l o = true)
    (hfresh : w.dm.Fresh n) (hF : 1 ≤ w.dm.m_filesize) (hT : 1 ≤ w.dm.m_thread_num)
    (hn : w.dm.m_thread_num ≤ n) (hP : 1 ≤ w.dm.m_map_page_num)
    (hids : ∀ c ∈ calls, ∃ l ∈ (Download_launch w.dm).m_threads, l.thread_id = c.1)
    (hlen : ∀ l ∈ (Download_launch w.dm).m_threads,
      (delivered l.thread_id calls : Int) ≤ l.end_pos - l.start_pos + 1) :
    ∃ w1 evs,
      deliver sys calls [] { w with dm := Download_launch w.dm } =
        some (List.replicate calls.length true, w1) ∧
      w1.log = w.log ++ evs ∧
      (∀ i remaining_pages, Event.MapToFile i remaining_pages ∈ evs → remaining_pages ≠ 0) ∧
      (∀ i window_pos k window_len, Event.memcpy i window_pos k window_len ∈ evs →
        (window_pos : Int) + k ≤ window_len ∧ (window_pos : Int) ≤ window_len) := by
  obtain ⟨hthreads, hg, hd⟩ := launch_GInv w n hfresh hF hT hn hP
  rw [hthreads] at hids hlen
  obtain ⟨w1, h1, _, _, _, evs, hlog, hsafe⟩ :=
    deliver_ok sys _ n hmun hmap calls { w with dm := Download_launch w.dm } hg hids (by
      intro l hl
      have := hlen l hl
      show ((Download_launch w.dm).m_downloaded_sizes.getD l.thread_id 0 : Int) + _ ≤ _
      rw [hd]
      push_cast
      omega)
  refine ⟨w1, evs, h1, hlog, ?_, ?_⟩
  · intro i r he
    have : 0 < r := hsafe _ he
    omega
  · intro i pos k len he
    have : (pos : Int) + k ≤ len := hsafe _ he
    omega

/-! ## The contents of the file -/

theorem resourceBytes_length (r : Int → Byte) (a b : Int) :
    (resourceBytes r a b).length = (b + 1 - a).toNat := by
  simp [resourceBytes]

theorem resourceBytes_getElem? (r : Int → Byte) (a b : Int) (k : Nat) :
    (resourceBytes r a b)[k]? = if k < (b + 1 - a).toNat then some (r (a + k)) else none := by
  unfold resourceBytes
  rw [List.getElem?_map]
  by_cases h : k < (b + 1 - a).toNat
  · rw [List.getElem?_range h, if_pos h]; rfl
  · rw [if_neg h, List.getElem?_eq_none (by simpa using h)]; rfl

theorem resourceBytes_drop (r : Int → Byte) (a b : Int) (k : Nat) :
    (resourceBytes r a b).drop k = resourceBytes r (a + k) b := by
  apply List.ext_getElem?
  intro j
  rw [List.getElem?_drop, resourceBytes_getElem?, resourceBytes_getElem?]
  by_cases h : k + j < (b + 1 - a).toNat
  · rw [if_pos h, if_pos (by omega)]
    congr 2
    push_cast; ring
  · rw [if_neg h, if_neg (by omega)]

theorem resourceBytes_split (r : Int → Byte) (a b : Int) (data rest : List Byte)
    (h : data ++ rest = resourceBytes r a b) :
    (data.length : Int) ≤ (b + 1 - a).toNat ∧
    (∀ k, k < data.length → data.getD k 0 = r (a + k)) ∧
    rest = resourceBytes r (a + data.length) b := by
  have hlen : data.length + rest.length = (b + 1 - a).toNat := by
    rw [← resourceBytes_length r a b, ← h, List.length_append]
  refine ⟨by omega, ?_, ?_⟩
  · intro k hk
    have h1 : (data ++ rest)[k]? = (resourceBytes r a b)[k]? := by rw [h]
    rw [List.getElem?_append_left hk, resourceBytes_getElem?, if_pos (by omega)] at h1
    rw [List.getD_eq_getElem?_getD, h1]; rfl
  · rw [← resourceBytes_drop, ← h, List.drop_left]

theorem Contiguous_cover : ∀ (segs : List Launch) (a b o : Int), Contiguous a segs b →
    a ≤ o → o < b → ∃ l ∈ segs, l.start_pos ≤ o ∧ o ≤ l.end_pos := by
  intro segs
  induction segs with
  | nil => intro a b o h h1 h2; simp only [Contiguous] at h; omega
  | cons x xs ih =>
    intro a b o h h1 h2
    obtain ⟨h3, h4, h5⟩ := h
    by_cases hx : o ≤ x.end_pos
    · exact ⟨x, List.mem_cons_self _ _, by omega, hx⟩
    · obtain ⟨l, hl, hl1, hl2⟩ := ih _ b o h5 (by omega) h2
      exact ⟨l, List.mem_cons_of_mem _ hl, hl1, hl2⟩

theorem Contiguous_mem (segs : List Launch) (a b : Int) (h : Contiguous a segs b)
    (l : Launch) (hl : l ∈ segs) : l.start_pos ≤ l.end_pos := by
  obtain ⟨i, hi⟩ := List.mem_iff_getElem?.mp hl
  exact (Contiguous_get segs a b h i l hi).1

theorem planSegments_nodup (F : Nat) (T : Int) :
    ((planSegments F T).map Launch.thread_id).Nodup := by
  unfold planSegments
  simp only [List.map_append, List.map_map, List.map_cons, List.map_nil]
  rw [List.nodup_append]
  refine ⟨?_, List.nodup_singleton _, ?_⟩
  · apply List.Nodup.map
    · intro x y hxy
      simp only [Function.comp] at hxy
      omega
    · exact List.nodup_range _
  · intro x hx hx0
    simp only [List.mem_map, List.mem_range, Function.comp, List.mem_singleton] at hx hx0
    obtain ⟨k, _, hk⟩ := hx
    omega

theorem received_cons_ne (i j : Nat) (data : List Byte) (rest : List (Nat × List Byte))
    (h : j ≠ i) : received i ((j, data) :: rest) = received i rest := by
  simp only [received, if_neg h]

theorem received_cons_eq (i : Nat) (data : List Byte) (rest : List (Nat × List Byte)) :
    received i ((i, data) :: rest) = data ++ received i rest := by
  simp only [received, if_true]

/-- When every sink receives the bytes of its segment that it has not accepted yet,
`storeChunks` fills the rest of every segment with the bytes of the resource. -/
theorem storeChunks_correct (segs : List Launch) (resource : Int → Byte)
    (hnodup : (segs.map Launch.thread_id).Nodup) :
    ∀ (calls : List (Nat × List Byte)) (acc : Nat → Nat) (file : Int → Byte),
      (∀ c ∈ calls, ∃ l ∈ segs, l.thread_id = c.1) →
      (∀ l ∈ segs, received l.thread_id calls =
        resourceBytes resource (l.start_pos + acc l.thread_id) l.end_pos) →
      ∀ o, storeChunks (segStart segs) calls acc file o =
        if ∃ l ∈ segs, l.start_pos + acc l.thread_id ≤ o ∧ o ≤ l.end_pos then resource o
        else file o := by
  intro calls
  induction calls with
  | nil =>
    intro acc file _ hrecv o
    simp only [storeChunks]
    split_ifs with hc
    · obtain ⟨l, hl, h1, h2⟩ := hc
      have h := hrecv l hl
      have hlen := resourceBytes_length resource (l.start_pos + acc l.thread_id) l.end_pos
      rw [← h] at hlen
      simp only [received, List.length_nil] at hlen
      omega
    · rfl
  | cons c rest ih =>
    intro acc file hids hrecv o
    obtain ⟨i, data⟩ := c
    obtain ⟨li, hli, htid⟩ := hids (i, data) (List.mem_cons_self _ _)
    simp only at htid
    have huniq : ∀ l ∈ segs, l.thread_id = i → l = li := by
      intro l hl h
      exact List.inj_on_of_nodup_map hnodup hl hli (by rw [h, htid])
    have hst : segStart segs i = li.start_pos := by
      obtain ⟨l0, hl0, hl0i, hst⟩ := segStart_mem segs i ⟨li, hli, htid⟩
      rw [hst, huniq l0 hl0 hl0i]
    have hR := hrecv li hli
    rw [htid, received_cons_eq] at hR
    obtain ⟨r1, r2, r3⟩ := resourceBytes_split resource _ _ _ _ hR
    have hih := ih (Function.update acc i (acc i + data.length))
      (writeBytes file (segStart segs i + acc i) data)
      (fun c hc => hids c (List.mem_cons_of_mem _ hc))
      (by
        intro l hl
        by_cases hj : l.thread_id = i
        · have := huniq l hl hj
          subst this
          rw [hj, Function.update_same, r3]
          congr 1
          push_cast; ring
        · rw [Function.update_noteq hj, ← hrecv l hl, received_cons_ne _ _ _ _ (Ne.symm hj)])
      o
    simp only [storeChunks]
    rw [hih, hst]
    by_cases hA : li.start_pos + acc i ≤ o ∧ o < li.start_pos + acc i + data.length
    · have hc : ∃ l ∈ segs, l.start_pos + acc l.thread_id ≤ o ∧ o ≤ l.end_pos :=
        ⟨li, hli, by rw [htid]; omega, by omega⟩
      rw [if_pos hc]
      split_ifs with hc'
      · rfl
      · unfold writeBytes
        rw [if_pos hA, r2 _ (by omega)]
        congr 1
        omega
    · have hf : writeBytes file (li.start_pos + acc i) data o = file o := by
        unfold writeBytes
        rw [if_neg hA]
      rw [hf]
      have hiff : (∃ l ∈ segs, l.start_pos +
            (Function.update acc i (acc i + data.length) l.thread_id : Nat) ≤ o ∧
            o ≤ l.end_pos) ↔
          (∃ l ∈ segs, l.start_pos + acc l.thread_id ≤ o ∧ o ≤ l.end_pos) := by
        constructor
        · rintro ⟨l, hl, h1, h2⟩
          refine ⟨l, hl, ?_, h2⟩
          by_cases hj : l.thread_id = i
          · rw [hj, Function.update_same] at h1
            rw [hj]
            push_cast at h1
            omega
          · rw [Function.update_noteq hj] at h1
            exact h1
        · rintro ⟨l, hl, h1, h2⟩
          refine ⟨l, hl, ?_, h2⟩
          by_cases hj : l.thread_id = i
          · have := huniq l hl hj
            subst this
            rw [hj, Function.update_same]
            rw [hj] at h1
            push_cast
            omega
          · rw [Function.update_noteq hj]
            exact h1
      by_cases hc : ∃ l ∈ segs, l.start_pos + acc l.thread_id ≤ o ∧ o ≤ l.end_pos
      · rw [if_pos hc, if_pos (hiff.mpr hc)]
      · rw [if_neg hc, if_neg (fun h => hc (hiff.mp h))]

theorem World_start_Fresh (F : Nat) (thread_num map_page_num : Int) :
    (World.start F thread_num map_page_num).dm.Fresh thread_num.toNat := by
  refine ⟨⟨?_, ?_, ?_, ?_, ?_, ?_⟩, rfl, ?_, ?_⟩
  · simp [World.start, DownloadManager.ctor]
  · simp [World.start, DownloadManager.ctor]
  · simp [World.start, DownloadManager.ctor]
  · simp [World.start, DownloadManager.ctor]
  · simp [World.start, DownloadManager.ctor]
  · simp [World.start, DownloadManager.ctor]
  · intro i
    simp only [World.start, DownloadManager.ctor, List.getD_eq_getElem?_getD,
      List.getElem?_replicate]
    split_ifs <;> rfl
  · intro i
    simp only [World.start, DownloadManager.ctor, List.getD_eq_getElem?_getD,
      List.getElem?_replicate]
    split_ifs <;> rfl

/-- The theorem `sink_safe_exact` at `F = 5`, `T = 1`, `P = 256` and two chunks of 2 and
3 bytes. -/
theorem sink_safe_exact_example :
    ∃ w1 evs,
      deliver Sys.allOk exampleCalls []
          { World.start 5 1 256 with dm := Download_launch (World.start 5 1 256).dm } =
        some (List.replicate exampleCalls.length true, w1) ∧
      w1.log = (World.start 5 1 256).log ++ evs ∧
      (∀ i remaining_pages, Event.MapToFile i remaining_pages ∈ evs → remaining_pages ≠ 0) ∧
      (∀ i window_pos k window_len, Event.memcpy i window_pos k window_len ∈ evs →
        (window_pos : Int) + k ≤ window_len ∧ (window_pos : Int) ≤ window_len) :=
  sink_safe_exact Sys.allOk (World.start 5 1 256) 1 exampleCalls (fun _ _ => rfl) (fun _ _ => rfl)
    (World_start_Fresh 5 1 256) (by decide) (by decide) (by decide) (by decide) (by decide)
    (by decide)

/-- The round trip in exact arithmetic, for every `F ≥ 0`, every `T ≥ 1` and every
page budget `P ≥ 1`, with every `mmap` and `munmap`
succeeding and the per-worker state as the constructor and `Download` initialise it.
For `F = 0` `Download` returns at once and nothing is transferred.  For `F ≥ 1`,
however the transport cuts the bytes of each worker's segment into chunks and
interleaves the chunks of different workers: every sink call returns true, the chunk
that arrives when worker `i` has accepted `k` bytes is stored at file offsets
`seg[i].start + k` and onwards (`storeChunks`), and in the end the `F` bytes of the
destination file are those of the resource. -/
theorem round_trip_exact (sys : Sys) (w : World) (n : Nat) (resource : Int → Byte)
    (hmun : ∀ a l, sys.munmap_ok a l = true) (hmap : ∀ l o, sys.mmap_ok l o = true)
    (hfresh : w.dm.Fresh n) (hT : 1 ≤ w.dm.m_thread_num) (hn : w.dm.m_thread_num ≤ n)
    (hP : 1 ≤ w.dm.m_map_page_num) :
    (w.dm.m_filesize = 0 → ∀ env fuel, Download sys env fuel w = some (true, w)) ∧
    (1 ≤ w.dm.m_filesize → ∀ calls : List (Nat × List Byte),
      (∀ c ∈ calls, ∃ l ∈ (Download_launch w.dm).m_threads, l.thread_id = c.1) →
      (∀ l ∈ (Download_launch w.dm).m_threads,
        received l.thread_id calls = resourceBytes resource l.start_pos l.end_pos) →
      ∃ w1,
        deliver sys calls [] { w with dm := Download_launch w.dm } =
          some (List.replicate calls.length true, w1) ∧
        w1.file = storeChunks (segStart (Download_launch w.dm).m_threads) calls
          (fun _ => 0) w.file ∧
        (∀ i, w1.dm.m_downloaded_sizes.getD i 0 = delivered i calls) ∧
        ∀ o, 0 ≤ o → o < (w.dm.m_filesize : Int) → w1.file o = resource o) := by
  constructor
  · intro h env fuel
    simp [Download, h]
  · intro hF calls hids hrecv
    obtain ⟨hthreads, hg, hd⟩ := launch_GInv w n hfresh hF hT hn hP
    rw [hthreads] at hids hrecv ⊢
    have hcont := planSegments_contiguous w.dm.m_filesize w.dm.m_thread_num hF hT
    have hacc : (fun i => (Download_launch w.dm).m_downloaded_sizes.getD i 0) =
        fun _ => 0 := funext hd
    obtain ⟨w1, h1, _, hdl, hfile, _⟩ :=
      deliver_ok sys _ n hmun hmap calls { w with dm := Download_launch w.dm } hg hids (by
        intro l hl
        have h := hrecv l hl
        have hle := Contiguous_mem _ _ _ hcont l hl
        have hlen := resourceBytes_length resource l.start_pos l.end_pos
        rw [← h, ← delivered_eq_length_received] at hlen
        show ((Download_launch w.dm).m_downloaded_sizes.getD l.thread_id 0 : Int) + _ ≤ _
        rw [hd]
        push_cast
        omega)
    simp only [hacc] at hfile
    refine ⟨w1, h1, hfile, ?_, ?_⟩
    · intro i
      have := hdl i
      simp only [hd, zero_add] at this
      exact this
    · intro o ho1 ho2
      rw [hfile, storeChunks_correct _ resource (planSegments_nodup _ _) calls (fun _ => 0)
        w.file hids (by
          intro l hl
          rw [hrecv l hl]
          simp)]
      obtain ⟨l, hl, hl1, hl2⟩ := Contiguous_cover _ _ _ o hcont ho1 ho2
      rw [if_pos ⟨l, hl, by simpa using hl1, hl2⟩]

/-- The round trip in exact arithmetic at `F = 5`, `T = 1`, `P = 256` and a resource
delivered in two chunks of 2 and 3 bytes. -/
theorem round_trip_exact_example :
    ∃ w1,
      deliver Sys.allOk exampleCalls []
          { World.start 5 1 256 with dm := Download_launch (World.start 5 1 256).dm } =
        some (List.replicate exampleCalls.length true, w1) ∧
      w1.file = storeChunks (segStart (Download_launch (World.start 5 1 256).dm).m_threads)
        exampleCalls (fun _ => 0) (World.start 5 1 256).file ∧
      (∀ i, w1.dm.m_downloaded_sizes.getD i 0 = delivered i exampleCalls) ∧
      ∀ o, 0 ≤ o → o < ((World.start 5 1 256).dm.m_filesize : Int) →
        w1.file o = exampleResource o :=
  (round_trip_exact Sys.allOk (World.start 5 1 256) 1 exampleResource (fun _ _ => rfl)
    (fun _ _ => rfl) (World_start_Fresh 5 1 256) (by decide) (by decide) (by decide)).2
    (by decide) exampleCalls (by decide) (by decide)

/-! ## ShowProgress -/

theorem ShowProgress_for_failed : ∀ (threads : List Future) (tick : Nat) (u wt : Int),
    ShowProgress_for threads tick u wt = Harvest.failed → ∃ f ∈ threads, f.result = false := by
  intro threads
  induction threads with
  | nil => intro tick u wt h; simp [ShowProgress_for] at h
  | cons f rest ih =>
    intro tick u wt h
    rw [ShowProgress_for] at h
    by_cases h1 : tick < f.ready_at
    · rw [if_pos h1] at h
      cases hr : ShowProgress_for rest (tick + 1) u wt with
      | failed =>
        obtain ⟨g, hg, hg2⟩ := ih _ _ _ hr
        exact ⟨g, List.mem_cons_of_mem _ hg, hg2⟩
      | more ts t u1 w1 => rw [hr] at h; simp at h
    · rw [if_neg h1] at h
      by_cases h2 : f.result = false
      · exact ⟨f, List.mem_cons_self _ _, h2⟩
      · rw [if_neg h2] at h
        obtain ⟨g, hg, hg2⟩ := ih _ _ _ h
        exact ⟨g, List.mem_cons_of_mem _ hg, hg2⟩

theorem ShowProgress_for_more : ∀ (threads : List Future) (tick : Nat) (u wt : Int)
    (ts : List Future) (t : Nat) (u1 w1 : Int),
    ShowProgress_for threads tick u wt = Harvest.more ts t u1 w1 →
      t = tick + threads.length ∧ u1 = u - threads.length + ts.length ∧
      (∀ f ∈ ts, f ∈ threads) ∧ (∀ f ∈ threads, f ∈ ts ∨ f.result = true) ∧
      ((∀ f ∈ threads, f.ready_at ≤ tick) → ts = []) := by
  intro threads
  induction threads with
  | nil =>
    intro tick u wt ts t u1 w1 h
    simp only [ShowProgress_for, Harvest.more.injEq] at h
    obtain ⟨h1, h2, h3, _⟩ := h
    subst h1 h2 h3
    simp
  | cons f rest ih =>
    intro tick u wt ts t u1 w1 h
    rw [ShowProgress_for] at h
    by_cases h1 : tick < f.ready_at
    · rw [if_pos h1] at h
      cases hr : ShowProgress_for rest (tick + 1) u wt with
      | failed => rw [hr] at h; simp at h
      | more ts2 t2 u2 w2 =>
        rw [hr] at h
        simp only [Harvest.more.injEq] at h
        obtain ⟨e1, e2, e3, _⟩ := h
        subst e1 e2 e3
        obtain ⟨a1, a2, a3, a4, a5⟩ := ih _ _ _ _ _ _ _ hr
        refine ⟨by rw [a1, List.length_cons]; omega, ?_, ?_, ?_, ?_⟩
        · rw [a2]; simp only [List.length_cons]; push_cast; ring
        · intro g hg
          rcases List.mem_cons.mp hg with hg | hg
          · rw [hg]; exact List.mem_cons_self _ _
          · exact List.mem_cons_of_mem _ (a3 g hg)
        · intro g hg
          rcases List.mem_cons.mp hg with hg | hg
          · rw [hg]; exact Or.inl (List.mem_cons_self _ _)
          · rcases a4 g hg with h4 | h4
            · exact Or.inl (List.mem_cons_of_mem _ h4)
            · exact Or.inr h4
        · intro hall
          have := hall f (List.mem_cons_self _ _)
          omega
    · rw [if_neg h1] at h
      by_cases h2 : f.result = false
      · rw [if_pos h2] at h; simp at h
      · rw [if_neg h2] at h
        obtain ⟨a1, a2, a3, a4, a5⟩ := ih _ _ _ _ _ _ _ h
        refine ⟨by rw [a1, List.length_cons]; omega, ?_, ?_, ?_, ?_⟩
        · rw [a2]; simp only [List.length_cons]; push_cast; ring
        · intro g hg
          exact List.mem_cons_of_mem _ (a3 g hg)
        · intro g hg
          rcases List.mem_cons.mp hg with hg | hg
          · rw [hg]; exact Or.inr (by simpa using h2)
          · exact a4 g hg
        · intro hall
          exact a5 (fun g hg => by
            have := hall g (List.mem_cons_of_mem _ hg)
            omega)

theorem ShowProgress_while_done (fuel : Nat) (threads : List Future) (tick : Nat) (wt : Int) :
    ShowProgress_while fuel threads tick 0 wt = some true := by
  cases fuel <;> simp [ShowProgress_while]

/-- When every future becomes ready within `d` more polls, `d + 1` passes of the loop
of `ShowProgress` end it, with the conjunction of the workers' results. -/
theorem ShowProgress_while_total : ∀ (d : Nat) (threads : List Future) (tick : Nat)
    (u wt : Int) (fuel : Nat), u = threads.length → (∀ f ∈ threads, f.ready_at ≤ tick + d) →
    d + 1 ≤ fuel →
    ShowProgress_while fuel threads tick u wt = some (threads.all (fun f => f.result)) := by
  intro d
  induction d with
  | zero =>
    intro threads tick u wt fuel hu hready hfuel
    obtain ⟨fuel, rfl⟩ : ∃ k, fuel = k + 1 := ⟨fuel - 1, by omega⟩
    rw [ShowProgress_while]
    by_cases h0 : u ≠ 0
    · rw [if_pos h0]
      cases hr : ShowProgress_for threads tick u wt with
      | failed =>
        obtain ⟨g, hg, hg2⟩ := ShowProgress_for_failed _ _ _ _ hr
        simp only
        congr 1
        symm
        rw [List.all_eq_false]
        exact ⟨g, hg, by simp [hg2]⟩
      | more ts t u1 w1 =>
        obtain ⟨a1, a2, a3, a4, a5⟩ := ShowProgress_for_more _ _ _ _ _ _ _ _ hr
        have hts := a5 (fun f hf => by have := hready f hf; omega)
        subst hts
        have hu1 : u1 = 0 := by rw [a2, hu]; simp
        subst hu1
        simp only
        rw [ShowProgress_while_done]
        congr 1
        symm
        rw [List.all_eq_true]
        intro f hf
        rcases a4 f hf with h | h
        · simp at h
        · exact h
    · have hnil : threads = [] := by
        have : threads.length = 0 := by omega
        exact List.length_eq_zero.mp this
      subst hnil
      rw [if_neg h0]
      rfl
  | succ d ih =>
    intro threads tick u wt fuel hu hready hfuel
    obtain ⟨fuel, rfl⟩ : ∃ k, fuel = k + 1 := ⟨fuel - 1, by omega⟩
    rw [ShowProgress_while]
    by_cases h0 : u ≠ 0
    · rw [if_pos h0]
      cases hr : ShowProgress_for threads tick u wt with
      | failed =>
        obtain ⟨g, hg, hg2⟩ := ShowProgress_for_failed _ _ _ _ hr
        simp only
        congr 1
        symm
        rw [List.all_eq_false]
        exact ⟨g, hg, by simp [hg2]⟩
      | more ts t u1 w1 =>
        obtain ⟨a1, a2, a3, a4, a5⟩ := ShowProgress_for_more _ _ _ _ _ _ _ _ hr
        have hlen : 1 ≤ threads.length := by omega
        simp only
        rw [ih ts t u1 w1 fuel (by rw [a2, hu]; ring)
          (fun f hf => by have := hready f (a3 f hf); omega) (by omega)]
        congr 1
        rw [Bool.eq_iff_iff, List.all_eq_true, List.all_eq_true]
        constructor
        · intro h f hf
          rcases a4 f hf with h4 | h4
          · exact h f h4
          · exact h4
        · intro h f hf
          exact h f (a3 f hf)
    · have hnil : threads = [] := by
        have : threads.length = 0 := by omega
        exact List.length_eq_zero.mp this
      subst hnil
      rw [if_neg h0]
      rfl

theorem ready_at_le_sum (threads : List Future) (f : Future) (hf : f ∈ threads) :
    f.ready_at ≤ (threads.map (fun g => g.ready_at)).sum := by
  induction threads with
  | nil => simp at hf
  | cons g rest ih =>
    simp only [List.map_cons, List.sum_cons]
    rcases List.mem_cons.mp hf with h | h
    · rw [h]; omega
    · have := ih h; omega

/-! ## The sink always returns -/

theorem memcpy_dm (w : World) (i : Nat) (data : List Byte) (off k : Nat) :
    (memcpy w i data off k).dm = w.dm := by
  unfold memcpy
  cases w.dm.m_mems.getD i none <;> rfl

theorem MapToFile_map_any (sys : Sys) (w : World) (i : Nat) :
    (MapToFile_map sys w i).2.dm.m_threads = w.dm.m_threads ∧
    (MapToFile_map sys w i).2.dm.m_thread_num = w.dm.m_thread_num ∧
    ((MapToFile_map sys w i).1 = true →
      ((MapToFile_map sys w i).2.dm.m_remain_block_num.getD i 0).toNat <
        (w.dm.m_remain_block_num.getD i 0).toNat) := by
  unfold MapToFile_map
  simp only
  split_ifs with h1 h2 h3 h4
  · simp
  · simp
  · refine ⟨rfl, rfl, fun _ => ?_⟩
    simp only
    rw [getD_set_if]
    have hlt : i < w.dm.m_remain_block_num.length := by
      by_contra hge
      have : w.dm.m_remain_block_num.getD i 0 = 0 := by
        rw [List.getD_eq_getElem?_getD, List.getElem?_eq_none (by omega)]; rfl
      omega
    rw [if_pos ⟨rfl, hlt⟩]
    omega
  · simp
  · simp
  · refine ⟨rfl, rfl, fun _ => ?_⟩
    simp only
    rw [getD_set_if]
    have hlt : i < w.dm.m_remain_block_num.length := by
      by_contra hge
      have : w.dm.m_remain_block_num.getD i 0 = 0 := by
        rw [List.getD_eq_getElem?_getD, List.getElem?_eq_none (by omega)]; rfl
      omega
    rw [if_pos ⟨rfl, hlt⟩]
    omega

theorem MapToFile_any (sys : Sys) (w : World) (i : Nat) :
    (MapToFile sys w i).2.dm.m_threads = w.dm.m_threads ∧
    (MapToFile sys w i).2.dm.m_thread_num = w.dm.m_thread_num ∧
    ((MapToFile sys w i).1 = true →
      ((MapToFile sys w i).2.dm.m_remain_block_num.getD i 0).toNat <
        (w.dm.m_remain_block_num.getD i 0).toNat) := by
  unfold MapToFile
  simp only
  cases hm : w.dm.m_mems.getD i none with
  | none =>
    simp only
    rw [if_neg (by decide)]
    exact MapToFile_map_any sys _ i
  | some addr =>
    simp only
    by_cases hu : sys.munmap_ok addr (w.dm.m_current_block_size.getD i 0) = false
    · rw [if_pos hu]
      simp
    · rw [if_neg hu]
      exact MapToFile_map_any sys _ i

theorem while_total (sys : Sys) (i : Nat) (data : List Byte) :
    ∀ (fuel : Nat) (w : World) (rd rm off : Nat),
      (w.dm.m_remain_block_num.getD i 0).toNat + 1 ≤ fuel →
      ∃ r, WriteFileBulkCallback_while sys i data fuel w rd rm off = some r ∧
        r.2.1.dm.m_threads = w.dm.m_threads ∧ r.2.1.dm.m_thread_num = w.dm.m_thread_num := by
  intro fuel
  induction fuel with
  | zero => intro w rd rm off h; omega
  | succ fuel ih =>
    intro w rd rm off h
    rw [WriteFileBulkCallback_while]
    by_cases hgt : rd > rm
    · rw [if_pos hgt]
      simp only
      obtain ⟨a1, a2, a3⟩ := MapToFile_any sys (memcpy w i data off rm) i
      rw [memcpy_dm] at a1 a2 a3
      by_cases hf : (MapToFile sys (memcpy w i data off rm) i).1 = false
      · rw [if_pos hf]
        exact ⟨_, rfl, a1, a2⟩
      · rw [if_neg hf]
        have ht : (MapToFile sys (memcpy w i data off rm) i).1 = true := by
          cases h1 : (MapToFile sys (memcpy w i data off rm) i).1
          · exact absurd h1 hf
          · rfl
        have := a3 ht
        obtain ⟨r, hr, b1, b2⟩ := ih (MapToFile sys (memcpy w i data off rm) i).2 (rd - rm)
          (remain_mem_size
            ((MapToFile sys (memcpy w i data off rm) i).2.dm.m_current_block_size.getD i 0)
            ((MapToFile sys (memcpy w i data off rm) i).2.dm.m_current_mem_pos.getD i 0))
          (off + rm) (by omega)
        exact ⟨r, hr, b1.trans a1, b2.trans a2⟩
    · rw [if_neg hgt]
      exact ⟨_, rfl, rfl, rfl⟩

theorem write_total (sys : Sys) (w : World) (data : List Byte) (i : Nat) :
    ∃ r, WriteFileBulkCallback_write sys w data i = some r ∧
      r.2.dm.m_threads = w.dm.m_threads ∧ r.2.dm.m_thread_num = w.dm.m_thread_num := by
  obtain ⟨r, hr, b1, b2⟩ := while_total sys i data
    ((w.dm.m_remain_block_num.getD i 0).toNat + 1) w data.length
    (remain_mem_size (w.dm.m_current_block_size.getD i 0) (w.dm.m_current_mem_pos.getD i 0)) 0
    (le_refl _)
  unfold WriteFileBulkCallback_write
  simp only [hr]
  obtain ⟨ok, w2, rd, off⟩ := r
  cases ok with
  | false => exact ⟨_, rfl, b1, b2⟩
  | true =>
    refine ⟨_, rfl, ?_, ?_⟩
    · simp only [memcpy_dm]; exact b1
    · simp only [memcpy_dm]; exact b2

/-- The sink `WriteFileBulkCallback` returns on every input, and does not touch `m_threads` and
`m_thread_num`. -/
theorem WriteFileBulkCallback_total (sys : Sys) (w : World) (data : List Byte) (i : Nat) :
    ∃ r, WriteFileBulkCallback sys w data i = some r ∧
      r.2.dm.m_threads = w.dm.m_threads ∧ r.2.dm.m_thread_num = w.dm.m_thread_num := by
  unfold WriteFileBulkCallback
  simp only
  cases hm : w.dm.m_mems.getD i none with
  | none =>
    simp only
    obtain ⟨a1, a2, _⟩ := MapToFile_any sys w i
    by_cases hf : (MapToFile sys w i).1 = false
    · rw [if_pos hf]
      exact ⟨_, rfl, a1, a2⟩
    · rw [if_neg hf]
      obtain ⟨r, hr, b1, b2⟩ := write_total sys (MapToFile sys w i).2 data i
      exact ⟨r, hr, b1.trans a1, b2.trans a2⟩
  | some addr =>
    simp only
    rw [if_neg (by decide)]
    exact write_total sys w data i

/-- The transport's deliveries always come to an end, whatever the sinks return. -/
theorem deliver_total (sys : Sys) : ∀ (calls : List (Nat × List Byte)) (aborted : List Nat)
    (w : World), ∃ r, deliver sys calls aborted w = some r ∧
      r.2.dm.m_threads = w.dm.m_threads ∧ r.2.dm.m_thread_num = w.dm.m_thread_num := by
  intro calls
  induction calls with
  | nil => intro aborted w; exact ⟨_, rfl, rfl, rfl⟩
  | cons c rest ih =>
    intro aborted w
    obtain ⟨i, data⟩ := c
    rw [deliver]
    by_cases ha : i ∈ aborted
    · rw [if_pos ha]
      exact ih aborted w
    · rw [if_neg ha]
      obtain ⟨r, hr, b1, b2⟩ := WriteFileBulkCallback_total sys w data i
      obtain ⟨ok, w1⟩ := r
      simp only [hr]
      obtain ⟨r2, hr2, c1, c2⟩ := ih
        (if (if ok = false then 0 else data.length) ≠ data.length then i :: aborted else aborted)
        w1
      obtain ⟨rs, w2⟩ := r2
      simp only [hr2]
      exact ⟨_, rfl, c1.trans b1, c2.trans b2⟩

theorem ReleaseMem_fold (sys : Sys) (mems : List (Option Int)) (b : Bool) (w : World) :
    ((mems.foldl (ReleaseMem_body sys) (b, w)).1 = true ↔
      b = true ∧ ∀ addr, some addr ∈ mems → sys.munmap_ok addr BLOCK_4K = true) ∧
    (mems.foldl (ReleaseMem_body sys) (b, w)).2.dm = w.dm ∧
    (mems.foldl (ReleaseMem_body sys) (b, w)).2.file = w.file ∧
    (mems.foldl (ReleaseMem_body sys) (b, w)).2.log =
      w.log ++ (mems.filterMap id).map (fun addr => Event.munmap addr BLOCK_4K) := by
  induction mems generalizing b w with
  | nil => simp
  | cons m rest ih =>
    cases m with
    | none =>
      simp only [List.foldl_cons, ReleaseMem_body]
      obtain ⟨i1, i2, i3, i4⟩ := ih b w
      refine ⟨?_, i2, i3, ?_⟩
      · rw [i1]
        simp
      · rw [i4]; simp
    | some addr =>
      simp only [List.foldl_cons, ReleaseMem_body]
      obtain ⟨i1, i2, i3, i4⟩ := ih (if sys.munmap_ok addr BLOCK_4K = false then false else b)
        { w with log := w.log ++ [Event.munmap addr BLOCK_4K] }
      refine ⟨?_, i2, i3, ?_⟩
      · rw [i1]
        cases hb : sys.munmap_ok addr BLOCK_4K <;> cases b <;> simp [hb]
      · rw [i4]; simp

theorem ShowProgress_while_true : ∀ (fuel : Nat) (threads : List Future) (tick : Nat)
    (u wt : Int), u = threads.length →
    ShowProgress_while fuel threads tick u wt = some true → ∀ f ∈ threads, f.result = true := by
  intro fuel
  induction fuel with
  | zero =>
    intro threads tick u wt hu h f hf
    rw [ShowProgress_while] at h
    by_cases h0 : u ≠ 0
    · rw [if_pos h0] at h; simp at h
    · have : threads.length = 0 := by omega
      rw [List.length_eq_zero.mp this] at hf
      simp at hf
  | succ fuel ih =>
    intro threads tick u wt hu h f hf
    rw [ShowProgress_while] at h
    by_cases h0 : u ≠ 0
    · rw [if_pos h0] at h
      cases hr : ShowProgress_for threads tick u wt with
      | failed => rw [hr] at h; simp at h
      | more ts t u1 w1 =>
        rw [hr] at h
        simp only at h
        obtain ⟨a1, a2, a3, a4, a5⟩ := ShowProgress_for_more _ _ _ _ _ _ _ _ hr
        rcases a4 f hf with h4 | h4
        · exact ih ts t u1 w1 (by rw [a2, hu]; ring) h f h4
        · exact h4
    · have : threads.length = 0 := by omega
      rw [List.length_eq_zero.mp this] at hf
      simp at hf

/-- The result of `Download` in exact arithmetic.  For `F ≥ 1` and every assignment
of results to the launched workers, all
of which complete: `ShowProgress` returns after finitely many passes, and `Download`
returns true if and only if every worker returned true and `ReleaseMem` succeeded
(every `munmap` it issues does); a pass of `ShowProgress` that finds a ready worker
whose result is false ends with `return false` at once, and then `Download`
returns false. -/
theorem download_result_exact (sys : Sys) (env : Transfer) (w : World)
    (hF : 1 ≤ w.dm.m_filesize) (hT : 1 ≤ w.dm.m_thread_num) (h0 : w.dm.m_threads = []) :
    (∃ rs w2, deliver sys env.calls [] { w with dm := Download_launch w.dm } = some (rs, w2) ∧
      ∃ N, ∀ fuel, N ≤ fuel → ∃ b w3, Download sys env fuel w = some (b, w3) ∧
        (b = true ↔
          (∀ l ∈ (Download_launch w.dm).m_threads, (env.future l.thread_id).result = true) ∧
            (ReleaseMem sys w2).1 = true) ∧
        ((ReleaseMem sys w2).1 = true ↔
          ∀ addr, some addr ∈ w2.dm.m_mems → sys.munmap_ok addr BLOCK_4K = true)) ∧
    (∀ (f : Future) (rest : List Future) (tick : Nat) (undone wait_time : Int) (fuel : Nat),
      f.ready_at ≤ tick → f.result = false → undone ≠ 0 →
      ShowProgress_for (f :: rest) tick undone wait_time = Harvest.failed ∧
      ShowProgress_while (fuel + 1) (f :: rest) tick undone wait_time = some false) ∧
    (∀ fuel b w3, Download sys env fuel w = some (b, w3) →
      (∃ l ∈ (Download_launch w.dm).m_threads, (env.future l.thread_id).result = false) →
      b = false) := by
  obtain ⟨r, hr, d1, d2⟩ := deliver_total sys env.calls [] { w with dm := Download_launch w.dm }
  obtain ⟨rs, w2⟩ := r
  simp only at d1 d2
  have hthreads := Download_launch_threads w.dm hF hT
  rw [h0, List.nil_append] at hthreads
  have hlen := planSegments_length w.dm.m_filesize w.dm.m_thread_num hF hT
  have hnum := (Download_launch_fields w.dm).1
  have hundone : w2.dm.m_thread_num =
      ((w2.dm.m_threads.map (fun l => env.future l.thread_id)).length : Int) := by
    rw [d2, d1, hnum, List.length_map, hthreads, hlen]
  have hFne : ¬ w.dm.m_filesize = 0 := by omega
  have hall : ∀ (ts : List Launch),
      ((ts.map (fun l => env.future l.thread_id)).all (fun f => f.result) = true ↔
        ∀ l ∈ ts, (env.future l.thread_id).result = true) := by
    intro ts
    simp [List.all_eq_true]
  have hrel : (ReleaseMem sys w2).1 = true ↔
      ∀ addr, some addr ∈ w2.dm.m_mems → sys.munmap_ok addr BLOCK_4K = true := by
    unfold ReleaseMem
    rw [(ReleaseMem_fold sys w2.dm.m_mems true w2).1]
    simp
  refine ⟨⟨rs, w2, hr, (((w2.dm.m_threads.map (fun l => env.future l.thread_id)).map
      (fun g => g.ready_at)).sum + 1), ?_⟩, ?_, ?_⟩
  · intro fuel hfuel
    have hsp := ShowProgress_while_total
      ((w2.dm.m_threads.map (fun l => env.future l.thread_id)).map (fun g => g.ready_at)).sum
      (w2.dm.m_threads.map (fun l => env.future l.thread_id)) 0 w2.dm.m_thread_num
      (Int.tdiv PROGRESS_INTERVAL w2.dm.m_thread_num) fuel hundone
      (fun f hf => by have := ready_at_le_sum _ f hf; omega) hfuel
    unfold Download
    rw [if_neg hFne]
    simp only [hr]
    unfold ShowProgress
    simp only [hsp]
    cases hres : (w2.dm.m_threads.map (fun l => env.future l.thread_id)).all
        (fun f => f.result) with
    | false =>
      refine ⟨false, w2, rfl, ?_, hrel⟩
      have hne : ¬ ∀ l ∈ (Download_launch w.dm).m_threads,
          (env.future l.thread_id).result = true := by
        intro h
        rw [← d1] at h
        have := (hall _).mpr h
        rw [hres] at this
        exact absurd this (by decide)
      simp [hne]
    | true =>
      have hyes : ∀ l ∈ (Download_launch w.dm).m_threads,
          (env.future l.thread_id).result = true := by
        rw [← d1]
        exact (hall _).mp hres
      simp only
      by_cases hrm : (ReleaseMem sys w2).1 = false
      · rw [if_pos hrm]
        refine ⟨false, _, rfl, ?_, hrel⟩
        simp [hrm]
      · rw [if_neg hrm]
        have hrm2 : (ReleaseMem sys w2).1 = true := by
          cases h1 : (ReleaseMem sys w2).1
          · exact absurd h1 hrm
          · rfl
        refine ⟨true, _, rfl, ?_, hrel⟩
        simp [hyes, hrm2]
        exact hyes
  · intro f rest tick undone wait_time fuel hready hfalse hund
    have h1 : ShowProgress_for (f :: rest) tick undone wait_time = Harvest.failed := by
      rw [ShowProgress_for, if_neg (by omega), if_pos hfalse]
    refine ⟨h1, ?_⟩
    rw [ShowProgress_while, if_pos hund, h1]
  · intro fuel b w3 hD hex
    unfold Download at hD
    rw [if_neg hFne] at hD
    simp only [hr] at hD
    cases hsp : ShowProgress fuel (w2.dm.m_threads.map (fun l => env.future l.thread_id))
        w2.dm with
    | none => rw [hsp] at hD; simp at hD
    | some b1 =>
      rw [hsp] at hD
      cases b1 with
      | false =>
        simp only [Option.some.injEq, Prod.mk.injEq] at hD
        exact hD.1.symm
      | true =>
        exfalso
        obtain ⟨l, hl, hlf⟩ := hex
        have := ShowProgress_while_true fuel _ 0 _ _ hundone hsp (env.future l.thread_id)
          (List.mem_map.mpr ⟨l, by rw [d1]; exact hl, rfl⟩)
        rw [hlf] at this
        exact absurd this (by decide)

/-- The theorem `download_result_exact` at `F = 10000`, `T = 4`, `P = 256` with workers
that all succeed at once. -/
theorem download_result_exact_example :
    ∃ rs w2,
      deliver Sys.allOk Transfer.idle.calls []
          { World.start 10000 4 256 with dm := Download_launch (World.start 10000 4 256).dm } =
        some (rs, w2) ∧
      ∃ N, ∀ fuel, N ≤ fuel → ∃ b w3,
        Download Sys.allOk Transfer.idle fuel (World.start 10000 4 256) = some (b, w3) ∧
        (b = true ↔
          (∀ l ∈ (Download_launch (World.start 10000 4 256).dm).m_threads,
            (Transfer.idle.future l.thread_id).result = true) ∧
            (ReleaseMem Sys.allOk w2).1 = true) ∧
        ((ReleaseMem Sys.allOk w2).1 = true ↔
          ∀ addr, some addr ∈ w2.dm.m_mems → Sys.allOk.munmap_ok addr BLOCK_4K = true) :=
  (download_result_exact Sys.allOk Transfer.idle (World.start 10000 4 256) (by decide) (by decide)
    rfl).1

/-! ## CreateEmptyFile -/

/-- With `open`, `lseek` and `write` succeeding, `CreateEmptyFile` leaves a file of `F`
bytes when `F ≥ 1`, and a file of one byte when `F = 0`. -/
theorem CreateEmptyFile_length (sys : Sys) (w : World) (hopen : 0 < sys.open_result)
    (hseek : sys.lseek_ok = true) (hwrite : sys.write_ok = true) :
    (CreateEmptyFile sys w).1 = true ∧
    (CreateEmptyFile sys w).2.file_len = some (max w.dm.m_filesize 1) := by
  have h0 : (0 : Int) ≤ sys.open_result := by omega
  have h1 : ¬ sys.open_result = 0 := by omega
  have h2 : ¬ sys.open_result < 0 := by omega
  by_cases hF : w.dm.m_filesize > 0
  · have hmax : max w.dm.m_filesize 1 = w.dm.m_filesize - 1 + 1 := by
      rw [max_eq_left (by omega)]; omega
    have hFne : ¬ w.dm.m_filesize = 0 := by omega
    simp [CreateEmptyFile, hseek, hwrite, h0, h1, h2, hF, hFne, hmax]
  · have hF0 : w.dm.m_filesize = 0 := by omega
    simp [CreateEmptyFile, hseek, hwrite, h0, h1, h2, hF0]

/-- When `open` fails and the file size is not 0, the `lseek` on the invalid
descriptor fails and `CreateEmptyFile` and `Init` return false. -/
theorem CreateEmptyFile_open_fails (sys : Sys) (w : World) (hopen : sys.open_result = -1)
    (hF : 1 ≤ w.dm.m_filesize) : (CreateEmptyFile sys w).1 = false := by
  have hF1 : w.dm.m_filesize > 0 := by omega
  simp [CreateEmptyFile, hopen, hF1]

/-- C3 fails for `F = 0`: for a resource of 0 bytes, with every system call
succeeding, `Init` (through `CreateEmptyFile`) returns true and leaves a destination
file of one byte, because the `write` of line 98 is not guarded by `m_filesize > 0`. -/
theorem C3_empty_resource_gets_one_byte :
    (Init Sys.allOk DownloaderType.HTTP
      { init_ok := true, range_available := true, file_size := 0 } (World.initial 5 256)).1 =
        true ∧
    (Init Sys.allOk DownloaderType.HTTP
      { init_ok := true, range_available := true, file_size := 0 }
        (World.initial 5 256)).2.dm.m_filesize = 0 ∧
    (Init Sys.allOk DownloaderType.HTTP
      { init_ok := true, range_available := true, file_size := 0 }
        (World.initial 5 256)).2.file_len = some 1 := by
  decide

/-- C9 fails for `F = 0`: when `open` returns -1 the test `!m_w_fd` does not see it,
the `lseek` that would fail is skipped because `m_filesize` is 0, the failing `write`
is not looked at, and `CreateEmptyFile` and `Init` return true although no file
exists. -/
theorem C9_open_failure_unnoticed :
    (CreateEmptyFile { Sys.allOk with open_result := -1 } (World.initial 5 256)).1 = true ∧
    (Init { Sys.allOk with open_result := -1 } DownloaderType.HTTP
      { init_ok := true, range_available := true, file_size := 0 } (World.initial 5 256)).1 =
        true ∧
    (Init { Sys.allOk with open_result := -1 } DownloaderType.HTTP
      { init_ok := true, range_available := true, file_size := 0 }
        (World.initial 5 256)).2.file_len = none := by
  decide

/-! ## ReleaseMem -/

/-- The function `ReleaseMem` issues one `munmap` of `BLOCK_4K` bytes per mapped window, whatever
the length of the window, and leaves `m_mems` as it is. -/
theorem ReleaseMem_log (sys : Sys) (w : World) :
    (ReleaseMem sys w).2.log =
      w.log ++ (w.dm.m_mems.filterMap id).map (fun addr => Event.munmap addr BLOCK_4K) ∧
    (ReleaseMem sys w).2.dm = w.dm :=
  ⟨(ReleaseMem_fold sys w.dm.m_mems true w).2.2.2, (ReleaseMem_fold sys w.dm.m_mems true w).2.1⟩

/-- C8 fails on the code: for `F = 8192`, `T = 1`, `P = 256` the sink of worker 0 maps
one window of two pages (`window_len = 8192` at file offset 0), and `ReleaseMem`
then unmaps 4096 bytes of it, so its second page stays mapped. -/
theorem C8_release_leaves_a_page_mapped :
    ∃ w1,
      deliver Sys.allOk [(0, [65, 65])] []
          { World.start 8192 1 256 with dm := Download_launch (World.start 8192 1 256).dm } =
        some ([true], w1) ∧
      (w1.dm.worker 0).window = some 0 ∧ (w1.dm.worker 0).window_len = 8192 ∧
      (ReleaseMem Sys.allOk w1).2.log = w1.log ++ [Event.munmap 0 4096] :=
  ⟨_, rfl, rfl, rfl, rfl⟩

/-! ## C11: the 32-bit products -/

theorem wrap32_eq_self (x : Int) (h1 : -2 ^ 31 ≤ x) (h2 : x < 2 ^ 31) : wrap32 x = x := by
  unfold wrap32
  omega

theorem wrap32_range (x : Int) : -2 ^ 31 ≤ wrap32 x ∧ wrap32 x < 2 ^ 31 := by
  unfold wrap32
  omega

theorem wrap32_eq_iff (x : Int) : wrap32 x = x ↔ -2 ^ 31 ≤ x ∧ x < 2 ^ 31 := by
  constructor
  · intro h
    have := wrap32_range x
    rw [h] at this
    exact this
  · intro h
    exact wrap32_eq_self x h.1 h.2

theorem wrap64_eq_self (x : Int) (h1 : 0 ≤ x) (h2 : x < 2 ^ 64) : wrap64 x = x := by
  unfold wrap64
  omega

/-- The product of an `int` with `BLOCK_4K` is computed exactly if and only if the
other factor lies in `-2^19 .. 2^19 - 1`. -/
theorem wrap32_mul_BLOCK_4K_iff (c : Int) :
    wrap32 (c * BLOCK_4K) = c * BLOCK_4K ↔ -2 ^ 19 ≤ c ∧ c < 2 ^ 19 := by
  rw [wrap32_eq_iff]
  unfold BLOCK_4K
  constructor <;> intro h <;> constructor <;> omega

theorem wrap32_BLOCK_4K_mul_iff (c : Int) :
    wrap32 (BLOCK_4K * c) = BLOCK_4K * c ↔ -2 ^ 19 ≤ c ∧ c < 2 ^ 19 := by
  rw [mul_comm, wrap32_mul_BLOCK_4K_iff]

/-- While the pages of a worker end at or before page `2^19` (byte `2^31`) and a
window has fewer than `2^19` pages, the machine computes `MapToFile_map` exactly. -/
theorem Machine_MapToFile_map_eq (sys : Sys) (w : World) (i : Nat)
    (hi : 0 ≤ w.dm.m_block_idxs.getD i 0)
    (hb : w.dm.m_block_idxs.getD i 0 + w.dm.m_remain_block_num.getD i 0 ≤ 2 ^ 19)
    (hp : w.dm.m_map_page_num < 2 ^ 19 ∨ w.dm.m_remain_block_num.getD i 0 < 2 ^ 19) :
    Machine.MapToFile_map sys w i = MapToFile_map sys w i := by
  unfold Machine.MapToFile_map MapToFile_map
  dsimp only
  generalize ht : (if w.dm.m_remain_block_num.getD i 0 > w.dm.m_map_page_num then
    w.dm.m_map_page_num else w.dm.m_remain_block_num.getD i 0) = t
  by_cases h0 : t ≤ 0
  · rw [if_pos h0, if_pos h0]
  · have hle : t ≤ w.dm.m_remain_block_num.getD i 0 ∧ t < 2 ^ 19 := by
      rw [← ht]
      split_ifs <;> omega
    have e1 : wrap32 (BLOCK_4K * t) = BLOCK_4K * t :=
      (wrap32_BLOCK_4K_mul_iff t).2 ⟨by omega, hle.2⟩
    have e2 : wrap64 (BLOCK_4K * t) = BLOCK_4K * t := by
      apply wrap64_eq_self <;> unfold BLOCK_4K <;> omega
    have e3 : wrap32 (w.dm.m_block_idxs.getD i 0 * BLOCK_4K) =
        w.dm.m_block_idxs.getD i 0 * BLOCK_4K :=
      (wrap32_mul_BLOCK_4K_iff _).2 ⟨by omega, by omega⟩
    have e4 : wrap32 (w.dm.m_block_idxs.getD i 0 + t) = w.dm.m_block_idxs.getD i 0 + t := by
      apply wrap32_eq_self <;> omega
    have e5 : wrap32 (w.dm.m_remain_block_num.getD i 0 - t) =
        w.dm.m_remain_block_num.getD i 0 - t := by
      apply wrap32_eq_self <;> omega
    have e6 : wrap32 (t * BLOCK_4K) = t * BLOCK_4K :=
      (wrap32_mul_BLOCK_4K_iff t).2 ⟨by omega, hle.2⟩
    rw [if_neg h0, if_neg h0, e1, e2, e3, e4, e5, e6]

/-- Under the same bounds the machine computes `MapToFile` exactly. -/
theorem Machine_MapToFile_eq (sys : Sys) (w : World) (i : Nat)
    (hi : 0 ≤ w.dm.m_block_idxs.getD i 0)
    (hb : w.dm.m_block_idxs.getD i 0 + w.dm.m_remain_block_num.getD i 0 ≤ 2 ^ 19)
    (hp : w.dm.m_map_page_num < 2 ^ 19 ∨ w.dm.m_remain_block_num.getD i 0 < 2 ^ 19) :
    Machine.MapToFile sys w i = MapToFile sys w i := by
  unfold Machine.MapToFile MapToFile
  dsimp only
  cases hm : w.dm.m_mems.getD i none with
  | none =>
    dsimp only
    rw [if_neg (by simp), if_neg (by simp)]
    exact Machine_MapToFile_map_eq sys _ i hi hb hp
  | some addr =>
    dsimp only
    by_cases hu : sys.munmap_ok addr (w.dm.m_current_block_size.getD i 0) = false
    · rw [if_pos hu, if_pos hu]
    · rw [if_neg hu, if_neg hu]
      exact Machine_MapToFile_map_eq sys _ i hi hb hp

/-- One iteration of the loop of `Download` is computed exactly while the pages
assigned so far and the pages of this segment end before page `2^19`. -/
theorem Machine_Download_body_eq (base : Int) (i : Nat) (s : DownloadLocals) (hb : 1 ≤ base)
    (hr : 0 ≤ s.remain_blk_num) (hl : 0 ≤ s.last_blk)
    (hp : s.last_pos = s.last_blk * BLOCK_4K)
    (hC : s.last_blk + base + s.remain_blk_num < 2 ^ 19) :
    Machine.Download_body base i s = Download_body base i s := by
  unfold Machine.Download_body Download_body
  dsimp only
  have e1 : wrap32 (base + 1) = base + 1 := by apply wrap32_eq_self <;> omega
  have e2 : wrap32 (s.remain_blk_num - 1) = s.remain_blk_num - 1 := by
    apply wrap32_eq_self <;> omega
  rw [e1, e2]
  generalize hbn : (if s.remain_blk_num ≠ 0 then base + 1 else base) = block_num
  have hbn2 : 1 ≤ block_num ∧ s.last_blk + block_num < 2 ^ 19 := by
    rw [← hbn]
    split_ifs <;> omega
  have e3 : wrap32 (block_num * BLOCK_4K) = block_num * BLOCK_4K :=
    (wrap32_mul_BLOCK_4K_iff _).2 ⟨by omega, by omega⟩
  have e4 : wrap64 (s.last_pos + block_num * BLOCK_4K - 1) =
      s.last_pos + block_num * BLOCK_4K - 1 := by
    apply wrap64_eq_self <;> rw [hp] <;> unfold BLOCK_4K <;> omega
  have e5 : wrap64 (s.last_pos + block_num * BLOCK_4K) = s.last_pos + block_num * BLOCK_4K := by
    apply wrap64_eq_self <;> rw [hp] <;> unfold BLOCK_4K <;> omega
  have e6 : wrap32 (s.last_blk + block_num) = s.last_blk + block_num := by
    apply wrap32_eq_self <;> omega
  rw [e3, e4, e5, e6]

/-- The loop of `Download` is computed exactly while every segment it assigns ends
before page `2^19`; the pages it has assigned in the end are at most `C`. -/
theorem Machine_Download_for_eq (base C : Int) (hb : 1 ≤ base) (hC : C < 2 ^ 19) (n : Nat) :
    ∀ (i : Nat) (s : DownloadLocals), 0 ≤ s.remain_blk_num → 0 ≤ s.last_blk →
      s.last_pos = s.last_blk * BLOCK_4K →
      s.last_blk + (n : Int) * base + s.remain_blk_num ≤ C →
      Machine.Download_for base n i s = Download_for base n i s ∧
        0 ≤ (Download_for base n i s).last_blk ∧ (Download_for base n i s).last_blk ≤ C := by
  induction n with
  | zero =>
    intro i s hr hl _ hs
    simp only [Machine.Download_for, Download_for]
    refine ⟨trivial, hl, ?_⟩
    simp only [Nat.cast_zero, zero_mul, add_zero] at hs
    omega
  | succ n ih =>
    intro i s hr hl hp hs
    have hn : ((n + 1 : Nat) : Int) * base = (n : Int) * base + base := by
      push_cast
      ring
    have hnb : 0 ≤ (n : Int) * base := mul_nonneg (Int.ofNat_nonneg n) (by omega)
    rw [hn] at hs
    simp only [Machine.Download_for, Download_for]
    rw [Machine_Download_body_eq base i s hb hr hl hp (by omega)]
    apply ih
    · simp only [Download_body]
      split_ifs <;> omega
    · simp only [Download_body]
      split_ifs <;> omega
    · simp only [Download_body]
      rw [hp]
      ring
    · simp only [Download_body]
      split_ifs <;> omega

/-- While the page count fits an `int` the machine computes it exactly. -/
theorem Machine_num_of_4k_block_eq (F : Nat) (h : num_of_4k_block F < 2 ^ 31) :
    Machine.num_of_4k_block F = num_of_4k_block F := by
  unfold Machine.num_of_4k_block
  rw [if_pos h]

theorem Machine_Download_adjust_eq (dm : DownloadManager)
    (h : num_of_4k_block dm.m_filesize < 2 ^ 31) :
    Machine.Download_adjust dm = Download_adjust dm := by
  unfold Machine.Download_adjust Download_adjust
  rw [Machine_num_of_4k_block_eq _ h]

/-- For a file of at most `2^19` pages, that is of at most 2 GiB, the machine computes
the segments and the state of the workers exactly. -/
theorem Machine_Download_launch_eq (dm : DownloadManager) (hF : 1 ≤ dm.m_filesize)
    (hT : 1 ≤ dm.m_thread_num) (hnum : num_of_4k_block dm.m_filesize ≤ 2 ^ 19) :
    Machine.Download_launch dm = Download_launch dm := by
  obtain ⟨c1, c2, c3, c4, b1, e1, b2, e2, e3, hsum⟩ :=
    plan_arith dm.m_filesize dm.m_thread_num hF hT
  obtain ⟨n1, n2, n3⟩ := num_of_4k_block_bounds dm.m_filesize hF
  have hth : (Download_adjust dm).m_thread_num =
      thread_num_clamped dm.m_filesize dm.m_thread_num := (Download_adjust_fields dm).1
  have hbase : Int.tdiv (num_of_4k_block dm.m_filesize) (Download_adjust dm).m_thread_num =
      base_blk_num dm.m_filesize dm.m_thread_num := by
    rw [hth]
    rfl
  have hextra : num_of_4k_block dm.m_filesize -
      base_blk_num dm.m_filesize dm.m_thread_num *
        thread_num_clamped dm.m_filesize dm.m_thread_num =
      extra_blk_num dm.m_filesize dm.m_thread_num := rfl
  have w1 : wrap32 (base_blk_num dm.m_filesize dm.m_thread_num *
      thread_num_clamped dm.m_filesize dm.m_thread_num) =
      base_blk_num dm.m_filesize dm.m_thread_num *
        thread_num_clamped dm.m_filesize dm.m_thread_num := by
    apply wrap32_eq_self <;> omega
  have w2 : wrap32 (extra_blk_num dm.m_filesize dm.m_thread_num) =
      extra_blk_num dm.m_filesize dm.m_thread_num := by
    apply wrap32_eq_self <;> omega
  have hn : (((thread_num_clamped dm.m_filesize dm.m_thread_num - 1).toNat : Nat) : Int) =
      thread_num_clamped dm.m_filesize dm.m_thread_num - 1 := Int.toNat_of_nonneg (by omega)
  obtain ⟨l1, l2, l3⟩ :=
    Machine_Download_for_eq (base_blk_num dm.m_filesize dm.m_thread_num)
      (num_of_4k_block dm.m_filesize - base_blk_num dm.m_filesize dm.m_thread_num) b2
      (by omega) (thread_num_clamped dm.m_filesize dm.m_thread_num - 1).toNat 1
      { remain_blk_num := extra_blk_num dm.m_filesize dm.m_thread_num
        last_pos := 0
        last_blk := 0
        dm := Download_adjust dm } e2 (le_refl 0) (by simp)
      (by
        show (0 : Int) + _ * _ + extra_blk_num dm.m_filesize dm.m_thread_num ≤ _
        rw [hn]
        have : (thread_num_clamped dm.m_filesize dm.m_thread_num - 1) *
            base_blk_num dm.m_filesize dm.m_thread_num =
            base_blk_num dm.m_filesize dm.m_thread_num *
              thread_num_clamped dm.m_filesize dm.m_thread_num -
            base_blk_num dm.m_filesize dm.m_thread_num := by ring
        omega)
  unfold Machine.Download_launch Download_launch
  dsimp only
  rw [Machine_num_of_4k_block_eq _ (by omega), Machine_Download_adjust_eq _ (by omega)]
  rw [hbase, hth, w1, hextra, w2, l1]
  unfold Machine.Download_last Download_last
  dsimp only
  have hfs := (Download_for_fields (base_blk_num dm.m_filesize dm.m_thread_num)
      (thread_num_clamped dm.m_filesize dm.m_thread_num - 1).toNat 1
      { remain_blk_num := extra_blk_num dm.m_filesize dm.m_thread_num
        last_pos := 0
        last_blk := 0
        dm := Download_adjust dm })
  have hfile : 1 ≤ ((Download_for (base_blk_num dm.m_filesize dm.m_thread_num)
      (thread_num_clamped dm.m_filesize dm.m_thread_num - 1).toNat 1
      { remain_blk_num := extra_blk_num dm.m_filesize dm.m_thread_num
        last_pos := 0
        last_blk := 0
        dm := Download_adjust dm }).dm.m_filesize : Int) ∧
      ((Download_for (base_blk_num dm.m_filesize dm.m_thread_num)
      (thread_num_clamped dm.m_filesize dm.m_thread_num - 1).toNat 1
      { remain_blk_num := extra_blk_num dm.m_filesize dm.m_thread_num
        last_pos := 0
        last_blk := 0
        dm := Download_adjust dm }).dm.m_filesize : Int) ≤ 2 ^ 31 := by
    rw [hfs.1]
    show 1 ≤ ((Download_adjust dm).m_filesize : Int) ∧ ((Download_adjust dm).m_filesize : Int) ≤ _
    rw [(Download_adjust_fields dm).2.1]
    unfold BLOCK_4K at n3
    omega
  rw [wrap64_eq_self _ (by omega) (by omega), wrap32_eq_self _ (by omega) (by omega)]

/-- With the default five workers and a file of 5 GiB the product
`m_block_idxs[0] * BLOCK_4K` of `MapToFile` is `2^20 * 4096 = 2^32` and wraps to 0: the
first window of the worker with thread id 0, whose segment starts at byte `2^32`, is
mapped at file offset 0, where the segment of the worker with thread id 1 lies, and
`mmap` has no reason to fail. -/
theorem Machine_MapToFile_five_GiB :
    (Machine.Download_launch (World.start (5 * 2 ^ 30) 5 256).dm).m_threads =
      [Launch.mk 0 (2 ^ 30 - 1) 1, Launch.mk (2 ^ 30) (2 * 2 ^ 30 - 1) 2,
        Launch.mk (2 * 2 ^ 30) (3 * 2 ^ 30 - 1) 3, Launch.mk (3 * 2 ^ 30) (4 * 2 ^ 30 - 1) 4,
        Launch.mk (4 * 2 ^ 30) (5 * 2 ^ 30 - 1) 0] ∧
    (Machine.Download_launch (World.start (5 * 2 ^ 30) 5 256).dm).m_block_idxs =
      [2 ^ 20, 0, 2 ^ 18, 2 ^ 19, 3 * 2 ^ 18] ∧
    (Machine.MapToFile Sys.linux
      { World.start (5 * 2 ^ 30) 5 256 with
        dm := Machine.Download_launch (World.start (5 * 2 ^ 30) 5 256).dm } 0).1 = true ∧
    (Machine.MapToFile Sys.linux
      { World.start (5 * 2 ^ 30) 5 256 with
        dm := Machine.Download_launch (World.start (5 * 2 ^ 30) 5 256).dm } 0).2.log =
      [Event.MapToFile 0 (2 ^ 18), Event.mmap (2 ^ 20) 0] ∧
    (Machine.MapToFile Sys.linux
      { World.start (5 * 2 ^ 30) 5 256 with
        dm := Machine.Download_launch (World.start (5 * 2 ^ 30) 5 256).dm } 0).2.dm.m_mems =
      [some 0, none, none, none, none] := by
  decide

/-- C11 fails for a file of 4 GiB and two workers (`F = 2^32`, `T = 2`, `P = 256`),
whose page count `2^20` fits an `int`.  In `Download` the segment of the worker with
thread id 1 has `block_num = 2^19` pages and the `int` product `block_num * BLOCK_4K`
is `-2^31` instead of `2^31`: the range passed to the transport ends at byte
`2^64 - 2^31 - 1` instead of `2^31 - 1`, and the range of the worker with thread id 0
starts at byte `2^64 - 2^31` instead of `2^31`.  In `MapToFile` the first window of
the worker with thread id 0 has `m_block_idxs[0] = 2^19` and the `int` product
`m_block_idxs[0] * BLOCK_4K` is `-2^31` instead of `2^31`: `mmap` is asked for the
file offset `-2^31`, which it rejects, so the sink returns false. -/
theorem C11_products_wrap_at_2GiB :
    num_of_4k_block (2 ^ 32) = 2 ^ 20 ∧
    (Machine.Download_launch (World.start (2 ^ 32) 2 256).dm).m_threads =
      [Launch.mk 0 (2 ^ 64 - 2 ^ 31 - 1) 1, Launch.mk (2 ^ 64 - 2 ^ 31) (2 ^ 32 - 1) 0] ∧
    (Download_launch (World.start (2 ^ 32) 2 256).dm).m_threads =
      [Launch.mk 0 (2 ^ 31 - 1) 1, Launch.mk (2 ^ 31) (2 ^ 32 - 1) 0] ∧
    (Machine.Download_launch (World.start (2 ^ 32) 2 256).dm).m_block_idxs = [2 ^ 19, 0] ∧
    (Machine.Download_launch (World.start (2 ^ 32) 2 256).dm).m_remain_block_num =
      [2 ^ 19, 2 ^ 19] ∧
    (Machine.MapToFile Sys.allOk
      { World.start (2 ^ 32) 2 256 with
        dm := Machine.Download_launch (World.start (2 ^ 32) 2 256).dm } 0).2.log =
      [Event.MapToFile 0 (2 ^ 19), Event.mmap (2 ^ 20) (-2 ^ 31)] ∧
    (MapToFile Sys.allOk
      { World.start (2 ^ 32) 2 256 with
        dm := Download_launch (World.start (2 ^ 32) 2 256).dm } 0).2.log =
      [Event.MapToFile 0 (2 ^ 19), Event.mmap (2 ^ 20) (2 ^ 31)] ∧
    (Machine.MapToFile Sys.linux
      { World.start (2 ^ 32) 2 256 with
        dm := Machine.Download_launch (World.start (2 ^ 32) 2 256).dm } 0).1 = false := by
  decide

/-! ## C12: the order of the coordinator's writes and the launches -/

theorem Download_body_stmts_exec (base : Int) (i : Nat) (s : DownloadLocals) :
    (Download_body_stmts base i s).foldl (fun d st => Stmt.exec st d) s.dm =
      (Download_body base i s).dm := rfl

theorem Download_for_stmts_exec (base : Int) (n : Nat) : ∀ (i : Nat) (s : DownloadLocals),
    (Download_for_stmts base n i s).foldl (fun d st => Stmt.exec st d) s.dm =
      (Download_for base n i s).dm := by
  induction n with
  | zero => intro i s; rfl
  | succ n ih =>
    intro i s
    rw [Download_for_stmts, List.foldl_append, Download_body_stmts_exec, ih, Download_for_succ]

theorem Download_last_stmts_exec (num : Int) (s : DownloadLocals) :
    (Download_last_stmts num s).foldl (fun d st => Stmt.exec st d) s.dm =
      Download_last num s := rfl

/-- Executed one after the other, the statements of `Download_stmts` leave the
coordinator as `Download_launch` does. -/
theorem Download_stmts_exec (dm : DownloadManager) :
    (Download_stmts dm).foldl (fun d st => Stmt.exec st d) (Download_adjust dm) =
      Download_launch dm := by
  unfold Download_stmts Download_launch
  dsimp only
  rw [List.foldl_append]
  rw [Download_for_stmts_exec _ _ 1
    { remain_blk_num := _, last_pos := 0, last_blk := 0, dm := Download_adjust dm }]
  rw [Download_last_stmts_exec]

theorem run_coordinator (sys : Sys) : ∀ (stmts rest : List Stmt) (steps : List Step)
    (aborted : List Nat) (w : World),
    run sys (List.replicate stmts.length Step.coordinator ++ steps) (stmts ++ rest) aborted w =
      run sys steps rest aborted
        { w with dm := stmts.foldl (fun d st => Stmt.exec st d) w.dm } := by
  intro stmts
  induction stmts with
  | nil => intro rest steps aborted w; rfl
  | cons st stmts ih =>
    intro rest steps aborted w
    simp only [List.length_cons, List.replicate_succ, List.cons_append, run, List.foldl_cons]
    exact ih rest steps aborted _

/-- When the coordinator has executed all its statements before the first chunk
arrives, the workers are launched in the state that `Download_launch` describes. -/
theorem Download_run_coordinator_first (sys : Sys) (steps : List Step) (w : World) :
    Download_run sys (List.replicate (Download_stmts w.dm).length Step.coordinator ++ steps) w =
      run sys steps [] [] { w with dm := Download_launch w.dm } := by
  unfold Download_run
  have h := run_coordinator sys (Download_stmts w.dm) [] steps []
    { w with dm := Download_adjust w.dm }
  rw [List.append_nil] at h
  rw [h]
  show run sys steps [] [] { w with dm := List.foldl _ (Download_adjust w.dm) _ } = _
  rw [Download_stmts_exec]

/-- Sink calls that all return true are the same in `run` and in `deliver`. -/
theorem run_sinks (sys : Sys) : ∀ (calls : List (Nat × List Byte)) (aborted : List Nat)
    (w w1 : World),
    (∀ c ∈ calls, ∃ l ∈ w.dm.m_threads, l.thread_id = c.1) →
    (∀ c ∈ calls, c.1 ∉ aborted) →
    deliver sys calls aborted w = some (List.replicate calls.length true, w1) →
    run sys (calls.map (fun c => Step.sink c.1 c.2)) [] aborted w =
      some (calls.map (fun c => (c.1, true)), w1) := by
  intro calls
  induction calls with
  | nil =>
    intro aborted w w1 _ _ h
    simp only [deliver, Option.some.injEq, Prod.mk.injEq] at h
    simp [run, h.2]
  | cons c rest ih =>
    intro aborted w w1 hl ha h
    obtain ⟨i, data⟩ := c
    have hia : i ∉ aborted := ha (i, data) (List.mem_cons_self _ _)
    obtain ⟨l, hlm, hli⟩ := hl (i, data) (List.mem_cons_self _ _)
    obtain ⟨r, hr, b1, _⟩ := WriteFileBulkCallback_total sys w data i
    obtain ⟨ok, w2⟩ := r
    rw [deliver, if_neg hia] at h
    simp only [hr] at h
    simp only [List.map_cons, run]
    have hc : ¬ ((∀ l ∈ w.dm.m_threads, l.thread_id ≠ i) ∨ i ∈ aborted) := by
      intro hc
      rcases hc with hc | hc
      · exact hc l hlm hli
      · exact hia hc
    rw [if_neg hc]
    simp only [hr]
    cases hd : deliver sys rest
        (if (if ok = false then 0 else data.length) ≠ data.length then i :: aborted else aborted)
        w2 with
    | none =>
      rw [hd] at h
      simp at h
    | some r2 =>
      obtain ⟨rs, w3⟩ := r2
      simp only [hd, Option.some.injEq, Prod.mk.injEq, List.length_cons,
        List.replicate_succ, List.cons.injEq] at h
      obtain ⟨⟨hok, hrs⟩, hw⟩ := h
      subst hok
      have hab : (if (if true = false then 0 else data.length) ≠ data.length then
          i :: aborted else aborted) = aborted := by simp
      rw [hab] at hd ⊢
      rw [ih aborted w2 w1 (fun c hc => by rw [b1]; exact hl c (List.mem_cons_of_mem _ hc))
        (fun c hc => ha c (List.mem_cons_of_mem _ hc)) (by rw [hd, hrs, hw])]

/-- A sink that runs while `m_remain_block_num[i]` still holds the 0 of the constructor
enters `MapToFile` with no page to map and returns false, whatever the system does. -/
theorem sink_before_remain_written (sys : Sys) (w : World) (data : List Byte) (i : Nat)
    (hm : w.dm.m_mems.getD i none = none) (hr : w.dm.m_remain_block_num.getD i 0 = 0) :
    WriteFileBulkCallback sys w data i =
      some (false, { w with log := w.log ++ [Event.MapToFile i 0] }) := by
  unfold WriteFileBulkCallback MapToFile MapToFile_map
  simp only [hm, hr]
  by_cases hP : (0 : Int) > w.dm.m_map_page_num
  · have h1 : w.dm.m_map_page_num ≤ 0 := by omega
    simp [hP, h1]
  · simp [hP]

theorem Download_for_keeps_zero (base : Int) (n : Nat) : ∀ (i : Nat) (s : DownloadLocals),
    1 ≤ i →
    (Download_for base n i s).dm.m_remain_block_num.getD 0 0 =
      s.dm.m_remain_block_num.getD 0 0 := by
  induction n with
  | zero => intro i s _; rfl
  | succ n ih =>
    intro i s hi
    rw [Download_for_succ, ih (i + 1) _ (by omega)]
    exact getD_set_of_ne _ i 0 _ 0 (by omega)

theorem not_WritesPrecedeLaunch (l : Launch) (last : Stmt) (hw : last.writes = some l.thread_id) :
    ∀ pre : List Stmt, ¬ WritesPrecedeLaunch (pre ++ [Stmt.launch l, last]) := by
  intro pre
  induction pre with
  | nil =>
    intro h
    exact h.1 last (List.mem_singleton_self _) hw
  | cons st pre ih =>
    intro h
    cases st with
    | set_block_idxs i v => exact ih h
    | launch l1 => exact ih h.2
    | set_remain_block_num i v => exact ih h

/-- The race: the coordinator executes `pre` and the launch of worker `i`, then the first
chunk of worker `i` arrives, then the coordinator executes its next statement. -/
theorem run_race (sys : Sys) (pre : List Stmt) (l : Launch) (last : Stmt) (data : List Byte)
    (w : World)
    (hm : ((pre ++ [Stmt.launch l]).foldl (fun d st => Stmt.exec st d) w.dm).m_mems.getD
      l.thread_id none = none)
    (hr : ((pre ++ [Stmt.launch l]).foldl (fun d st => Stmt.exec st d)
      w.dm).m_remain_block_num.getD l.thread_id 0 = 0) :
    run sys (List.replicate (pre.length + 1) Step.coordinator ++
        [Step.sink l.thread_id data, Step.coordinator]) (pre ++ [Stmt.launch l, last]) [] w =
      some ([(l.thread_id, false)],
        { w with
          dm := (pre ++ [Stmt.launch l, last]).foldl (fun d st => Stmt.exec st d) w.dm
          log := w.log ++ [Event.MapToFile l.thread_id 0] }) := by
  have hsplit : pre ++ [Stmt.launch l, last] = (pre ++ [Stmt.launch l]) ++ [last] := by simp
  have hlen : pre.length + 1 = (pre ++ [Stmt.launch l]).length := by simp
  rw [hsplit, hlen, run_coordinator]
  have hmem : l ∈ ((pre ++ [Stmt.launch l]).foldl (fun d st => Stmt.exec st d) w.dm).m_threads := by
    rw [List.foldl_append]
    simp [Stmt.exec]
  have hc : ¬ ((∀ l1 ∈ ((pre ++ [Stmt.launch l]).foldl (fun d st => Stmt.exec st d)
      w.dm).m_threads, l1.thread_id ≠ l.thread_id) ∨ l.thread_id ∈ ([] : List Nat)) := by
    intro hc
    rcases hc with hc | hc
    · exact hc l hmem rfl
    · simp at hc
  rw [run]
  dsimp only
  rw [if_neg hc, sink_before_remain_written sys _ data l.thread_id hm hr]
  simp only [run, List.foldl_append, List.foldl_cons, List.foldl_nil]

/-- The statements of `Download` for `F = 10000` and `T = 4`, and two executions with
every system call succeeding.  When the first chunk of the worker with thread id 1
arrives right after its launch, before the coordinator has executed line 177, its sink
enters `MapToFile` with `m_remain_block_num[1] = 0` and returns false; when the
coordinator has executed line 177 before, the same sink call maps one page and
returns true. -/
theorem Download_run_example :
    Download_stmts (World.start 10000 4 256).dm =
      [Stmt.set_block_idxs 1 0, Stmt.launch (Launch.mk 0 4095 1), Stmt.set_remain_block_num 1 1,
        Stmt.set_block_idxs 2 1, Stmt.launch (Launch.mk 4096 8191 2),
        Stmt.set_remain_block_num 2 1,
        Stmt.set_block_idxs 0 2, Stmt.launch (Launch.mk 8192 9999 0),
        Stmt.set_remain_block_num 0 1] ∧
    (Download_run Sys.allOk [Step.coordinator, Step.coordinator, Step.sink 1 [65]]
      (World.start 10000 4 256)).map (fun r => (r.1, r.2.log)) =
      some ([(1, false)], [Event.MapToFile 1 0]) ∧
    (Download_run Sys.allOk [Step.coordinator, Step.coordinator, Step.coordinator,
      Step.sink 1 [65]] (World.start 10000 4 256)).map (fun r => (r.1, r.2.log)) =
      some ([(1, true)], [Event.MapToFile 1 1, Event.mmap 4096 0, Event.memcpy 1 0 1 4096]) ∧
    (Download_run Sys.allOk (List.replicate 8 Step.coordinator ++
      [Step.sink 0 [65], Step.coordinator]) (World.start 10000 4 256)).map
        (fun r => (r.1, r.2.log, r.2.dm.m_remain_block_num)) =
      some ([(0, false)], [Event.MapToFile 0 0], [1, 1, 1, 0]) := by
  decide

theorem Download_stmts_split_aux (base num : Int) (n : Nat) (s0 : DownloadLocals) :
    ∃ (pre : List Stmt) (s : DownloadLocals),
      Download_for_stmts base n 1 s0 ++ Download_last_stmts num (Download_for base n 1 s0) =
        (pre ++ [Stmt.set_block_idxs 0 s.last_blk]) ++
          [Stmt.launch (Launch.mk s.last_pos ((s.dm.m_filesize : Int) - 1) 0),
            Stmt.set_remain_block_num 0 (num - s.last_blk)] ∧
      pre.foldl (fun d st => Stmt.exec st d) s0.dm = s.dm ∧
      s.dm.m_mems = s0.dm.m_mems ∧
      s.dm.m_remain_block_num.getD 0 0 = s0.dm.m_remain_block_num.getD 0 0 :=
  ⟨Download_for_stmts base n 1 s0, Download_for base n 1 s0, by simp [Download_last_stmts],
    Download_for_stmts_exec base n 1 s0, (Download_for_fields base n 1 s0).2.2.2.2.2.1,
    Download_for_keeps_zero base n 1 s0 (le_refl 1)⟩

/-- The statements of `Download` end with the write of `m_block_idxs[0]`, the launch of
the worker with thread id 0 and the write of `m_remain_block_num[0]`; up to the launch
they leave `m_mems` and `m_remain_block_num[0]` as they were. -/
theorem Download_stmts_split (dm : DownloadManager) :
    ∃ (pre : List Stmt) (s : DownloadLocals),
      Download_stmts dm =
        (pre ++ [Stmt.set_block_idxs 0 s.last_blk]) ++
          [Stmt.launch (Launch.mk s.last_pos ((s.dm.m_filesize : Int) - 1) 0),
            Stmt.set_remain_block_num 0 (num_of_4k_block dm.m_filesize - s.last_blk)] ∧
      pre.foldl (fun d st => Stmt.exec st d) (Download_adjust dm) = s.dm ∧
      s.dm.m_mems = dm.m_mems ∧
      s.dm.m_remain_block_num.getD 0 0 = dm.m_remain_block_num.getD 0 0 := by
  obtain ⟨pre, s, h1, h2, h3, h4⟩ := Download_stmts_split_aux
    (Int.tdiv (num_of_4k_block dm.m_filesize) (Download_adjust dm).m_thread_num)
    (num_of_4k_block dm.m_filesize) ((Download_adjust dm).m_thread_num - 1).toNat
    { remain_blk_num := num_of_4k_block dm.m_filesize -
        Int.tdiv (num_of_4k_block dm.m_filesize) (Download_adjust dm).m_thread_num *
          (Download_adjust dm).m_thread_num
      last_pos := 0
      last_blk := 0
      dm := Download_adjust dm }
  refine ⟨pre, s, h1, h2, ?_, ?_⟩
  · rw [h3]
    exact (Download_adjust_fields dm).2.2.2.2.2.2.1
  · rw [h4]
    show (Download_adjust dm).m_remain_block_num.getD 0 0 = _
    rw [(Download_adjust_fields dm).2.2.2.2.2.2.2.2.1]

/-- C12 fails, for every file size, thread count and page budget with which `Download`
launches its workers, and whatever the system calls return.  `Download` writes
`m_remain_block_num[0]` (line 185) after it has launched the worker with thread id 0
(lines 181-184): its statements end with that launch followed by that write, so not
every write to the state of a worker precedes its launch.  And in the execution in
which the first chunk of that worker arrives between the two, the sink finds
`m_remain_block_num[0]` at the 0 of the constructor, enters `MapToFile` with no page to
map and returns false, so the transfer is aborted; the coordinator then stores the
page count as if nothing had happened. -/
theorem C12_remain_block_num_written_after_launch (sys : Sys) (w : World) (data : List Byte)
    (hm : w.dm.m_mems.getD 0 none = none) (hr : w.dm.m_remain_block_num.getD 0 0 = 0) :
    ¬ WritesPrecedeLaunch (Download_stmts w.dm) ∧
    ∃ (pre : List Stmt) (l : Launch) (v : Int),
      Download_stmts w.dm = pre ++ [Stmt.launch l, Stmt.set_remain_block_num 0 v] ∧
      l.thread_id = 0 ∧
      Download_run sys (List.replicate (pre.length + 1) Step.coordinator ++
          [Step.sink 0 data, Step.coordinator]) w =
        some ([(0, false)],
          { w with dm := Download_launch w.dm, log := w.log ++ [Event.MapToFile 0 0] }) := by
  obtain ⟨pre, s, hsplit, hexec, hmems, hrem⟩ := Download_stmts_split w.dm
  have hstate : ∀ l : Launch,
      ((pre ++ [Stmt.set_block_idxs 0 s.last_blk]) ++ [Stmt.launch l]).foldl
        (fun d st => Stmt.exec st d) (Download_adjust w.dm) =
      { s.dm with
        m_block_idxs := s.dm.m_block_idxs.set 0 s.last_blk
        m_threads := s.dm.m_threads ++ [l] } := by
    intro l
    rw [List.foldl_append, List.foldl_append, hexec]
    rfl
  refine ⟨?_, pre ++ [Stmt.set_block_idxs 0 s.last_blk],
    Launch.mk s.last_pos ((s.dm.m_filesize : Int) - 1) 0,
    num_of_4k_block w.dm.m_filesize - s.last_blk, hsplit, rfl, ?_⟩
  · rw [hsplit]
    exact not_WritesPrecedeLaunch (Launch.mk s.last_pos ((s.dm.m_filesize : Int) - 1) 0)
      (Stmt.set_remain_block_num 0 (num_of_4k_block w.dm.m_filesize - s.last_blk)) rfl _
  · have hrace := run_race sys (pre ++ [Stmt.set_block_idxs 0 s.last_blk])
      (Launch.mk s.last_pos ((s.dm.m_filesize : Int) - 1) 0)
      (Stmt.set_remain_block_num 0 (num_of_4k_block w.dm.m_filesize - s.last_blk)) data
      { w with dm := Download_adjust w.dm }
      (by rw [hstate]; exact hmems.symm ▸ hm) (by rw [hstate]; exact hrem.symm ▸ hr)
    unfold Download_run
    rw [hsplit]
    rw [hrace]
    have hfin := Download_stmts_exec w.dm
    rw [hsplit] at hfin
    simp only [hfin]

/-- An instance of C12's theorem: `F = 10000`, `T = 4`, `P = 256`, every system call
succeeding, and a first chunk of one byte for the worker with thread id 0. -/
theorem C12_witness :
    (World.start 10000 4 256).dm.m_mems.getD 0 none = none ∧
    (World.start 10000 4 256).dm.m_remain_block_num.getD 0 0 = 0 ∧
    (¬ WritesPrecedeLaunch (Download_stmts (World.start 10000 4 256).dm) ∧
      ∃ (pre : List Stmt) (l : Launch) (v : Int),
        Download_stmts (World.start 10000 4 256).dm =
          pre ++ [Stmt.launch l, Stmt.set_remain_block_num 0 v] ∧
        l.thread_id = 0 ∧
        Download_run Sys.allOk (List.replicate (pre.length + 1) Step.coordinator ++
            [Step.sink 0 [65], Step.coordinator]) (World.start 10000 4 256) =
          some ([(0, false)],
            { World.start 10000 4 256 with
              dm := Download_launch (World.start 10000 4 256).dm
              log := (World.start 10000 4 256).log ++ [Event.MapToFile 0 0] })) :=
  ⟨by decide, by decide,
    C12_remain_block_num_written_after_launch Sys.allOk (World.start 10000 4 256) [65]
      (by decide) (by decide)⟩

/-! ## The machine and the exact model agree below 2 GiB -/

theorem getD_of_length_le (l : List Int) (i : Nat) (h : l.length ≤ i) : l.getD i 0 = 0 := by
  rw [List.getD_eq_getElem?_getD, List.getElem?_eq_none h]
  rfl

theorem Small_congr (dm dm1 : DownloadManager) (j : Nat)
    (h1 : dm1.m_block_idxs = dm.m_block_idxs)
    (h2 : dm1.m_remain_block_num = dm.m_remain_block_num) (h : dm.Small j) : dm1.Small j := by
  unfold DownloadManager.Small at h ⊢
  rw [h1, h2]
  exact h

theorem MapToFile_map_page_num (sys : Sys) (w : World) (i : Nat) :
    (MapToFile_map sys w i).2.dm.m_map_page_num = w.dm.m_map_page_num := by
  unfold MapToFile_map
  dsimp only
  split_ifs <;> rfl

theorem MapToFile_page_num (sys : Sys) (w : World) (i : Nat) :
    (MapToFile sys w i).2.dm.m_map_page_num = w.dm.m_map_page_num := by
  unfold MapToFile
  dsimp only
  cases hm : w.dm.m_mems.getD i none with
  | none =>
    dsimp only
    rw [if_neg (by simp)]
    exact MapToFile_map_page_num sys _ i
  | some addr =>
    dsimp only
    by_cases hu : sys.munmap_ok addr (w.dm.m_current_block_size.getD i 0) = false
    · rw [if_pos hu]
    · rw [if_neg hu]
      exact MapToFile_map_page_num sys _ i

theorem MapToFile_map_Small (sys : Sys) (w : World) (i j : Nat) (h : w.dm.Small j) :
    (MapToFile_map sys w i).2.dm.Small j := by
  unfold MapToFile_map
  dsimp only
  generalize ht : (if w.dm.m_remain_block_num.getD i 0 > w.dm.m_map_page_num then
    w.dm.m_map_page_num else w.dm.m_remain_block_num.getD i 0) = t
  by_cases h0 : t ≤ 0
  · rw [if_pos h0]
    exact h
  · rw [if_neg h0]
    by_cases hm : sys.mmap_ok (BLOCK_4K * t) (w.dm.m_block_idxs.getD i 0 * BLOCK_4K) = false
    · rw [if_pos hm]
      exact Small_congr _ _ j rfl rfl h
    · rw [if_neg hm]
      have hle : t ≤ w.dm.m_remain_block_num.getD i 0 := by
        rw [← ht]
        split_ifs <;> omega
      have hdef : ¬ i < w.dm.m_remain_block_num.length → w.dm.m_remain_block_num.getD i 0 = 0 :=
        fun hlt => getD_of_length_le _ _ (by omega)
      unfold DownloadManager.Small at h ⊢
      dsimp only
      by_cases hij : i = j
      · subst hij
        rw [getD_set_if, getD_set_if]
        split_ifs <;> omega
      · rw [getD_set_of_ne _ _ _ _ _ hij, getD_set_of_ne _ _ _ _ _ hij]
        exact h

theorem MapToFile_Small (sys : Sys) (w : World) (i j : Nat) (h : w.dm.Small j) :
    (MapToFile sys w i).2.dm.Small j := by
  unfold MapToFile
  dsimp only
  cases hm : w.dm.m_mems.getD i none with
  | none =>
    dsimp only
    rw [if_neg (by simp)]
    exact MapToFile_map_Small sys _ i j h
  | some addr =>
    dsimp only
    by_cases hu : sys.munmap_ok addr (w.dm.m_current_block_size.getD i 0) = false
    · rw [if_pos hu]
      exact h
    · rw [if_neg hu]
      exact MapToFile_map_Small sys _ i j h

theorem while_Small (sys : Sys) (i : Nat) (data : List Byte) :
    ∀ (fuel : Nat) (w : World) (rd rm off : Nat) (r : Bool × World × Nat × Nat),
      WriteFileBulkCallback_while sys i data fuel w rd rm off = some r →
      (∀ j, w.dm.Small j → r.2.1.dm.Small j) ∧
        r.2.1.dm.m_map_page_num = w.dm.m_map_page_num := by
  intro fuel
  induction fuel with
  | zero =>
    intro w rd rm off r h
    rw [WriteFileBulkCallback_while] at h
    split_ifs at h
    simp only [Option.some.injEq] at h
    subst h
    exact ⟨fun _ hj => hj, rfl⟩
  | succ fuel ih =>
    intro w rd rm off r h
    rw [WriteFileBulkCallback_while] at h
    by_cases hgt : rd > rm
    · rw [if_pos hgt] at h
      dsimp only at h
      have hS := fun j => MapToFile_Small sys (memcpy w i data off rm) i j
      have hP := MapToFile_page_num sys (memcpy w i data off rm) i
      rw [memcpy_dm] at hS hP
      by_cases hf : (MapToFile sys (memcpy w i data off rm) i).1 = false
      · rw [if_pos hf] at h
        simp only [Option.some.injEq] at h
        subst h
        exact ⟨fun j hj => hS j hj, hP⟩
      · rw [if_neg hf] at h
        obtain ⟨a1, a2⟩ := ih _ _ _ _ r h
        exact ⟨fun j hj => a1 j (hS j hj), a2.trans hP⟩
    · rw [if_neg hgt] at h
      simp only [Option.some.injEq] at h
      subst h
      exact ⟨fun _ hj => hj, rfl⟩

theorem write_Small (sys : Sys) (w : World) (data : List Byte) (i : Nat) (r : Bool × World)
    (h : WriteFileBulkCallback_write sys w data i = some r) :
    (∀ j, w.dm.Small j → r.2.dm.Small j) ∧ r.2.dm.m_map_page_num = w.dm.m_map_page_num := by
  unfold WriteFileBulkCallback_write at h
  dsimp only at h
  cases hw : WriteFileBulkCallback_while sys i data
      ((w.dm.m_remain_block_num.getD i 0).toNat + 1) w data.length
      (remain_mem_size (w.dm.m_current_block_size.getD i 0) (w.dm.m_current_mem_pos.getD i 0))
      0 with
  | none => rw [hw] at h; simp at h
  | some r1 =>
    obtain ⟨a1, a2⟩ := while_Small sys i data _ _ _ _ _ r1 hw
    obtain ⟨ok, w2, rd, off⟩ := r1
    rw [hw] at h
    cases ok with
    | false =>
      simp only [Option.some.injEq] at h
      subst h
      exact ⟨a1, a2⟩
    | true =>
      simp only [Option.some.injEq] at h
      subst h
      refine ⟨fun j hj => ?_, ?_⟩
      · exact Small_congr w2.dm _ j (by simp only [memcpy_dm]) (by simp only [memcpy_dm])
          (a1 j hj)
      · simp only [memcpy_dm]
        exact a2

/-- The sink leaves the pages of every worker at or below page `2^19` when they were
there before, and does not touch the page budget. -/
theorem sink_Small (sys : Sys) (w : World) (data : List Byte) (i : Nat) (r : Bool × World)
    (h : WriteFileBulkCallback sys w data i = some r) :
    (∀ j, w.dm.Small j → r.2.dm.Small j) ∧ r.2.dm.m_map_page_num = w.dm.m_map_page_num := by
  unfold WriteFileBulkCallback at h
  dsimp only at h
  cases hm : w.dm.m_mems.getD i none with
  | none =>
    rw [hm] at h
    dsimp only at h
    by_cases hf : (MapToFile sys w i).1 = false
    · rw [if_pos hf] at h
      simp only [Option.some.injEq] at h
      subst h
      exact ⟨fun j hj => MapToFile_Small sys w i j hj, MapToFile_page_num sys w i⟩
    · rw [if_neg hf] at h
      obtain ⟨a1, a2⟩ := write_Small sys _ data i r h
      exact ⟨fun j hj => a1 j (MapToFile_Small sys w i j hj),
        a2.trans (MapToFile_page_num sys w i)⟩
  | some addr =>
    rw [hm] at h
    dsimp only at h
    rw [if_neg (by simp)] at h
    exact write_Small sys w data i r h

theorem Machine_while_eq (sys : Sys) (i : Nat) (data : List Byte) :
    ∀ (fuel : Nat) (w : World) (rd rm off : Nat),
      w.dm.m_map_page_num < 2 ^ 19 → w.dm.Small i →
      Machine.WriteFileBulkCallback_while sys i data fuel w rd rm off =
        WriteFileBulkCallback_while sys i data fuel w rd rm off := by
  intro fuel
  induction fuel with
  | zero =>
    intro w rd rm off _ _
    rw [Machine.WriteFileBulkCallback_while, WriteFileBulkCallback_while]
  | succ fuel ih =>
    intro w rd rm off hP hS
    rw [Machine.WriteFileBulkCallback_while, WriteFileBulkCallback_while]
    by_cases hgt : rd > rm
    · rw [if_pos hgt, if_pos hgt]
      dsimp only
      have hS1 : (memcpy w i data off rm).dm.Small i := by rw [memcpy_dm]; exact hS
      have hP1 : (memcpy w i data off rm).dm.m_map_page_num < 2 ^ 19 := by
        rw [memcpy_dm]; exact hP
      rw [Machine_MapToFile_eq sys (memcpy w i data off rm) i hS1.1 hS1.2 (Or.inl hP1)]
      by_cases hf : (MapToFile sys (memcpy w i data off rm) i).1 = false
      · rw [if_pos hf, if_pos hf]
      · rw [if_neg hf, if_neg hf]
        exact ih _ _ _ _ (by rw [MapToFile_page_num]; exact hP1)
          (MapToFile_Small sys _ i i hS1)
    · rw [if_neg hgt, if_neg hgt]

theorem Machine_write_eq (sys : Sys) (w : World) (data : List Byte) (i : Nat)
    (hP : w.dm.m_map_page_num < 2 ^ 19) (hS : w.dm.Small i) :
    Machine.WriteFileBulkCallback_write sys w data i = WriteFileBulkCallback_write sys w data i := by
  unfold Machine.WriteFileBulkCallback_write WriteFileBulkCallback_write
  dsimp only
  rw [Machine_while_eq sys i data _ w _ _ _ hP hS]

/-- While the pages of a worker end at or before page `2^19` and the page budget is
below `2^19`, the machine computes what the sink computes in exact arithmetic. -/
theorem Machine_sink_eq (sys : Sys) (w : World) (data : List Byte) (i : Nat)
    (hP : w.dm.m_map_page_num < 2 ^ 19) (hS : w.dm.Small i) :
    Machine.WriteFileBulkCallback sys w data i = WriteFileBulkCallback sys w data i := by
  unfold Machine.WriteFileBulkCallback WriteFileBulkCallback
  dsimp only
  cases hm : w.dm.m_mems.getD i none with
  | none =>
    dsimp only
    rw [Machine_MapToFile_eq sys w i hS.1 hS.2 (Or.inl hP)]
    by_cases hf : (MapToFile sys w i).1 = false
    · rw [if_pos hf, if_pos hf]
    · rw [if_neg hf, if_neg hf]
      exact Machine_write_eq sys _ data i (by rw [MapToFile_page_num]; exact hP)
        (MapToFile_Small sys w i i hS)
  | some addr =>
    dsimp only
    rw [if_neg (by simp), if_neg (by simp)]
    exact Machine_write_eq sys w data i hP hS

/-- The same for a whole transfer: the chunks of workers whose pages end at or before
page `2^19` are stored by the machine as in exact arithmetic. -/
theorem Machine_deliver_eq (sys : Sys) : ∀ (calls : List (Nat × List Byte))
    (aborted : List Nat) (w : World),
    w.dm.m_map_page_num < 2 ^ 19 → (∀ c ∈ calls, w.dm.Small c.1) →
    Machine.deliver sys calls aborted w = deliver sys calls aborted w := by
  intro calls
  induction calls with
  | nil =>
    intro aborted w _ _
    rw [Machine.deliver, deliver]
  | cons c rest ih =>
    intro aborted w hP hS
    obtain ⟨i, data⟩ := c
    rw [Machine.deliver, deliver]
    have hrest : ∀ c ∈ rest, w.dm.Small c.1 := fun c hc => hS c (List.mem_cons_of_mem _ hc)
    by_cases ha : i ∈ aborted
    · rw [if_pos ha, if_pos ha]
      exact ih aborted w hP hrest
    · rw [if_neg ha, if_neg ha]
      rw [Machine_sink_eq sys w data i hP (hS (i, data) (List.mem_cons_self _ _))]
      cases hr : WriteFileBulkCallback sys w data i with
      | none => rfl
      | some r =>
        obtain ⟨a1, a2⟩ := sink_Small sys w data i r hr
        obtain ⟨ok, w1⟩ := r
        dsimp only
        rw [ih _ w1 (by rw [a2]; exact hP) (fun c hc => a1 c.1 (hrest c hc))]

theorem startPage_mono (base extra : Int) (hb : 1 ≤ base) (k : Nat) :
    ∀ m : Nat, k ≤ m → startPage base extra k ≤ startPage base extra m := by
  intro m
  induction m with
  | zero =>
    intro h
    have : k = 0 := by omega
    subst this
    exact le_refl _
  | succ m ih =>
    intro h
    have h1 := startPage_lt base extra m hb
    by_cases hk : k = m + 1
    · subst hk
      exact le_refl _
    · have := ih (by omega)
      omega

theorem startPage_last (F : Nat) (T : Int) (hF : 1 ≤ F) (hT : 1 ≤ T) :
    startPage (base_blk_num F T) (extra_blk_num F T) (thread_num_clamped F T - 1).toNat =
      num_of_4k_block F - base_blk_num F T := by
  obtain ⟨c1, c2, c3, c4, b1, e1, b2, e2, e3, hsum⟩ := plan_arith F T hF hT
  have hn : (((thread_num_clamped F T - 1).toNat : Nat) : Int) = thread_num_clamped F T - 1 :=
    Int.toNat_of_nonneg (by omega)
  rw [startPage_all _ _ _ (by omega), hn]
  have : (thread_num_clamped F T - 1) * base_blk_num F T =
      base_blk_num F T * thread_num_clamped F T - base_blk_num F T := by ring
  omega

/-- For a file of at most `2^19` pages every launched worker has its pages at or
below page `2^19`. -/
theorem launch_Small (dm : DownloadManager) (n : Nat) (hF : 1 ≤ dm.m_filesize)
    (hT : 1 ≤ dm.m_thread_num) (hn : dm.m_thread_num ≤ n) (hl1 : dm.m_block_idxs.length = n)
    (hl2 : dm.m_remain_block_num.length = n) (hnum : num_of_4k_block dm.m_filesize ≤ 2 ^ 19) :
    ∀ l ∈ planSegments dm.m_filesize dm.m_thread_num, (Download_launch dm).Small l.thread_id := by
  obtain ⟨c1, c2, c3, c4, b1, e1, b2, e2, e3, hsum⟩ :=
    plan_arith dm.m_filesize dm.m_thread_num hF hT
  have hlast := startPage_last dm.m_filesize dm.m_thread_num hF hT
  intro l hl
  rw [planSegments_mem] at hl
  unfold DownloadManager.Small
  rcases hl with ⟨k, hk, rfl⟩ | rfl
  · have hj0 : 1 + k ≠ 0 := by omega
    have hjT : ((1 + k : Nat) : Int) < thread_num_clamped dm.m_filesize dm.m_thread_num := by
      omega
    have hjn : 1 + k < n := by omega
    dsimp only
    rw [Download_launch_idxs dm hF hT (1 + k) (by omega),
      Download_launch_remain dm hF hT (1 + k) (by omega), if_neg hj0, if_pos hjT, if_neg hj0,
      if_pos hjT]
    have e : 1 + k - 1 = k := by omega
    rw [e]
    have h1 := startPage_nonneg (base_blk_num dm.m_filesize dm.m_thread_num)
      (extra_blk_num dm.m_filesize dm.m_thread_num) k b2 e2
    have h2 := startPage_mono (base_blk_num dm.m_filesize dm.m_thread_num)
      (extra_blk_num dm.m_filesize dm.m_thread_num) b2 (k + 1)
      (thread_num_clamped dm.m_filesize dm.m_thread_num - 1).toNat (by omega)
    rw [hlast] at h2
    constructor <;> omega
  · dsimp only
    rw [Download_launch_idxs dm hF hT 0 (by omega), Download_launch_remain dm hF hT 0 (by omega),
      if_pos rfl, if_pos rfl]
    have hbT : base_blk_num dm.m_filesize dm.m_thread_num ≤
        base_blk_num dm.m_filesize dm.m_thread_num *
          thread_num_clamped dm.m_filesize dm.m_thread_num :=
      le_mul_of_one_le_right (by omega) c1
    constructor <;> omega

/-! ## The machine: the sink always returns -/

theorem wrap32_le_self (x : Int) (h : 0 ≤ x) : wrap32 x ≤ x := by
  unfold wrap32
  omega

theorem Machine_MapToFile_map_any (sys : Sys) (w : World) (i : Nat) :
    (Machine.MapToFile_map sys w i).2.dm.m_threads = w.dm.m_threads ∧
    (Machine.MapToFile_map sys w i).2.dm.m_thread_num = w.dm.m_thread_num ∧
    ((Machine.MapToFile_map sys w i).1 = true →
      ((Machine.MapToFile_map sys w i).2.dm.m_remain_block_num.getD i 0).toNat <
        (w.dm.m_remain_block_num.getD i 0).toNat) := by
  unfold Machine.MapToFile_map
  dsimp only
  generalize ht : (if w.dm.m_remain_block_num.getD i 0 > w.dm.m_map_page_num then
    w.dm.m_map_page_num else w.dm.m_remain_block_num.getD i 0) = t
  by_cases h0 : t ≤ 0
  · rw [if_pos h0]
    simp
  · rw [if_neg h0]
    by_cases hm : sys.mmap_ok (wrap64 (wrap32 (BLOCK_4K * t)))
        (wrap32 (w.dm.m_block_idxs.getD i 0 * BLOCK_4K)) = false
    · rw [if_pos hm]
      simp
    · rw [if_neg hm]
      refine ⟨rfl, rfl, fun _ => ?_⟩
      dsimp only
      have hle : t ≤ w.dm.m_remain_block_num.getD i 0 := by
        rw [← ht]
        split_ifs <;> omega
      have hlt : i < w.dm.m_remain_block_num.length := by
        by_contra hge
        have := getD_of_length_le w.dm.m_remain_block_num i (by omega)
        omega
      rw [getD_set_if, if_pos ⟨rfl, hlt⟩]
      have := wrap32_le_self (w.dm.m_remain_block_num.getD i 0 - t) (by omega)
      omega

theorem Machine_MapToFile_any (sys : Sys) (w : World) (i : Nat) :
    (Machine.MapToFile sys w i).2.dm.m_threads = w.dm.m_threads ∧
    (Machine.MapToFile sys w i).2.dm.m_thread_num = w.dm.m_thread_num ∧
    ((Machine.MapToFile sys w i).1 = true →
      ((Machine.MapToFile sys w i).2.dm.m_remain_block_num.getD i 0).toNat <
        (w.dm.m_remain_block_num.getD i 0).toNat) := by
  unfold Machine.MapToFile
  simp only
  cases hm : w.dm.m_mems.getD i none with
  | none =>
    simp only
    rw [if_neg (by decide)]
    exact Machine_MapToFile_map_any sys _ i
  | some addr =>
    simp only
    by_cases hu : sys.munmap_ok addr (w.dm.m_current_block_size.getD i 0) = false
    · rw [if_pos hu]
      simp
    · rw [if_neg hu]
      exact Machine_MapToFile_map_any sys _ i

theorem Machine_while_total (sys : Sys) (i : Nat) (data : List Byte) :
    ∀ (fuel : Nat) (w : World) (rd rm off : Nat),
      (w.dm.m_remain_block_num.getD i 0).toNat + 1 ≤ fuel →
      ∃ r, Machine.WriteFileBulkCallback_while sys i data fuel w rd rm off = some r ∧
        r.2.1.dm.m_threads = w.dm.m_threads ∧ r.2.1.dm.m_thread_num = w.dm.m_thread_num := by
  intro fuel
  induction fuel with
  | zero => intro w rd rm off h; omega
  | succ fuel ih =>
    intro w rd rm off h
    rw [Machine.WriteFileBulkCallback_while]
    by_cases hgt : rd > rm
    · rw [if_pos hgt]
      simp only
      obtain ⟨a1, a2, a3⟩ := Machine_MapToFile_any sys (memcpy w i data off rm) i
      rw [memcpy_dm] at a1 a2 a3
      by_cases hf : (Machine.MapToFile sys (memcpy w i data off rm) i).1 = false
      · rw [if_pos hf]
        exact ⟨_, rfl, a1, a2⟩
      · rw [if_neg hf]
        have ht : (Machine.MapToFile sys (memcpy w i data off rm) i).1 = true := by
          cases h1 : (Machine.MapToFile sys (memcpy w i data off rm) i).1
          · exact absurd h1 hf
          · rfl
        have := a3 ht
        obtain ⟨r, hr, b1, b2⟩ := ih (Machine.MapToFile sys (memcpy w i data off rm) i).2
          (rd - rm)
          (remain_mem_size
            ((Machine.MapToFile sys (memcpy w i data off rm) i).2.dm.m_current_block_size.getD
              i 0)
            ((Machine.MapToFile sys (memcpy w i data off rm) i).2.dm.m_current_mem_pos.getD i 0))
          (off + rm) (by omega)
        exact ⟨r, hr, b1.trans a1, b2.trans a2⟩
    · rw [if_neg hgt]
      exact ⟨_, rfl, rfl, rfl⟩

theorem Machine_write_total (sys : Sys) (w : World) (data : List Byte) (i : Nat) :
    ∃ r, Machine.WriteFileBulkCallback_write sys w data i = some r ∧
      r.2.dm.m_threads = w.dm.m_threads ∧ r.2.dm.m_thread_num = w.dm.m_thread_num := by
  obtain ⟨r, hr, b1, b2⟩ := Machine_while_total sys i data
    ((w.dm.m_remain_block_num.getD i 0).toNat + 1) w data.length
    (remain_mem_size (w.dm.m_current_block_size.getD i 0) (w.dm.m_current_mem_pos.getD i 0)) 0
    (le_refl _)
  unfold Machine.WriteFileBulkCallback_write
  simp only [hr]
  obtain ⟨ok, w2, rd, off⟩ := r
  cases ok with
  | false => exact ⟨_, rfl, b1, b2⟩
  | true =>
    refine ⟨_, rfl, ?_, ?_⟩
    · simp only [memcpy_dm]; exact b1
    · simp only [memcpy_dm]; exact b2

/-- The sink of the machine returns on every input, and does not touch `m_threads` and
`m_thread_num`. -/
theorem Machine_sink_total (sys : Sys) (w : World) (data : List Byte) (i : Nat) :
    ∃ r, Machine.WriteFileBulkCallback sys w data i = some r ∧
      r.2.dm.m_threads = w.dm.m_threads ∧ r.2.dm.m_thread_num = w.dm.m_thread_num := by
  unfold Machine.WriteFileBulkCallback
  simp only
  cases hm : w.dm.m_mems.getD i none with
  | none =>
    simp only
    obtain ⟨a1, a2, _⟩ := Machine_MapToFile_any sys w i
    by_cases hf : (Machine.MapToFile sys w i).1 = false
    · rw [if_pos hf]
      exact ⟨_, rfl, a1, a2⟩
    · rw [if_neg hf]
      obtain ⟨r, hr, b1, b2⟩ := Machine_write_total sys (Machine.MapToFile sys w i).2 data i
      exact ⟨r, hr, b1.trans a1, b2.trans a2⟩
  | some addr =>
    simp only
    rw [if_neg (by decide)]
    exact Machine_write_total sys w data i

/-- On the machine too the transport's deliveries always come to an end. -/
theorem Machine_deliver_total (sys : Sys) : ∀ (calls : List (Nat × List Byte))
    (aborted : List Nat) (w : World), ∃ r, Machine.deliver sys calls aborted w = some r ∧
      r.2.dm.m_threads = w.dm.m_threads ∧ r.2.dm.m_thread_num = w.dm.m_thread_num := by
  intro calls
  induction calls with
  | nil => intro aborted w; exact ⟨_, rfl, rfl, rfl⟩
  | cons c rest ih =>
    intro aborted w
    obtain ⟨i, data⟩ := c
    rw [Machine.deliver]
    by_cases ha : i ∈ aborted
    · rw [if_pos ha]
      exact ih aborted w
    · rw [if_neg ha]
      obtain ⟨r, hr, b1, b2⟩ := Machine_sink_total sys w data i
      obtain ⟨ok, w1⟩ := r
      simp only [hr]
      obtain ⟨r2, hr2, c1, c2⟩ := ih
        (if (if ok = false then 0 else data.length) ≠ data.length then i :: aborted else aborted)
        w1
      obtain ⟨rs, w2⟩ := r2
      simp only [hr2]
      exact ⟨_, rfl, c1.trans b1, c2.trans b2⟩

/-! ## The machine: the number of workers -/

theorem Machine_Download_for_count (base : Int) (n : Nat) : ∀ (i : Nat) (s : DownloadLocals),
    (Machine.Download_for base n i s).dm.m_threads.length = s.dm.m_threads.length + n ∧
    (Machine.Download_for base n i s).dm.m_thread_num = s.dm.m_thread_num ∧
    (Machine.Download_for base n i s).dm.m_filesize = s.dm.m_filesize := by
  induction n with
  | zero => intro i s; exact ⟨rfl, rfl, rfl⟩
  | succ n ih =>
    intro i s
    rw [Machine.Download_for]
    obtain ⟨h1, h2, h3⟩ := ih (i + 1) (Machine.Download_body base i s)
    refine ⟨?_, ?_, ?_⟩
    · rw [h1]
      simp only [Machine.Download_body, List.length_append, List.length_singleton]
      omega
    · rw [h2]
      rfl
    · rw [h3]
      rfl

/-- While the page count fits an `int`, the machine launches `T' = min(T, num)` workers
and leaves `m_thread_num = T'`, whatever the products of the positions do. -/
theorem Machine_Download_launch_count (dm : DownloadManager) (hF : 1 ≤ dm.m_filesize)
    (hT : 1 ≤ dm.m_thread_num) (hfit : num_of_4k_block dm.m_filesize < 2 ^ 31)
    (h0 : dm.m_threads = []) :
    (Machine.Download_launch dm).m_thread_num =
      thread_num_clamped dm.m_filesize dm.m_thread_num ∧
    ((Machine.Download_launch dm).m_threads.length : Int) =
      thread_num_clamped dm.m_filesize dm.m_thread_num := by
  obtain ⟨c1, _⟩ := plan_arith dm.m_filesize dm.m_thread_num hF hT
  unfold Machine.Download_launch
  dsimp only
  rw [Machine_num_of_4k_block_eq _ hfit, Machine_Download_adjust_eq _ hfit]
  obtain ⟨a1, a2, a3, a4, a5, _⟩ := Download_adjust_fields dm
  obtain ⟨h1, h2, h3⟩ := Machine_Download_for_count
    (Int.tdiv (num_of_4k_block dm.m_filesize) (Download_adjust dm).m_thread_num)
    ((Download_adjust dm).m_thread_num - 1).toNat 1
    { remain_blk_num := wrap32 (num_of_4k_block dm.m_filesize -
        wrap32 (Int.tdiv (num_of_4k_block dm.m_filesize) (Download_adjust dm).m_thread_num *
          (Download_adjust dm).m_thread_num))
      last_pos := 0
      last_blk := 0
      dm := Download_adjust dm }
  unfold Machine.Download_last
  dsimp only
  constructor
  · rw [h2]
    exact a1
  · rw [List.length_append, h1]
    dsimp only
    rw [a5, h0, a1]
    simp only [List.length_nil, List.length_singleton, zero_add]
    push_cast
    rw [Int.toNat_of_nonneg (by omega)]
    ring

/-! ## C10: the result of Download -/

/-- Once no future is left and `undone_thread_num` is not 0, `ShowProgress` never
returns. -/
theorem ShowProgress_while_stuck : ∀ (fuel tick : Nat) (u wt : Int), u ≠ 0 →
    ShowProgress_while fuel [] tick u wt = none := by
  intro fuel
  induction fuel with
  | zero =>
    intro tick u wt hu
    rw [ShowProgress_while, if_pos hu]
  | succ fuel ih =>
    intro tick u wt hu
    rw [ShowProgress_while, if_pos hu, ShowProgress_for]
    exact ih tick u wt hu

/-- C10, amended.  For every `F ≥ 1` whose page count `ceil(F/4096)` fits an `int` and
every assignment of results to the launched workers, all of which complete:
`ShowProgress` returns after finitely many passes, and `Download` returns true if and
only if every worker returned true and `ReleaseMem` succeeded (every `munmap` it
issues does); a pass of `ShowProgress` that finds a ready worker whose result is false
ends with `return false` at once, and then `Download` returns false.  The statement
is about the machine: the positions and window offsets may wrap, the number of
workers does not. -/
theorem C10_download_result (sys : Sys) (env : Transfer) (w : World)
    (hF : 1 ≤ w.dm.m_filesize) (hfit : num_of_4k_block w.dm.m_filesize < 2 ^ 31)
    (hT : 1 ≤ w.dm.m_thread_num) (h0 : w.dm.m_threads = []) :
    (∃ rs w2, Machine.deliver sys env.calls [] { w with dm := Machine.Download_launch w.dm } = some (rs, w2) ∧
      ∃ N, ∀ fuel, N ≤ fuel → ∃ b w3, Machine.Download sys env fuel w = some (b, w3) ∧
        (b = true ↔
          (∀ l ∈ (Machine.Download_launch w.dm).m_threads, (env.future l.thread_id).result = true) ∧
            (ReleaseMem sys w2).1 = true) ∧
        ((ReleaseMem sys w2).1 = true ↔
          ∀ addr, some addr ∈ w2.dm.m_mems → sys.munmap_ok addr BLOCK_4K = true)) ∧
    (∀ (f : Future) (rest : List Future) (tick : Nat) (undone wait_time : Int) (fuel : Nat),
      f.ready_at ≤ tick → f.result = false → undone ≠ 0 →
      ShowProgress_for (f :: rest) tick undone wait_time = Harvest.failed ∧
      ShowProgress_while (fuel + 1) (f :: rest) tick undone wait_time = some false) ∧
    (∀ fuel b w3, Machine.Download sys env fuel w = some (b, w3) →
      (∃ l ∈ (Machine.Download_launch w.dm).m_threads, (env.future l.thread_id).result = false) →
      b = false) := by
  obtain ⟨r, hr, d1, d2⟩ := Machine_deliver_total sys env.calls []
    { w with dm := Machine.Download_launch w.dm }
  obtain ⟨rs, w2⟩ := r
  simp only at d1 d2
  obtain ⟨hnum, hlen⟩ := Machine_Download_launch_count w.dm hF hT hfit h0
  have hundone : w2.dm.m_thread_num =
      ((w2.dm.m_threads.map (fun l => env.future l.thread_id)).length : Int) := by
    rw [d2, d1, hnum, List.length_map, hlen]
  have hFne : ¬ w.dm.m_filesize = 0 := by omega
  have hall : ∀ (ts : List Launch),
      ((ts.map (fun l => env.future l.thread_id)).all (fun f => f.result) = true ↔
        ∀ l ∈ ts, (env.future l.thread_id).result = true) := by
    intro ts
    simp [List.all_eq_true]
  have hrel : (ReleaseMem sys w2).1 = true ↔
      ∀ addr, some addr ∈ w2.dm.m_mems → sys.munmap_ok addr BLOCK_4K = true := by
    unfold ReleaseMem
    rw [(ReleaseMem_fold sys w2.dm.m_mems true w2).1]
    simp
  refine ⟨⟨rs, w2, hr, (((w2.dm.m_threads.map (fun l => env.future l.thread_id)).map
      (fun g => g.ready_at)).sum + 1), ?_⟩, ?_, ?_⟩
  · intro fuel hfuel
    have hsp := ShowProgress_while_total
      ((w2.dm.m_threads.map (fun l => env.future l.thread_id)).map (fun g => g.ready_at)).sum
      (w2.dm.m_threads.map (fun l => env.future l.thread_id)) 0 w2.dm.m_thread_num
      (Int.tdiv PROGRESS_INTERVAL w2.dm.m_thread_num) fuel hundone
      (fun f hf => by have := ready_at_le_sum _ f hf; omega) hfuel
    unfold Machine.Download
    rw [if_neg hFne]
    simp only [hr]
    unfold ShowProgress
    simp only [hsp]
    cases hres : (w2.dm.m_threads.map (fun l => env.future l.thread_id)).all
        (fun f => f.result) with
    | false =>
      refine ⟨false, w2, rfl, ?_, hrel⟩
      have hne : ¬ ∀ l ∈ (Machine.Download_launch w.dm).m_threads,
          (env.future l.thread_id).result = true := by
        intro h
        rw [← d1] at h
        have := (hall _).mpr h
        rw [hres] at this
        exact absurd this (by decide)
      simp [hne]
    | true =>
      have hyes : ∀ l ∈ (Machine.Download_launch w.dm).m_threads,
          (env.future l.thread_id).result = true := by
        rw [← d1]
        exact (hall _).mp hres
      simp only
      by_cases hrm : (ReleaseMem sys w2).1 = false
      · rw [if_pos hrm]
        refine ⟨false, _, rfl, ?_, hrel⟩
        simp [hrm]
      · rw [if_neg hrm]
        have hrm2 : (ReleaseMem sys w2).1 = true := by
          cases h1 : (ReleaseMem sys w2).1
          · exact absurd h1 hrm
          · rfl
        refine ⟨true, _, rfl, ?_, hrel⟩
        simp [hyes, hrm2]
        exact hyes
  · intro f rest tick undone wait_time fuel hready hfalse hund
    have h1 : ShowProgress_for (f :: rest) tick undone wait_time = Harvest.failed := by
      rw [ShowProgress_for, if_neg (by omega), if_pos hfalse]
    refine ⟨h1, ?_⟩
    rw [ShowProgress_while, if_pos hund, h1]
  · intro fuel b w3 hD hex
    unfold Machine.Download at hD
    rw [if_neg hFne] at hD
    simp only [hr] at hD
    cases hsp : ShowProgress fuel (w2.dm.m_threads.map (fun l => env.future l.thread_id))
        w2.dm with
    | none => rw [hsp] at hD; simp at hD
    | some b1 =>
      rw [hsp] at hD
      cases b1 with
      | false =>
        simp only [Option.some.injEq, Prod.mk.injEq] at hD
        exact hD.1.symm
      | true =>
        exfalso
        obtain ⟨l, hl, hlf⟩ := hex
        have := ShowProgress_while_true fuel _ 0 _ _ hundone hsp (env.future l.thread_id)
          (List.mem_map.mpr ⟨l, by rw [d1]; exact hl, rfl⟩)
        rw [hlf] at this
        exact absurd this (by decide)


/-- The theorem of C10 at `F = 10000`, `T = 4`, `P = 256` with workers that all succeed
at once. -/
theorem C10_witness :
    ∃ rs w2,
      Machine.deliver Sys.allOk Transfer.idle.calls []
          { World.start 10000 4 256 with
            dm := Machine.Download_launch (World.start 10000 4 256).dm } =
        some (rs, w2) ∧
      ∃ N, ∀ fuel, N ≤ fuel → ∃ b w3,
        Machine.Download Sys.allOk Transfer.idle fuel (World.start 10000 4 256) = some (b, w3) ∧
        (b = true ↔
          (∀ l ∈ (Machine.Download_launch (World.start 10000 4 256).dm).m_threads,
            (Transfer.idle.future l.thread_id).result = true) ∧
            (ReleaseMem Sys.allOk w2).1 = true) ∧
        ((ReleaseMem Sys.allOk w2).1 = true ↔
          ∀ addr, some addr ∈ w2.dm.m_mems → Sys.allOk.munmap_ok addr BLOCK_4K = true) :=
  (C10_download_result Sys.allOk Transfer.idle (World.start 10000 4 256) (by decide) (by decide)
    (by decide) rfl).1

/-- C10 as stated fails for `F = 2^43` (8 TiB) and `T = 2`: the page count `2^31` does
not fit an `int`, `num_of_4k_block` becomes `INT_MIN` and so does `m_thread_num`, and
one worker is launched.  When that worker returns true `ShowProgress` harvests it and
counts `undone_thread_num` down from `INT_MIN`; no future is left and the count is
never 0, so `ShowProgress` and `Download` do not return, although every worker
returned true and `ReleaseMem` would succeed. -/
theorem C10_counterexample :
    num_of_4k_block (2 ^ 43) = 2 ^ 31 ∧
    Machine.num_of_4k_block (2 ^ 43) = -2 ^ 31 ∧
    (Machine.Download_launch (World.start (2 ^ 43) 2 256).dm).m_thread_num = -2 ^ 31 ∧
    (Machine.Download_launch (World.start (2 ^ 43) 2 256).dm).m_threads =
      [Launch.mk 0 (2 ^ 43 - 1) 0] ∧
    (∀ l ∈ (Machine.Download_launch (World.start (2 ^ 43) 2 256).dm).m_threads,
      (Transfer.idle.future l.thread_id).result = true) ∧
    (ReleaseMem Sys.allOk
      { World.start (2 ^ 43) 2 256 with
        dm := Machine.Download_launch (World.start (2 ^ 43) 2 256).dm }).1 = true ∧
    ¬ ∃ fuel b w3,
      Machine.Download Sys.allOk Transfer.idle fuel (World.start (2 ^ 43) 2 256) =
        some (b, w3) := by
  refine ⟨by decide, by decide, by decide, by decide, fun _ _ => rfl, by decide, ?_⟩
  rintro ⟨fuel, b, w3, h⟩
  have hF : ¬ (World.start (2 ^ 43) 2 256).dm.m_filesize = 0 := by decide
  have hmap : (Machine.Download_launch (World.start (2 ^ 43) 2 256).dm).m_threads.map
      (fun l => Transfer.idle.future l.thread_id) = [Future.mk 0 true] := by decide
  have hnum : (Machine.Download_launch (World.start (2 ^ 43) 2 256).dm).m_thread_num =
      -2 ^ 31 := by decide
  unfold Machine.Download at h
  rw [if_neg hF] at h
  have hd : Machine.deliver Sys.allOk Transfer.idle.calls []
      { World.start (2 ^ 43) 2 256 with
        dm := Machine.Download_launch (World.start (2 ^ 43) 2 256).dm } =
      some ([], { World.start (2 ^ 43) 2 256 with
        dm := Machine.Download_launch (World.start (2 ^ 43) 2 256).dm }) := rfl
  simp only [hd, hmap] at h
  have hsp : ShowProgress fuel [Future.mk 0 true]
      (Machine.Download_launch (World.start (2 ^ 43) 2 256).dm) = none := by
    unfold ShowProgress
    dsimp only
    rw [hnum]
    cases fuel with
    | zero => rfl
    | succ fuel =>
      rw [ShowProgress_while, if_pos (by decide)]
      simp only [ShowProgress_for]
      rw [if_neg (by decide), if_neg (by decide)]
      exact ShowProgress_while_stuck fuel _ _ _ (by decide)
  rw [hsp] at h
  simp at h

/-! ## Below 2 GiB the machine does what the exact model does -/

theorem launched_Small (w : World) (n : Nat) (hfresh : w.dm.Fresh n)
    (hF : 1 ≤ w.dm.m_filesize) (hT : 1 ≤ w.dm.m_thread_num) (hn : w.dm.m_thread_num ≤ n)
    (hnum : num_of_4k_block w.dm.m_filesize ≤ 2 ^ 19) (calls : List (Nat × List Byte))
    (hids : ∀ c ∈ calls, ∃ l ∈ (Download_launch w.dm).m_threads, l.thread_id = c.1) :
    ∀ c ∈ calls, (Download_launch w.dm).Small c.1 := by
  obtain ⟨⟨s1, s2, s3, s4, s5, s6⟩, h0, _, _⟩ := hfresh
  have hthreads := Download_launch_threads w.dm hF hT
  rw [h0, List.nil_append] at hthreads
  intro c hc
  obtain ⟨l, hl, hlc⟩ := hids c hc
  rw [hthreads] at hl
  rw [← hlc]
  exact launch_Small w.dm n hF hT hn s3 s4 hnum l hl

/-- The round trip on the machine, for a file of at most `2^19` pages (2 GiB) and a
page budget below `2^19`: what `round_trip_exact` states holds of `Machine.Download`,
`Machine.Download_launch` and `Machine.deliver`. -/
theorem Machine_round_trip (sys : Sys) (w : World) (n : Nat) (resource : Int → Byte)
    (hmun : ∀ a l, sys.munmap_ok a l = true) (hmap : ∀ l o, sys.mmap_ok l o = true)
    (hfresh : w.dm.Fresh n) (hT : 1 ≤ w.dm.m_thread_num) (hn : w.dm.m_thread_num ≤ n)
    (hP : 1 ≤ w.dm.m_map_page_num) (hP2 : w.dm.m_map_page_num < 2 ^ 19)
    (hnum : num_of_4k_block w.dm.m_filesize ≤ 2 ^ 19) :
    (w.dm.m_filesize = 0 → ∀ env fuel, Machine.Download sys env fuel w = some (true, w)) ∧
    (1 ≤ w.dm.m_filesize → ∀ calls : List (Nat × List Byte),
      (∀ c ∈ calls, ∃ l ∈ (Machine.Download_launch w.dm).m_threads, l.thread_id = c.1) →
      (∀ l ∈ (Machine.Download_launch w.dm).m_threads,
        received l.thread_id calls = resourceBytes resource l.start_pos l.end_pos) →
      ∃ w1,
        Machine.deliver sys calls [] { w with dm := Machine.Download_launch w.dm } =
          some (List.replicate calls.length true, w1) ∧
        w1.file = storeChunks (segStart (Machine.Download_launch w.dm).m_threads) calls
          (fun _ => 0) w.file ∧
        (∀ i, w1.dm.m_downloaded_sizes.getD i 0 = delivered i calls) ∧
        ∀ o, 0 ≤ o → o < (w.dm.m_filesize : Int) → w1.file o = resource o) := by
  constructor
  · intro h env fuel
    simp [Machine.Download, h]
  · intro hF calls
    rw [Machine_Download_launch_eq w.dm hF hT hnum]
    intro hids hrecv
    rw [Machine_deliver_eq sys calls [] { w with dm := Download_launch w.dm }
      (by
        show (Download_launch w.dm).m_map_page_num < 2 ^ 19
        rw [(Download_launch_fields w.dm).2.2.2.1]
        exact hP2)
      (launched_Small w n hfresh hF hT hn hnum calls hids)]
    exact (round_trip_exact sys w n resource hmun hmap hfresh hT hn hP).2 hF calls hids hrecv

/-- The sink on the machine, for a file of at most `2^19` pages (2 GiB) and a page
budget below `2^19`: what `sink_safe_exact` states holds of `Machine.Download_launch`
and `Machine.deliver`. -/
theorem Machine_sink_safe (sys : Sys) (w : World) (n : Nat) (calls : List (Nat × List Byte))
    (hmun : ∀ a l, sys.munmap_ok a l = true) (hmap : ∀ l o, sys.mmap_ok l o = true)
    (hfresh : w.dm.Fresh n) (hF : 1 ≤ w.dm.m_filesize) (hT : 1 ≤ w.dm.m_thread_num)
    (hn : w.dm.m_thread_num ≤ n) (hP : 1 ≤ w.dm.m_map_page_num)
    (hP2 : w.dm.m_map_page_num < 2 ^ 19) (hnum : num_of_4k_block w.dm.m_filesize ≤ 2 ^ 19)
    (hids : ∀ c ∈ calls, ∃ l ∈ (Machine.Download_launch w.dm).m_threads, l.thread_id = c.1)
    (hlen : ∀ l ∈ (Machine.Download_launch w.dm).m_threads,
      (delivered l.thread_id calls : Int) ≤ l.end_pos - l.start_pos + 1) :
    ∃ w1 evs,
      Machine.deliver sys calls [] { w with dm := Machine.Download_launch w.dm } =
        some (List.replicate calls.length true, w1) ∧
      w1.log = w.log ++ evs ∧
      (∀ i remaining_pages, Event.MapToFile i remaining_pages ∈ evs → remaining_pages ≠ 0) ∧
      (∀ i window_pos k window_len, Event.memcpy i window_pos k window_len ∈ evs →
        (window_pos : Int) + k ≤ window_len ∧ (window_pos : Int) ≤ window_len) := by
  rw [Machine_Download_launch_eq w.dm hF hT hnum] at hids hlen ⊢
  rw [Machine_deliver_eq sys calls [] { w with dm := Download_launch w.dm }
    (by
      show (Download_launch w.dm).m_map_page_num < 2 ^ 19
      rw [(Download_launch_fields w.dm).2.2.2.1]
      exact hP2)
    (launched_Small w n hfresh hF hT hn hnum calls hids)]
  exact sink_safe_exact sys w n calls hmun hmap hfresh hF hT hn hP hids hlen

/-! ## C7: the assignment of the segments on the machine -/

/-- C7 as stated fails.  For `F = 10000`, `T = 4` the range starting at byte 0 goes to
the worker with thread id 1 and thread id 0 gets `[8192, 9999]`; for a file of 11
pages and `T = 3` (`base = 3`, `extra = 2`) the workers with thread ids 0, 1, 2 are
assigned 3, 4, 4 pages, not 4, 4, 3.  The machine and the exact model agree here. -/
theorem C7_counterexample :
    (Download_launch (World.start 10000 4 256).dm).m_threads =
      [Launch.mk 0 4095 1, Launch.mk 4096 8191 2, Launch.mk 8192 9999 0] ∧
    (¬ ∃ l ∈ (Download_launch (World.start 10000 4 256).dm).m_threads,
      l.thread_id = 0 ∧ l.start_pos = 0) ∧
    (Download_launch (World.start 45056 3 256).dm).m_remain_block_num = [3, 4, 4] ∧
    (Machine.Download_launch (World.start 10000 4 256).dm).m_threads =
      [Launch.mk 0 4095 1, Launch.mk 4096 8191 2, Launch.mk 8192 9999 0] ∧
    (Machine.Download_launch (World.start 45056 3 256).dm).m_remain_block_num = [3, 4, 4] := by
  decide

/-- C7, amended.  For a file of `F ≥ 1` bytes and at most `2^19` pages (2 GiB), with
`num = ceil(F/4096)`, `T' = min(T, num)`, `base = num / T'` and `extra = num mod T'`:
the workers are launched in the order of thread ids `1, 2, ..., T' - 1, 0` and the
segments are laid out from page 0 upward in that order.  The worker with thread id
`i`, `1 ≤ i < T'`, is assigned `base + 1` pages when `i ≤ extra` and `base` pages
otherwise, starting at page `(i - 1) * base + min (i - 1) extra`; the worker with thread
id 0 is assigned `base` pages, from page `num - base` to byte `F - 1`.  The statement
is about the machine; beyond `2^19` pages the `int` products of `Download` wrap and
nothing is stated. -/
theorem C7_assignment_by_thread_id (dm : DownloadManager) (n : Nat)
    (hF : 1 ≤ dm.m_filesize) (hnum : num_of_4k_block dm.m_filesize ≤ 2 ^ 19)
    (hT : 1 ≤ dm.m_thread_num) (h0 : dm.m_threads = [])
    (hn : dm.m_thread_num ≤ n) (hl1 : dm.m_block_idxs.length = n)
    (hl2 : dm.m_remain_block_num.length = n) :
    thread_num_clamped dm.m_filesize dm.m_thread_num =
      min dm.m_thread_num ⌈(dm.m_filesize : ℚ) / 4096⌉ ∧
    base_blk_num dm.m_filesize dm.m_thread_num =
      ⌈(dm.m_filesize : ℚ) / 4096⌉ / thread_num_clamped dm.m_filesize dm.m_thread_num ∧
    extra_blk_num dm.m_filesize dm.m_thread_num =
      ⌈(dm.m_filesize : ℚ) / 4096⌉ % thread_num_clamped dm.m_filesize dm.m_thread_num ∧
    (Machine.Download_launch dm).m_threads =
      (List.range (thread_num_clamped dm.m_filesize dm.m_thread_num - 1).toNat).map (fun k =>
        Launch.mk
          (startPage (base_blk_num dm.m_filesize dm.m_thread_num)
            (extra_blk_num dm.m_filesize dm.m_thread_num) k * 4096)
          (startPage (base_blk_num dm.m_filesize dm.m_thread_num)
            (extra_blk_num dm.m_filesize dm.m_thread_num) (k + 1) * 4096 - 1) (k + 1)) ++
      [Launch.mk
        ((⌈(dm.m_filesize : ℚ) / 4096⌉ - base_blk_num dm.m_filesize dm.m_thread_num) * 4096)
        ((dm.m_filesize : Int) - 1) 0] ∧
    (∀ i : Nat, 1 ≤ i → (i : Int) < thread_num_clamped dm.m_filesize dm.m_thread_num →
      (Machine.Download_launch dm).m_remain_block_num.getD i 0 =
        (if (i : Int) ≤ extra_blk_num dm.m_filesize dm.m_thread_num then
          base_blk_num dm.m_filesize dm.m_thread_num + 1
        else base_blk_num dm.m_filesize dm.m_thread_num) ∧
      (Machine.Download_launch dm).m_block_idxs.getD i 0 =
        ((i : Int) - 1) * base_blk_num dm.m_filesize dm.m_thread_num +
          min ((i : Int) - 1) (extra_blk_num dm.m_filesize dm.m_thread_num)) ∧
    (Machine.Download_launch dm).m_remain_block_num.getD 0 0 =
      base_blk_num dm.m_filesize dm.m_thread_num ∧
    (Machine.Download_launch dm).m_block_idxs.getD 0 0 =
      ⌈(dm.m_filesize : ℚ) / 4096⌉ - base_blk_num dm.m_filesize dm.m_thread_num := by
  rw [Machine_Download_launch_eq dm hF hT hnum]
  exact assignment_by_thread_id_exact dm n hF hT h0 hn hl1 hl2

/-- The theorem of C7 (amended) at a file of 11 pages and `T = 3`: the worker with
thread id 0 is assigned `base` pages. -/
theorem C7_witness :
    (Machine.Download_launch (World.start 45056 3 256).dm).m_remain_block_num.getD 0 0 =
      base_blk_num 45056 3 :=
  (C7_assignment_by_thread_id (World.start 45056 3 256).dm 3 (by decide) (by decide) (by decide)
    rfl (by decide) rfl rfl).2.2.2.2.2.1

/-! ## C5: the contract of MapToFile on the machine -/

theorem Machine_MapToFile_map_false_iff (sys : Sys) (w : World) (i : Nat)
    (hmap : ∀ l o, sys.mmap_ok l o = true) (hP : 1 ≤ w.dm.m_map_page_num) :
    (Machine.MapToFile_map sys w i).1 = false ↔ w.dm.m_remain_block_num.getD i 0 ≤ 0 := by
  unfold Machine.MapToFile_map
  dsimp only
  generalize ht : (if w.dm.m_remain_block_num.getD i 0 > w.dm.m_map_page_num then
    w.dm.m_map_page_num else w.dm.m_remain_block_num.getD i 0) = t
  have hiff : t ≤ 0 ↔ w.dm.m_remain_block_num.getD i 0 ≤ 0 := by
    rw [← ht]
    split_ifs <;> omega
  by_cases h0 : t ≤ 0
  · rw [if_pos h0]
    exact ⟨fun _ => hiff.1 h0, fun _ => rfl⟩
  · rw [if_neg h0, if_neg (by rw [hmap]; simp)]
    constructor
    · intro h
      simp at h
    · intro h
      exact absurd (hiff.2 h) h0

/-- With `munmap` and `mmap` succeeding and a page budget `P ≥ 1`, `MapToFile` on the
machine returns false exactly when `m_remain_block_num[i] ≤ 0`. -/
theorem Machine_MapToFile_false_iff (sys : Sys) (w : World) (i : Nat)
    (hmun : ∀ a l, sys.munmap_ok a l = true) (hmap : ∀ l o, sys.mmap_ok l o = true)
    (hP : 1 ≤ w.dm.m_map_page_num) :
    (Machine.MapToFile sys w i).1 = false ↔ w.dm.m_remain_block_num.getD i 0 ≤ 0 := by
  unfold Machine.MapToFile
  dsimp only
  cases hm : w.dm.m_mems.getD i none with
  | none =>
    dsimp only
    rw [if_neg (by simp)]
    exact Machine_MapToFile_map_false_iff sys _ i hmap hP
  | some addr =>
    dsimp only
    rw [if_neg (by rw [hmun]; simp)]
    exact Machine_MapToFile_map_false_iff sys _ i hmap hP

/-- The contract of remap on the machine, with `munmap` and `mmap` succeeding and a
page budget `P ≥ 1`: the call returns false exactly when `remaining_pages ≤ 0`; and
for a worker whose pages end at or before page `2^19`, with a page budget below `2^19`,
a call with pages left does what `MapToFile_contract_exact` states. -/
theorem Machine_MapToFile_contract (sys : Sys) (w : World) (i n : Nat)
    (hmun : ∀ a l, sys.munmap_ok a l = true) (hmap : ∀ l o, sys.mmap_ok l o = true)
    (hP : 1 ≤ w.dm.m_map_page_num) (hs : w.dm.Sized n) (hi : i < n) :
    ((Machine.MapToFile sys w i).1 = false ↔ (w.dm.worker i).remaining_pages ≤ 0) ∧
    (0 < (w.dm.worker i).remaining_pages → w.dm.Small i → w.dm.m_map_page_num < 2 ^ 19 →
      (Machine.MapToFile sys w i).2.dm.worker i =
        { downloaded_bytes := (w.dm.worker i).downloaded_bytes
          cursor_page := (w.dm.worker i).cursor_page +
            min w.dm.m_map_page_num (w.dm.worker i).remaining_pages
          remaining_pages := (w.dm.worker i).remaining_pages -
            min w.dm.m_map_page_num (w.dm.worker i).remaining_pages
          window := some ((w.dm.worker i).cursor_page * 4096)
          window_len := min w.dm.m_map_page_num (w.dm.worker i).remaining_pages * 4096
          window_pos := 0 } ∧
      (Machine.MapToFile sys w i).2.log =
        w.log ++ [Event.MapToFile i (w.dm.worker i).remaining_pages] ++
          (match (w.dm.worker i).window with
            | some addr => [Event.munmap addr (w.dm.worker i).window_len]
            | none => []) ++
          [Event.mmap (4096 * min w.dm.m_map_page_num (w.dm.worker i).remaining_pages)
            ((w.dm.worker i).cursor_page * 4096)] ∧
      (Machine.MapToFile sys w i).2.file = w.file ∧
      (∀ j, j ≠ i → (Machine.MapToFile sys w i).2.dm.worker j = w.dm.worker j)) := by
  refine ⟨Machine_MapToFile_false_iff sys w i hmun hmap hP, ?_⟩
  intro hr hS hP2
  rw [Machine_MapToFile_eq sys w i hS.1 hS.2 (Or.inl hP2)]
  have hr0 : 0 ≤ (w.dm.worker i).remaining_pages := by omega
  have hne : (w.dm.worker i).remaining_pages ≠ 0 := by omega
  exact (MapToFile_contract_exact sys w i n hmun hmap hP hs hi hr0).2 hne

/-- C5 fails for the worker with thread id 0 of a file of 5 GiB with the default five
workers and 256 pages per window (`F = 5 * 2^30`, `T = 5`, `P = 256`), with every
`mmap` and `munmap` succeeding.  Its state after the launch is `cursor_page = 2^20`,
`remaining_pages = 2^18`, no window.  `MapToFile(0)` returns true and maps
`to_map = 256` pages, but at file offset 0 instead of `cursor_page * 4096 = 2^32`:
the offset `m_block_idxs[0] * BLOCK_4K` is a product of two `int` and wraps.  In
exact arithmetic the window is at `2^32`.  For the worker with thread id 3, whose
`cursor_page` is `2^19`, the offset is `-2^31` instead of `2^31`. -/
theorem C5_MapToFile_offset_wraps :
    (Machine.Download_launch (World.start (5 * 2 ^ 30) 5 256).dm).worker 0 =
      { downloaded_bytes := 0, cursor_page := 2 ^ 20, remaining_pages := 2 ^ 18, window := none,
        window_len := 0, window_pos := 0 } ∧
    (Machine.MapToFile Sys.allOk
      { World.start (5 * 2 ^ 30) 5 256 with
        dm := Machine.Download_launch (World.start (5 * 2 ^ 30) 5 256).dm } 0).1 = true ∧
    (Machine.MapToFile Sys.allOk
      { World.start (5 * 2 ^ 30) 5 256 with
        dm := Machine.Download_launch (World.start (5 * 2 ^ 30) 5 256).dm } 0).2.dm.worker 0 =
      { downloaded_bytes := 0, cursor_page := 2 ^ 20 + 256, remaining_pages := 2 ^ 18 - 256,
        window := some 0, window_len := 256 * 4096, window_pos := 0 } ∧
    (Machine.MapToFile Sys.allOk
      { World.start (5 * 2 ^ 30) 5 256 with
        dm := Machine.Download_launch (World.start (5 * 2 ^ 30) 5 256).dm } 0).2.log =
      [Event.MapToFile 0 (2 ^ 18), Event.mmap (256 * 4096) 0] ∧
    (MapToFile Sys.allOk
      { World.start (5 * 2 ^ 30) 5 256 with
        dm := Download_launch (World.start (5 * 2 ^ 30) 5 256).dm } 0).2.dm.worker 0 =
      { downloaded_bytes := 0, cursor_page := 2 ^ 20 + 256, remaining_pages := 2 ^ 18 - 256,
        window := some (2 ^ 20 * 4096), window_len := 256 * 4096, window_pos := 0 } ∧
    (Machine.Download_launch (World.start (5 * 2 ^ 30) 5 256).dm).worker 3 =
      { downloaded_bytes := 0, cursor_page := 2 ^ 19, remaining_pages := 2 ^ 18, window := none,
        window_len := 0, window_pos := 0 } ∧
    (Machine.MapToFile Sys.allOk
      { World.start (5 * 2 ^ 30) 5 256 with
        dm := Machine.Download_launch (World.start (5 * 2 ^ 30) 5 256).dm } 3).2.log =
      [Event.MapToFile 3 (2 ^ 18), Event.mmap (256 * 4096) (-2 ^ 31)] := by
  decide

/-! ## C2 and C4: the sink on the machine -/

/-- C2 fails for a file of 5 GiB with the default five workers and 256 pages per window
(`F = 5 * 2^30`, `T = 5`, `P = 256`), with every `mmap` and `munmap` succeeding.  The
segment of the worker with thread id 0 starts at byte `2^32` and that of the worker
with thread id 1 at byte 0.  The first byte that the sink of worker 0 accepts is
stored at file offset 0, not at `seg.start + 0 = 2^32`: the offset of its window,
`m_block_idxs[0] * BLOCK_4K`, is a product of two `int` and wraps to 0 (the same
happens when `mmap` behaves as on Linux).  So when worker 1 has stored byte 0 of the
resource and worker 0 then stores byte `2^32` of it, byte 0 of the file holds the byte
of worker 0; in exact arithmetic each byte is where it belongs. -/
theorem C2_bytes_land_in_another_segment :
    (Machine.Download_launch (World.start (5 * 2 ^ 30) 5 256).dm).m_threads =
      [Launch.mk 0 (2 ^ 30 - 1) 1, Launch.mk (2 ^ 30) (2 * 2 ^ 30 - 1) 2,
        Launch.mk (2 * 2 ^ 30) (3 * 2 ^ 30 - 1) 3, Launch.mk (3 * 2 ^ 30) (4 * 2 ^ 30 - 1) 4,
        Launch.mk (4 * 2 ^ 30) (5 * 2 ^ 30 - 1) 0] ∧
    segStart (Machine.Download_launch (World.start (5 * 2 ^ 30) 5 256).dm).m_threads 0 =
      2 ^ 32 ∧
    (Machine.WriteFileBulkCallback Sys.allOk
      { World.start (5 * 2 ^ 30) 5 256 with
        dm := Machine.Download_launch (World.start (5 * 2 ^ 30) 5 256).dm } [65] 0).map
      (fun r => (r.1, r.2.file 0, r.2.file (2 ^ 32), r.2.log)) =
      some (true, 65, 0,
        [Event.MapToFile 0 (2 ^ 18), Event.mmap (256 * 4096) 0, Event.memcpy 0 0 1 (256 * 4096)]) ∧
    (Machine.WriteFileBulkCallback Sys.linux
      { World.start (5 * 2 ^ 30) 5 256 with
        dm := Machine.Download_launch (World.start (5 * 2 ^ 30) 5 256).dm } [65] 0).map
      (fun r => (r.1, r.2.file 0, r.2.file (2 ^ 32))) = some (true, 65, 0) ∧
    (Machine.deliver Sys.allOk [(1, [66]), (0, [65])] []
      { World.start (5 * 2 ^ 30) 5 256 with
        dm := Machine.Download_launch (World.start (5 * 2 ^ 30) 5 256).dm }).map
      (fun r => (r.1, r.2.file 0, r.2.file (2 ^ 32))) = some ([true, true], 65, 0) ∧
    (deliver Sys.allOk [(1, [66]), (0, [65])] []
      { World.start (5 * 2 ^ 30) 5 256 with
        dm := Download_launch (World.start (5 * 2 ^ 30) 5 256).dm }).map
      (fun r => (r.1, r.2.file 0, r.2.file (2 ^ 32))) = some ([true, true], 66, 65) := by
  decide

/-- C4 fails for a file of `2^20 + 1` pages, one worker and a page budget of `2^20 + 1`
pages (`F = (2^20 + 1) * 4096`, `T = 1`, `P = 2^20 + 1`), with every `mmap` and
`munmap` succeeding.  The segment of the worker is `[0, F - 1]`, and 65 chunks of 64
bytes, 4160 bytes in all, are far less than it has.  For the first chunk the sink
maps `to_map = 2^20 + 1` pages; the length `BLOCK_4K * to_map_block_num` and the
window length `to_map_block_num * BLOCK_4K` are products of two `int` and wrap to
4096, so the window has one page and `m_remain_block_num[0]` is 0.  The first 64
chunks fill the window and their sink calls return true; for chunk 65 the sink
enters `MapToFile` with `remaining_pages = 0` and returns false.  In exact arithmetic
the window has `F` bytes and all 65 calls return true. -/
theorem C4_sink_fails_inside_its_segment :
    num_of_4k_block ((2 ^ 20 + 1) * 4096) = 2 ^ 20 + 1 ∧
    (Machine.Download_launch (World.start ((2 ^ 20 + 1) * 4096) 1 (2 ^ 20 + 1)).dm).m_threads =
      [Launch.mk 0 ((2 ^ 20 + 1) * 4096 - 1) 0] ∧
    delivered 0 (List.replicate 65 (0, List.replicate 64 65)) = 4160 ∧
    (Machine.deliver Sys.allOk (List.replicate 65 (0, List.replicate 64 65)) []
      { World.start ((2 ^ 20 + 1) * 4096) 1 (2 ^ 20 + 1) with
        dm := Machine.Download_launch
          (World.start ((2 ^ 20 + 1) * 4096) 1 (2 ^ 20 + 1)).dm }).map
      (fun r => (r.1, r.2.log)) =
      some (List.replicate 64 true ++ [false],
        [Event.MapToFile 0 (2 ^ 20 + 1), Event.mmap 4096 0] ++
          (List.range 64).map (fun k => Event.memcpy 0 (64 * k) 64 4096) ++
          [Event.memcpy 0 4096 0 4096, Event.MapToFile 0 0, Event.munmap 0 4096]) ∧
    (deliver Sys.allOk (List.replicate 65 (0, List.replicate 64 65)) []
      { World.start ((2 ^ 20 + 1) * 4096) 1 (2 ^ 20 + 1) with
        dm := Download_launch (World.start ((2 ^ 20 + 1) * 4096) 1 (2 ^ 20 + 1)).dm }).map
      (fun r => r.1) = some (List.replicate 65 true) := by
  decide

end MultithreadDownloader
